import Mathlib

/-!
# Verification of the 3-edge-connected-components program (`triconnect.c`)

This file gives a shallow embedding of the LEDA-based C++ program
`src/reference/c_code/triconnect.c` and proves or refutes the claims of its
specification.

Modelling conventions (the program is built on the LEDA graph library):

* A graph is an arena of `n` nodes (ids `0..n-1`, creation order) and a list
  of edges (ids in creation order).  Each edge stores its two endpoints and a
  `hidden` flag (`graph::hide_edge` sets the flag; LEDA removes hidden edges
  from adjacency iteration, which we model by having all iteration and degree
  primitives skip hidden edges).
* `adj` stores, per node, the ids of its incident edges in LEDA adjacency
  order: edges are appended on creation and re-appended by `move_edge`
  (LEDA appends a moved edge at the end of the new endpoints' lists).
  Hidden edges keep their list position but are invisible to `first`/`succ`
  iteration and to `degree`; this realises the "next-cursor" iterator
  contract of the spec (section 4.1), whose behaviour on a mutated current
  edge is explicitly unspecified.
* A self-loop appears once in its endpoint's adjacency list and counts once
  in `degree` (the spec defines `degree(v)` as the count of visible incident
  edges).
* `cout` diagnostics are dropped; `exit(...)` calls become the `.fail`
  constructor of the `Out` outcome type (carrying the state at the abort).
-/

namespace Triconn

/-- One LEDA edge: endpoints (`source`, `target`) and the hidden flag. -/
structure GEdge where
  src : Nat
  tgt : Nat
  hidden : Bool
deriving DecidableEq, Repr

instance : Inhabited GEdge := ⟨⟨0, 0, true⟩⟩

/-- A LEDA graph: `n` nodes `0..n-1`, an arena of edges (edge id = position
in `edges`), and the per-node adjacency lists (edge ids in LEDA order). -/
structure Graph where
  n : Nat
  edges : List GEdge
  adj : List (List Nat)
deriving DecidableEq, Repr

/-- Edge record of id `i` (out-of-range ids yield a hidden dummy edge, so
they are invisible to every iteration primitive). -/
def Graph.eAt (g : Graph) (i : Nat) : GEdge :=
  g.edges.getD i default

/-- `!G.is_hidden(e)`: edge id `i` is a real, non-hidden edge. -/
def Graph.visible (g : Graph) (i : Nat) : Bool :=
  !(g.eAt i).hidden

/-- `G.opposite(v, e)`: the other endpoint of `e` as seen from `v`
(LEDA: returns `target` if `v` is the source, else `source`). -/
def GEdge.opposite (e : GEdge) (v : Nat) : Nat :=
  if e.src = v then e.tgt else e.src

/-- Adjacency list of node `v`. -/
def Graph.adjOf (g : Graph) (v : Nat) : List Nat :=
  g.adj.getD v []

/-- `G.degree(v)`: number of visible incident edges. -/
def Graph.degree (g : Graph) (v : Nat) : Nat :=
  ((g.adjOf v).filter g.visible).length

/-- `First_Inout_Edge(v)` / `G.first_adj_edge(v)`: first visible incident
edge of `v`. -/
def Graph.firstVis (g : Graph) (v : Nat) : Option Nat :=
  (g.adjOf v).find? g.visible

/-- The suffix of `l` strictly after the first occurrence of `i`
(`[]` when `i` does not occur). -/
def afterIn (l : List Nat) (i : Nat) : List Nat :=
  match l with
  | [] => []
  | x :: xs => if x = i then xs else afterIn xs i

/-- `Succ_Inout_Edge(e, v)`: next visible edge after `e` in `v`'s adjacency
list.  A hidden `e` keeps its list position, so the successor of an edge
hidden after the cursor was captured is still the next visible edge after
that position. -/
def Graph.succVis (g : Graph) (v : Nat) (i : Nat) : Option Nat :=
  (afterIn (g.adjOf v) i).find? g.visible

/-- Replace node `v`'s adjacency list. -/
def Graph.setAdj (g : Graph) (v : Nat) (l : List Nat) : Graph :=
  { g with adj := g.adj.set v l }

/-- `G.hide_edge(e)`: set the hidden flag (the edge becomes invisible to
iteration and degree queries but keeps its identity). -/
def Graph.hideEdge (g : Graph) (i : Nat) : Graph :=
  { g with edges := g.edges.set i { g.eAt i with hidden := true } }

/-- `G.move_edge(e, u, v)`: rewrite the endpoints of `e` to `(u, v)`.
LEDA removes the edge from its old endpoints' adjacency lists and appends it
to the new endpoints' lists. -/
def Graph.moveEdge (g : Graph) (i : Nat) (u v : Nat) : Graph :=
  let e := g.eAt i
  let g1 := g.setAdj e.src ((g.adjOf e.src).erase i)
  let g2 := g1.setAdj e.tgt ((g1.adjOf e.tgt).erase i)
  let g3 := { g2 with edges := g2.edges.set i { e with src := u, tgt := v } }
  let g4 := g3.setAdj u ((g3.adjOf u).concat i)
  if u = v then g4 else g4.setAdj v ((g4.adjOf v).concat i)

/-- `G.new_edge(u, v)`: append a fresh visible edge with endpoints `(u, v)`;
its id is appended to both endpoints' adjacency lists (once for a loop). -/
def Graph.newEdge (g : Graph) (u v : Nat) : Graph :=
  let i := g.edges.length
  let g1 := { g with edges := g.edges.concat ⟨u, v, false⟩ }
  let g2 := g1.setAdj u ((g1.adjOf u).concat i)
  if u = v then g2 else g2.setAdj v ((g2.adjOf v).concat i)

/-- A graph of `n` isolated nodes. -/
def emptyGraph (n : Nat) : Graph :=
  ⟨n, [], List.replicate n []⟩

/-- The graph with `n` nodes and one visible edge per pair in `prs`,
in creation order. -/
def mkGraph (n : Nat) (prs : List (Nat × Nat)) : Graph :=
  prs.foldl (fun g p => g.newEdge p.1 p.2) (emptyGraph n)

/-- Ids of all visible edges, in id order (`forall_edges` iterates the
non-hidden edges). -/
def Graph.visibleIds (g : Graph) : List Nat :=
  (List.range g.edges.length).filter g.visible

/-!
## The input reader `read_dim`

`read_dim` is modelled at the token level: the input stream is the header
`N M` followed by the list of integer pairs.  In the C source the node array
`AA` has `n+1` slots of which only `AA[0..n-1]` are assigned fresh nodes
(`for (i=0; i<n; i++) AA[i] = G.new_node();`); the edge loop then reads each
pair `v w` and calls `G.new_edge(AA[v], AA[w])`.  Hence input id `v` denotes
the node created at position `v` (internal id `v`), and `AA[n]` is an
uninitialised pointer: an input line mentioning id `n` dereferences
uninitialised memory.  Uninitialised or out-of-bounds access is modelled as
`none`. -/

/-- Slot `v` of the node array `AA` built by `read_dim`: the node with
internal id `v` when `v < n`, uninitialised garbage (`none`) otherwise. -/
def lookupAA (n v : Nat) : Option Nat :=
  if v < n then some v else none

/-- `read_dim`: reads `n`, `m` and then `m` pairs, creating `n` nodes and
one edge per pair via the `AA` table.  A `none` result marks undefined
behaviour (uninitialised node pointer) or an input with fewer than `m`
pairs. -/
def read_dim (n m : Nat) (prs : List (Nat × Nat)) : Option Graph :=
  if prs.length = m then
    prs.foldl
      (fun og p => og.bind (fun g =>
        match lookupAA n p.1, lookupAA n p.2 with
        | some a, some b => some (g.newEdge a b)
        | _, _ => none))
      (some (emptyGraph n))
  else none

/-!
## Outcomes

`exit(...)` sites of the C code are modelled by the `fail` constructor;
it carries the state at the moment of the abort. -/

inductive Out (α : Type) where
  | ok : α → Out α
  | fail : α → Out α
deriving DecidableEq, Repr

/-- The carried value, whether the run completed or aborted. -/
def Out.get {α : Type} : Out α → α
  | .ok a => a
  | .fail a => a

/-!
## DFS state

Per-vertex arrays of `triedge_dfs` plus the mutable block graph.  `pre` uses
the C sentinel `-1` for "undiscovered".  (`count1` and `cols` are threaded
through the C functions but never read; they are dropped.) -/

structure St where
  g : Graph
  pre : List Int
  lowpt : List Int
  father : List (Option Nat)
  sigma : List (List Nat)
  count2 : Nat
deriving DecidableEq, Repr

def St.preOf (st : St) (v : Nat) : Int := st.pre.getD v (-1)

def St.lowptOf (st : St) (v : Nat) : Int := st.lowpt.getD v 0

def St.sigmaOf (st : St) (v : Nat) : List Nat := st.sigma.getD v []

/-- `sigma[x0].conc(sigma[xi])`: LEDA `conc` moves the contents of the
second list wholesale onto the end of the first, leaving the second empty. -/
def concSigma (st : St) (x0 xi : Nat) : St :=
  if x0 = xi then st
  else
    { st with
      sigma := (st.sigma.set x0 (st.sigmaOf x0 ++ st.sigmaOf xi)).set xi [] }

/-!
## Path absorption (`AbsorbPath`, both variants)

Both variants run, for each absorbed vertex `xi` with new tail `xm1`, the
same inner edge loop: every visible edge `e = (xi, z)` is hidden when
`z == xm1 || z == x0` and otherwise moved to `(x0, z)` (aborting on a
self-loop).  The C loop captures the next cursor before mutating the current
edge, and the mutations only ever remove the current edge from `xi`'s list
(hiding it, or moving it to `x0`'s and `z`'s lists, both distinct from
`xi`), so the loop is equivalent to folding over the snapshot of `xi`'s
visible adjacency taken when the loop starts. -/

/-- The inner edge loop of `AbsorbPath`, over the snapshot `es` of `xi`'s
visible incident edges. -/
def rewireEdges (x0 xm1 xi : Nat) : List Nat → St → Out St
  | [], st => .ok st
  | e :: rest, st =>
    let ee := st.g.eAt e
    let z := ee.opposite xi
    if z = xm1 ∨ z = x0 then
      rewireEdges x0 xm1 xi rest { st with g := st.g.hideEdge e }
    else if ee.src = ee.tgt then .fail st
    else rewireEdges x0 xm1 xi rest { st with g := st.g.moveEdge e x0 z }

/-- Rewiring of all visible edges of the absorbed vertex `xi`. -/
def rewire (st : St) (xi xm1 x0 : Nat) : Out St :=
  rewireEdges x0 xm1 xi ((st.g.adjOf xi).filter st.g.visible) st

/-- The tail-popping loop of Variant A.  `revP` lists the items still in the
path in pop order (tail first); `xm1` is the most recently popped value.
The loop stops as soon as the popped value equals the head `x0`. -/
def goA (x0 : Nat) : Nat → List Nat → St → Out (St × List Nat)
  | _, [], st => .ok (st, [])
  | xm1, x :: rest, st =>
    if xm1 = x0 then .ok (st, (x :: rest).reverse)
    else
      let st1 := concSigma st x0 xm1
      match rewire st1 xm1 x x0 with
      | .fail s => .fail (s, rest.reverse)
      | .ok s => goA x0 x rest s

/-- Variant A `absorb(P)` (C: `AbsorbPath(G, sigma, cols, P)`): pops the
tail of `P` repeatedly, absorbing each popped vertex into the head `x0`.
Returns the final state together with the final contents of `P`. -/
def absorbA (st : St) (P : List Nat) : Out (St × List Nat) :=
  match P with
  | [] => .ok (st, [])
  | x0 :: t =>
    match t.getLast? with
    | none => .ok (st, [])
    | some xm1 => goA x0 xm1 ((x0 :: t.dropLast).reverse) st

/-- The last occurrence split: `splitLast t v = some (pre, suf)` when
`t = pre ++ v :: suf` with `v ∉ suf`; `none` when `v ∉ t`.  This is the
backward scan from the tail by which Variant B locates its target. -/
def splitLast (t : List Nat) (v : Nat) : Option (List Nat × List Nat) :=
  match t with
  | [] => none
  | x :: xs =>
    match splitLast xs v with
    | some (p, s) => some (x :: p, s)
    | none => if x = v then some ([], xs) else none

/-- The absorbing walk of Variant B from the located target back toward the
head: `xi` is the vertex being absorbed, `ps` the values of the items below
it (descending toward the head); an empty `ps` means the next item is the
head itself.  The C loop stops once the new tail value equals `u = x0`. -/
def goB (x0 : Nat) : Nat → List Nat → St → Out St
  | xi, [], st =>
    match rewire st xi x0 x0 with
    | .fail s => .fail s
    | .ok s => .ok (concSigma s x0 xi)
  | xi, p :: rest, st =>
    match rewire st xi p x0 with
    | .fail s => .fail s
    | .ok s =>
      let s1 := concSigma s x0 xi
      if p = x0 then .ok s1
      else goB x0 p rest s1

/-- Variant B `absorb(P, from=u, to=v)` (C: `AbsorbPath(G, sigma, cols, P,
u, v)`): scans backward from the tail for `v` (silently returning when `v`
is absent), then absorbs the items from `v` down to (but excluding) the
head, which must be `u` (debug assertion `exit(0)` otherwise; the walk also
stops early at any intermediate item whose value equals `u`). -/
def absorbB (st : St) (P : List Nat) (u v : Nat) : Out (St × List Nat) :=
  match P with
  | [] => .ok (st, P)
  | x0 :: t =>
    if x0 ≠ u then .fail (st, P)
    else
      match splitLast t v with
      | none => .ok (st, P)
      | some (pre, suf) =>
        let rem := match splitLast pre x0 with
                   | none => x0 :: suf
                   | some (a, _) => x0 :: (a ++ x0 :: suf)
        match goB x0 v pre.reverse st with
        | .fail s => .fail (s, rem)
        | .ok s => .ok (s, rem)

/-!
## The triconnectivity DFS (`triedge_dfs`)

The recursive C function and its inner adjacency loop are embedded as one
fuel-indexed function `run` over two call forms: `.vis w parent` is the body
of `triedge_dfs(G, sigma, w, v, ...)` up to the start of its edge loop, and
`.loop w parent cur Pw` is one iteration of the edge loop with current edge
cursor `cur`.  Running out of fuel aborts (`.fail`); every claim about a
completed DFS is stated for runs that return `.ok`, and fuel-insensitive
invariants are proved for both outcomes.  The result pairs the final state
with the final contents of the path `Pw` owned by the call. -/

inductive Call where
  | vis (w : Nat) (parent : Option Nat)
  | loop (w : Nat) (parent : Option Nat) (cur : Option Nat) (Pw : List Nat)
deriving DecidableEq, Repr

/-- One fuel-indexed step machine covering `triedge_dfs` and its edge loop.
Each C construct is kept in source order: cursor capture (`nxte`) before any
mutation, the hidden-edge skip, the parent skip, the self-loop case (which
hides the edge and `break`s out of the loop), the low-degree skip, the tree
edge case (recursion, degree-2 contraction, absorb-or-extend) and the two
back-edge cases. -/
def run : Nat → St → Call → Out (St × List Nat)
  | 0, st, _ => .fail (st, [])
  | fuel+1, st, .vis w parent =>
    let st1 : St := { st with pre := st.pre.set w (Int.ofNat st.count2),
                              count2 := st.count2 + 1 }
    let st2 : St := { st1 with father := st1.father.set w parent }
    let st3 : St := { st2 with lowpt := st2.lowpt.set w (st2.preOf w) }
    run fuel st3 (.loop w parent (st3.g.firstVis w) [w])
  | _+1, st, .loop _ _ none Pw => .ok (st, Pw)
  | fuel+1, st, .loop w parent (some e) Pw =>
    let ee := st.g.eAt e
    let u := ee.opposite w
    let nxte := st.g.succVis w e
    if ¬ st.g.visible e then run fuel st (.loop w parent nxte Pw)
    else if some u = parent then run fuel st (.loop w parent nxte Pw)
    else if u = w then
      .ok ({ st with g := st.g.hideEdge e }, Pw)
    else if st.g.degree u < 2 then run fuel st (.loop w parent nxte Pw)
    else if st.preOf u < 0 then
      match run fuel st (.vis u (some w)) with
      | .fail s => .fail s
      | .ok (st1, Pu) =>
        let contract : Out (St × List Nat) :=
          if st1.g.degree u = 2 then
            let sth : St := { st1 with g := st1.g.hideEdge e }
            match sth.g.firstVis u with
            | none => .fail (sth, Pu)
            | some euz =>
              let z := (sth.g.eAt euz).opposite u
              if u = z then .fail (sth, Pu)
              else
                let stm : St := { sth with g := sth.g.moveEdge euz w z }
                match Pu with
                | [] => .fail (stm, Pu)
                | x :: rest => if x ≠ u then .fail (stm, rest) else .ok (stm, rest)
          else .ok (st1, Pu)
        match contract with
        | .fail s => .fail s
        | .ok (st2, Pu2) =>
          if st2.lowptOf w ≤ st2.lowptOf u then
            match absorbA st2 (w :: Pu2) with
            | .fail s => .fail s
            | .ok (st3, Pu3) =>
              if Pu3 ≠ [] then .fail (st3, Pw)
              else run fuel st3 (.loop w parent nxte Pw)
          else
            let st2a : St := { st2 with lowpt := st2.lowpt.set w (st2.lowptOf u) }
            match absorbA st2a Pw with
            | .fail s => .fail s
            | .ok (st3, Pw3) =>
              if Pw3 ≠ [] then .fail (st3, Pw3)
              else run fuel st3 (.loop w parent nxte (w :: (Pw3 ++ Pu2)))
    else
      if st.preOf u < st.preOf w then
        if st.preOf u < st.lowptOf w then
          match absorbA st Pw with
          | .fail s => .fail s
          | .ok (st1, _) =>
            let st2 : St := { st1 with lowpt := st1.lowpt.set w (st1.preOf u) }
            run fuel st2 (.loop w parent nxte [w])
        else
          let st1 : St := if st.preOf u < st.lowptOf w then
                            { st with lowpt := st.lowpt.set w (st.preOf u) }
                          else st
          run fuel st1 (.loop w parent nxte Pw)
      else
        match (if st.preOf u > st.preOf w then absorbB st Pw w u else .ok (st, Pw)) with
        | .fail s => .fail s
        | .ok (st1, Pw1) =>
          let st2 : St := if st1.preOf u < st1.lowptOf w then
                            { st1 with lowpt := st1.lowpt.set w (st1.preOf u) }
                          else st1
          run fuel st2 (.loop w parent nxte Pw1)

/-- The initial per-block DFS state built by `TRICONNECTED_COMPONENTS`
before calling `triedge_dfs`: `pre = -1`, `lowpt = 0`, `father = NULL`, and
`sigma[v] = [v]` for every node of the block graph. -/
def initSt (g : Graph) : St :=
  { g := g,
    pre := List.replicate g.n (-1),
    lowpt := List.replicate g.n 0,
    father := List.replicate g.n none,
    sigma := (List.range g.n).map (fun v => [v]),
    count2 := 0 }

/-- `triedge_dfs(H, sigma, r, NULL, ...)` from the freshly initialised
state. -/
def triedge_dfs (fuel : Nat) (g : Graph) (r : Nat) : Out (St × List Nat) :=
  run fuel (initSt g) (.vis r none)

/-!
## Basic lemmas about the substrate and the absorption loops
-/

theorem newEdge_n (g : Graph) (u v : Nat) : (g.newEdge u v).n = g.n := by
  simp only [Graph.newEdge, Graph.setAdj]
  split <;> rfl

theorem newEdge_edges (g : Graph) (u v : Nat) :
    (g.newEdge u v).edges = g.edges ++ [⟨u, v, false⟩] := by
  simp only [Graph.newEdge, Graph.setAdj]
  split <;> simp

theorem mkGraph_n (n : Nat) (prs : List (Nat × Nat)) : (mkGraph n prs).n = n := by
  suffices h : ∀ g : Graph, (prs.foldl (fun g p => g.newEdge p.1 p.2) g).n = g.n by
    exact h (emptyGraph n)
  induction prs with
  | nil => intro g; rfl
  | cons p ps ih => intro g; rw [List.foldl_cons, ih, newEdge_n]

theorem mkGraph_edges (n : Nat) (prs : List (Nat × Nat)) :
    (mkGraph n prs).edges = prs.map (fun p => ⟨p.1, p.2, false⟩) := by
  suffices h : ∀ g : Graph, (prs.foldl (fun g p => g.newEdge p.1 p.2) g).edges
      = g.edges ++ prs.map (fun p => ⟨p.1, p.2, false⟩) by
    simpa using h (emptyGraph n)
  induction prs with
  | nil => intro g; simp
  | cons p ps ih => intro g; rw [List.foldl_cons, ih, newEdge_edges]; simp

theorem read_dim_foldl (n : Nat) (prs : List (Nat × Nat))
    (h : ∀ p ∈ prs, p.1 < n ∧ p.2 < n) (g : Graph) :
    prs.foldl
      (fun og p => og.bind (fun g =>
        match lookupAA n p.1, lookupAA n p.2 with
        | some a, some b => some (g.newEdge a b)
        | _, _ => none))
      (some g)
    = some (prs.foldl (fun g p => g.newEdge p.1 p.2) g) := by
  induction prs generalizing g with
  | nil => rfl
  | cons p ps ih =>
    have h1 := (h p (by simp)).1
    have h2 := (h p (by simp)).2
    rw [List.foldl_cons, List.foldl_cons]
    have e1 : lookupAA n p.1 = some p.1 := by simp [lookupAA, h1]
    have e2 : lookupAA n p.2 = some p.2 := by simp [lookupAA, h2]
    have hb : ((some g).bind (fun g =>
        match lookupAA n p.1, lookupAA n p.2 with
        | some a, some b => some (g.newEdge a b)
        | _, _ => none)) = some (g.newEdge p.1 p.2) := by
      simp [e1, e2]
    rw [hb]
    exact ih (fun q hq => h q (by simp [hq])) _

/-- The tail loop of Variant A consumes its whole pop list when the head
value `x0` occurs only at the very end of the pop order. -/
theorem goA_consumes (x0 : Nat) (l : List Nat) :
    ∀ st xm1, x0 ∉ l → xm1 ≠ x0 →
      ∀ s P', goA x0 xm1 (l ++ [x0]) st = .ok (s, P') → P' = [] := by
  induction l with
  | nil =>
    intro st xm1 _ hne s P' h
    simp only [List.nil_append, goA, if_neg hne] at h
    cases hrw : rewire (concSigma st x0 xm1) xm1 x0 x0 with
    | fail s0 => rw [hrw] at h; cases h
    | ok s0 =>
      rw [hrw] at h
      simp only [goA] at h
      cases h; rfl
  | cons a l ih =>
    intro st xm1 hmem hne s P' h
    simp only [List.cons_append, goA, if_neg hne] at h
    cases hrw : rewire (concSigma st x0 xm1) xm1 a x0 with
    | fail s0 => rw [hrw] at h; cases h
    | ok s0 =>
      rw [hrw] at h
      exact ih s0 a (fun hx => hmem (List.mem_cons_of_mem _ hx))
        (fun hx => hmem (hx ▸ List.mem_cons_self a l)) s P' h

theorem splitLast_eq_none (t : List Nat) (v : Nat) :
    splitLast t v = none ↔ v ∉ t := by
  induction t with
  | nil => simp [splitLast]
  | cons x xs ih =>
    simp only [splitLast]
    cases h : splitLast xs v with
    | some p =>
      have hv : v ∈ xs := by
        by_contra hv
        rw [← ih] at hv
        rw [h] at hv
        cases hv
      simp [h, List.mem_cons, hv]
    | none =>
      have hv : v ∉ xs := ih.mp h
      by_cases hx : x = v
      · simp [hx, hv]
      · simp only [if_neg hx]
        simp only [List.mem_cons, not_or]
        exact iff_of_true trivial ⟨fun hvx => hx hvx.symm, hv⟩

/-!
## Claim C3 — the input reader

The claim (input ids `1..N`) fails on the code: `read_dim` allocates nodes
into `AA[0..n-1]` and uses the input ids directly as indices, so id `N`
dereferences the uninitialised slot `AA[N]`, and id `v < N` denotes the
`(v+1)`-st created node.  The reader in fact implements ids `0..N-1` (the
same convention `write_dim` emits, making the two a round-trip). -/

/-- Claim C3 is false as stated: the well-formed input `N=2, M=1` with the
single edge line `1 2` (ids within `1..N`) does not construct a graph at
all — the code reads the uninitialised pointer `AA[2]` (undefined
behaviour, modelled as `none`). -/
theorem claim_C3_counterexample : read_dim 2 1 [(1, 2)] = none := by
  rfl

/-- Claim C3 (corrected): for every well-formed token stream whose header
gives `N` and `M` and whose `M` pairs use ids in `0..N-1`, `read_dim`
constructs the graph with exactly `N` nodes (ids `0..N-1` in creation
order) and, per input line `v w`, one visible undirected edge joining `v`
and `w`, in input order. -/
theorem claim_C3 (n m : Nat) (prs : List (Nat × Nat))
    (hm : prs.length = m) (h : ∀ p ∈ prs, p.1 < n ∧ p.2 < n) :
    read_dim n m prs = some (mkGraph n prs) ∧ (mkGraph n prs).n = n ∧
      (mkGraph n prs).edges = prs.map (fun p => ⟨p.1, p.2, false⟩) := by
  refine ⟨?_, mkGraph_n n prs, mkGraph_edges n prs⟩
  simp only [read_dim, if_pos hm]
  exact read_dim_foldl n prs h (emptyGraph n)

theorem claim_C3_witness :
    read_dim 2 1 [(0, 1)] = some (mkGraph 2 [(0, 1)]) ∧ (mkGraph 2 [(0, 1)]).n = 2 ∧
      (mkGraph 2 [(0, 1)]).edges = [⟨0, 1, false⟩] :=
  claim_C3 2 1 [(0, 1)] (by decide) (by decide)

/-!
## Claim C10 — Variant A leaves the path empty
-/

/-- Claim C10: every completed (non-aborting) call of Variant A absorption
on a duplicate-free path `P` — in particular on a singleton path — returns
with `P` empty; it never leaves `P` as the singleton `[x0]`. -/
theorem claim_C10 (st : St) (P : List Nat) (s : St) (P' : List Nat)
    (h : absorbA st P = .ok (s, P')) (hnd : P.Nodup) : P' = [] := by
  match P with
  | [] => simp only [absorbA] at h; cases h; rfl
  | x0 :: t =>
    simp only [absorbA] at h
    cases hl : t.getLast? with
    | none => rw [hl] at h; cases h; rfl
    | some xm1 =>
      rw [hl] at h
      have hmem : xm1 ∈ t := by
        obtain ⟨hne, heq⟩ :=
          List.mem_getLast?_eq_getLast (l := t) (x := xm1) (Option.mem_def.mpr hl)
        exact heq ▸ List.getLast_mem hne
      have hx0 : x0 ∉ t := (List.nodup_cons.mp hnd).1
      have hne : xm1 ≠ x0 := fun he => hx0 (he ▸ hmem)
      have hrev : (x0 :: t.dropLast).reverse = t.dropLast.reverse ++ [x0] := by
        simp
      rw [hrev] at h
      exact goA_consumes x0 t.dropLast.reverse st xm1
        (by
          intro hx
          exact hx0 (t.dropLast_sublist.mem (List.mem_reverse.mp hx)))
        hne s P' h

theorem claim_C10_witness :
    absorbA (initSt (mkGraph 2 [(0, 1)])) [0, 1]
        = .ok ((absorbA (initSt (mkGraph 2 [(0, 1)])) [0, 1]).get) ∧
      ((absorbA (initSt (mkGraph 2 [(0, 1)])) [0, 1]).get).2 = [] := by
  have h : absorbA (initSt (mkGraph 2 [(0, 1)])) [0, 1]
      = .ok ((absorbA (initSt (mkGraph 2 [(0, 1)])) [0, 1]).get) := by decide
  exact ⟨h, claim_C10 (initSt (mkGraph 2 [(0, 1)])) [0, 1] _ _ h (by decide)⟩

/-!
## Claim C8 — Variant B with an absent target

The claim is false as stated: when the path is non-empty and its head is
not `u`, the debug assertion `u not head of list` fires (`exit(0)`) before
the backward scan, so the call aborts instead of returning.  On every call
whose path is empty or headed by `u` — which includes every call the DFS
makes, since `P_w` is always headed by `w` — an absent target does make the
call a silent no-op. -/

/-- Claim C8 is false as stated: with `P = [0]`, `from = 1`, `to = 2`, the
target `2` does not occur in `P`, yet the call aborts at the head assertion
instead of returning with everything unchanged. -/
theorem claim_C8_counterexample :
    absorbB (initSt (emptyGraph 1)) [0] 1 2
      = .fail (initSt (emptyGraph 1), [0]) := by
  rfl

/-- Claim C8 (corrected): for every call `absorb(P, from=u, to=v)` whose
path is empty or headed by `u` (as in every call the DFS makes), if `v`
does not occur in `P` the call is a no-op: it returns normally leaving `P`,
every `sigma[.]` list, and the graph unchanged. -/
theorem claim_C8 (st : St) (P : List Nat) (u v : Nat)
    (hhead : P = [] ∨ P.head? = some u) (hv : v ∉ P) :
    absorbB st P u v = .ok (st, P) := by
  match P with
  | [] => rfl
  | x0 :: t =>
    have hx0 : x0 = u := by
      rcases hhead with h | h
      · cases h
      · simpa using h
    have hvt : v ∉ t := fun hm => hv (List.mem_cons_of_mem _ hm)
    simp [absorbB, hx0, (splitLast_eq_none t v).mpr hvt]

theorem claim_C8_witness :
    absorbB (initSt (emptyGraph 1)) [0] 0 2 = .ok (initSt (emptyGraph 1), [0]) :=
  claim_C8 _ _ _ _ (Or.inr rfl) (by decide)

/-!
## Claim C2 — the self-loop case of the DFS edge loop

The claim is false on the code: the self-loop case executes `break`, not
`continue` (`triconnect.c` line 367), so after hiding the self-loop the
scan of `w`'s adjacency list stops and the remaining edges are never
examined in this call. -/

/-- Two nodes; edge 0 is a self-loop at node 0 and sits first in node 0's
adjacency list, followed by two parallel edges to node 1 (so `degree 1 = 2`
and the tree-edge case would fire on edge 1 if it were examined). -/
def g2 : Graph := mkGraph 2 [(0, 0), (0, 1), (0, 1)]

/-- Claim C2 is false at a concrete input: on `g2`, the DFS from node 0
meets the self-loop (edge 0) first, hides it and returns at once — node 1
remains undiscovered (`pre[1] = -1`) and edge 1 unprocessed, although edge
1 is a visible non-parent edge to a vertex of degree 2 occurring later in
node 0's adjacency list.  Had the loop continued as the claim states, the
tree-edge case would have set `pre[1] ≥ 0`. -/
theorem claim_C2_counterexample :
    triedge_dfs 10 g2 0 = .ok ((triedge_dfs 10 g2 0).get) ∧
    (triedge_dfs 10 g2 0).get.1.preOf 1 = -1 ∧
    (triedge_dfs 10 g2 0).get.1.g.visible 0 = false ∧
    (triedge_dfs 10 g2 0).get.1.g.visible 1 = true ∧
    g2.adjOf 0 = [0, 1, 2] ∧ (g2.eAt 0).opposite 0 = 0 ∧
    (g2.eAt 1).opposite 0 = 1 ∧ g2.degree 1 = 2 := by
  decide

/-- Claim C2 (corrected): when `visit(w, parent)` examines a visible
non-parent edge `e` whose other endpoint equals `w` (a self-loop), it hides
`e` and terminates the adjacency scan of `w` (`break`): the call returns at
once with only that mutation, so the rest of `w`'s adjacency list is not
examined in this call. -/
theorem claim_C2 (fuel : Nat) (st : St) (w : Nat) (parent : Option Nat)
    (e : Nat) (Pw : List Nat)
    (hvis : st.g.visible e = true)
    (hu : (st.g.eAt e).opposite w = w)
    (hpar : parent ≠ some w) :
    run (fuel + 1) st (.loop w parent (some e) Pw)
      = .ok ({ st with g := st.g.hideEdge e }, Pw) := by
  simp only [run, hu, hvis, not_true, if_false]
  rw [if_neg (fun h : some w = parent => hpar h.symm)]
  rw [if_pos trivial]

theorem claim_C2_witness :
    run 3 (initSt g2) (.loop 0 none (some 0) [0])
      = .ok ({ initSt g2 with g := (initSt g2).g.hideEdge 0 }, [0]) :=
  claim_C2 2 (initSt g2) 0 none 0 [0] (by decide) (by decide) (by decide)

/-!
## Claim C7 — the outgoing-back-edge case
-/

/-- Claim C7: when `visit(w, parent)` examines a visible non-parent,
non-loop edge `e` to an already-discovered endpoint `u` of degree at least
2 with `pre[u] < pre[w]` (an outgoing back edge), then: if
`pre[u] < lowpt[w]` the step absorbs `P_w` (Variant A), sets
`lowpt[w] := pre[u]`, resets `P_w := [w]` and continues the scan; otherwise
it continues the scan with `P_w`, `lowpt`, `sigma` and the graph all
unchanged. -/
theorem claim_C7 (fuel : Nat) (st : St) (w u : Nat) (parent : Option Nat)
    (e : Nat) (Pw : List Nat)
    (hu : (st.g.eAt e).opposite w = u)
    (hvis : st.g.visible e = true)
    (hpar : some u ≠ parent)
    (hne : u ≠ w)
    (hdeg : 2 ≤ st.g.degree u)
    (hdisc : 0 ≤ st.preOf u)
    (hout : st.preOf u < st.preOf w) :
    (st.preOf u < st.lowptOf w →
      ∀ st1 q, absorbA st Pw = .ok (st1, q) →
        run (fuel + 1) st (.loop w parent (some e) Pw)
          = run fuel { st1 with lowpt := st1.lowpt.set w (st1.preOf u) }
              (.loop w parent (st.g.succVis w e) [w]))
    ∧ (¬ st.preOf u < st.lowptOf w →
        run (fuel + 1) st (.loop w parent (some e) Pw)
          = run fuel st (.loop w parent (st.g.succVis w e) Pw)) := by
  constructor
  · intro hlow st1 q habs
    simp only [run, hu, hvis, not_true, if_false]
    rw [if_neg hpar, if_neg hne]
    rw [if_neg (Nat.not_lt.mpr hdeg)]
    rw [if_neg (not_lt.mpr hdisc)]
    rw [if_pos hout, if_pos hlow, habs]
  · intro hlow
    simp only [run, hu, hvis, not_true, if_false]
    rw [if_neg hpar, if_neg hne]
    rw [if_neg (Nat.not_lt.mpr hdeg)]
    rw [if_neg (not_lt.mpr hdisc)]
    rw [if_pos hout, if_neg hlow, if_neg hlow]

/-- The concrete state for the C7 witness: a triangle `0-1-2` whose DFS has
reached `w = 2` with parent 1; edge 2 = `(2,0)` is an outgoing back edge to
the root. -/
def stW : St :=
  { g := mkGraph 3 [(0, 1), (1, 2), (2, 0)],
    pre := [0, 1, 2],
    lowpt := [0, 1, 2],
    father := [none, some 0, some 1],
    sigma := [[0], [1], [2]],
    count2 := 3 }

theorem claim_C7_witness :
    run 5 stW (.loop 2 (some 1) (some 2) [2])
      = run 4 { stW with lowpt := stW.lowpt.set 2 (stW.preOf 0) }
          (.loop 2 (some 1) (stW.g.succVis 2 2) [2]) :=
  (claim_C7 4 stW 2 0 (some 1) 2 [2] (by decide) (by decide) (by decide)
    (by decide) (by decide) (by decide) (by decide)).1 (by decide) stW []
    (by decide)

/-!
## The `sigma` partition invariant (claim C9)

The only operation in the whole DFS that touches `sigma` is LEDA `conc`,
which moves one vertex's list wholesale onto its representative's list.
Hence the multiset of all entries of all `sigma[.]` lists is invariant
throughout the traversal.  We track it as `sigM` and carry alongside the
well-formedness facts needed to know that `conc` never drops a list
(representatives stay inside the `sigma` array). -/

/-- Every edge's endpoints are nodes of the graph. -/
def EndsOk (g : Graph) : Prop :=
  ∀ e ∈ g.edges, e.src < g.n ∧ e.tgt < g.n

/-- The state invariant carried through the DFS: fixed node count `N`,
in-range edge endpoints, and a `sigma` array of length `N`. -/
def Inv (N : Nat) (st : St) : Prop :=
  st.g.n = N ∧ EndsOk st.g ∧ st.sigma.length = N

/-- The multiset of all vertices stored across all `sigma[.]` lists. -/
def sigM (st : St) : Multiset Nat :=
  (st.sigma.map Multiset.ofList).sum

theorem hideEdge_n (g : Graph) (i : Nat) : (g.hideEdge i).n = g.n := rfl

theorem eAt_mem (g : Graph) (i : Nat) (hi : i < g.edges.length) :
    g.eAt i ∈ g.edges := by
  simp only [Graph.eAt, List.getD_eq_getElem?_getD, List.getElem?_eq_getElem hi,
    Option.getD_some]
  exact List.getElem_mem hi

theorem hideEdge_endsOk (g : Graph) (i : Nat) (h : EndsOk g) :
    EndsOk (g.hideEdge i) := by
  intro e he
  by_cases hi : i < g.edges.length
  · rcases List.mem_or_eq_of_mem_set he with h1 | h1
    · exact h e h1
    · subst h1
      obtain ⟨h1s, h1t⟩ := h _ (eAt_mem g i hi)
      exact ⟨h1s, h1t⟩
  · have hset : (g.hideEdge i).edges = g.edges := by
      simp only [Graph.hideEdge]
      exact List.set_eq_of_length_le (Nat.le_of_not_lt hi)
    rw [hset] at he
    exact h e he

theorem moveEdge_n (g : Graph) (i u v : Nat) : (g.moveEdge i u v).n = g.n := by
  simp only [Graph.moveEdge, Graph.setAdj]
  split <;> rfl

theorem setAdj_edges (g : Graph) (v : Nat) (l : List Nat) :
    (g.setAdj v l).edges = g.edges := rfl

theorem moveEdge_edges (g : Graph) (i u v : Nat) :
    (g.moveEdge i u v).edges = g.edges.set i { g.eAt i with src := u, tgt := v } := by
  simp only [Graph.moveEdge, Graph.setAdj]
  split <;> rfl

theorem moveEdge_endsOk (g : Graph) (i u v : Nat) (h : EndsOk g)
    (hu : u < g.n) (hv : v < g.n) : EndsOk (g.moveEdge i u v) := by
  intro e he
  rw [moveEdge_edges] at he
  rw [moveEdge_n]
  rcases List.mem_or_eq_of_mem_set he with h1 | h1
  · exact h e h1
  · subst h1; exact ⟨hu, hv⟩

theorem concSigma_inv (st : St) (x0 xi : Nat) (N : Nat) (h : Inv N st) :
    Inv N (concSigma st x0 xi) := by
  obtain ⟨hn, he, hs⟩ := h
  unfold concSigma
  split
  · exact ⟨hn, he, hs⟩
  · exact ⟨hn, he, by simp [hs]⟩

/-- Summing a list of multisets after a single `set`. -/
theorem msum_set (l : List (Multiset Nat)) (i : Nat) (a : Multiset Nat)
    (h : i < l.length) :
    (l.set i a).sum + l.get ⟨i, h⟩ = l.sum + a := by
  induction l generalizing i with
  | nil => cases h
  | cons b bs ih =>
    cases i with
    | zero => simp [List.set]; abel
    | succ j =>
      have hj : j < bs.length := Nat.lt_of_succ_lt_succ h
      have hih := ih j hj
      simp only [List.set, List.sum_cons, List.get_cons_succ]
      rw [add_assoc, hih, ← add_assoc]

theorem set_getElem_self' {α : Type} (l : List α) (i : Nat) (h : i < l.length) :
    l.set i l[i] = l := by
  apply List.ext_getElem
  · simp
  · intro j h1 h2
    by_cases hij : i = j
    · subst hij; simp
    · rw [List.getElem_set_ne hij]

/-- `conc` preserves the multiset of all `sigma` entries, provided the
representative's list is a real slot of the array. -/
theorem concSigma_sigM (st : St) (x0 xi : Nat) (hx0 : x0 < st.sigma.length) :
    sigM (concSigma st x0 xi) = sigM st := by
  unfold concSigma
  split
  · rfl
  · rename_i hne
    by_cases hxi : xi < st.sigma.length
    · unfold sigM
      simp only [List.map_set]
      have hlen : (st.sigma.map Multiset.ofList).length = st.sigma.length := by simp
      have hx0' : x0 < (st.sigma.map Multiset.ofList).length := by omega
      have hxi' : xi < (st.sigma.map Multiset.ofList).length := by omega
      have hgx0 : Multiset.ofList (st.sigmaOf x0)
          = (st.sigma.map Multiset.ofList).get ⟨x0, hx0'⟩ := by
        simp only [St.sigmaOf]
        rw [List.getD_eq_getElem _ _ hx0]
        simp
      have hgxi : Multiset.ofList (st.sigmaOf xi)
          = (st.sigma.map Multiset.ofList).get ⟨xi, hxi'⟩ := by
        simp only [St.sigmaOf]
        rw [List.getD_eq_getElem _ _ hxi]
        simp
      have hcoe : Multiset.ofList (st.sigmaOf x0 ++ st.sigmaOf xi)
          = (st.sigma.map Multiset.ofList).get ⟨x0, hx0'⟩
            + (st.sigma.map Multiset.ofList).get ⟨xi, hxi'⟩ := by
        rw [← hgx0, ← hgxi]
        exact (Multiset.coe_add _ _).symm
      rw [hcoe]
      set M : List (Multiset Nat) := st.sigma.map Multiset.ofList with hM
      set A : Multiset Nat := M.get ⟨x0, hx0'⟩ + M.get ⟨xi, hxi'⟩ with hA
      have hxi'' : xi < (M.set x0 A).length := by simpa using hxi'
      have h1 := msum_set M x0 A hx0'
      have h2 := msum_set (M.set x0 A) xi ((0 : Multiset Nat)) hxi''
      have hget2 : (M.set x0 A).get ⟨xi, hxi''⟩ = M.get ⟨xi, hxi'⟩ := by
        simp only [List.get_eq_getElem]
        exact List.getElem_set_ne (fun h => hne h) _
      rw [hget2] at h2
      have hS1 : (M.set x0 A).sum = M.sum + M.get ⟨xi, hxi'⟩ := by
        have hres : (M.set x0 A).sum + M.get ⟨x0, hx0'⟩
            = (M.sum + M.get ⟨xi, hxi'⟩) + M.get ⟨x0, hx0'⟩ := by
          rw [h1, hA]; abel
        exact add_right_cancel hres
      have hfin : ((M.set x0 A).set xi ((0 : Multiset Nat))).sum + M.get ⟨xi, hxi'⟩
          = M.sum + M.get ⟨xi, hxi'⟩ := by
        rw [h2, hS1]; abel
      have hdone := add_right_cancel hfin
      simpa using hdone
    · have hnil : st.sigmaOf xi = [] :=
        List.getD_eq_default _ _ (Nat.le_of_not_lt hxi)
      have hself : st.sigma.set x0 (st.sigmaOf x0 ++ st.sigmaOf xi) = st.sigma := by
        rw [hnil, List.append_nil]
        have hD : st.sigmaOf x0 = st.sigma[x0] := List.getD_eq_getElem _ _ hx0
        rw [hD]
        exact set_getElem_self' _ _ hx0
      rw [hself, List.set_eq_of_length_le (Nat.le_of_not_lt hxi)]

/-- The backward scan of Variant B decomposes the list at the last
occurrence of `v`. -/
theorem splitLast_eq (t : List Nat) (v : Nat) (p s : List Nat)
    (h : splitLast t v = some (p, s)) : t = p ++ v :: s ∧ v ∉ s := by
  induction t generalizing p s with
  | nil => cases h
  | cons x xs ih =>
    simp only [splitLast] at h
    cases hx : splitLast xs v with
    | some q =>
      rw [hx] at h
      simp only [Option.some.injEq, Prod.mk.injEq] at h
      obtain ⟨hp, hs⟩ := h
      obtain ⟨he, hv⟩ := ih q.1 q.2 (by rw [hx])
      subst hp
      subst hs
      exact ⟨by rw [he]; rfl, hv⟩
    | none =>
      rw [hx] at h
      by_cases hxv : x = v
      · rw [if_pos hxv] at h
        cases h
        exact ⟨by rw [hxv]; rfl, (splitLast_eq_none xs v).mp hx⟩
      · rw [if_neg hxv] at h
        cases h

theorem visible_lt (g : Graph) (e : Nat) (h : g.visible e = true) :
    e < g.edges.length := by
  by_contra hle
  have : g.eAt e = default := List.getD_eq_default _ _ (Nat.le_of_not_lt hle)
  rw [Graph.visible, this] at h
  cases h

theorem opposite_lt (g : Graph) (e v : Nat) (hok : EndsOk g)
    (h : g.visible e = true) : (g.eAt e).opposite v < g.n := by
  obtain ⟨h1, h2⟩ := hok _ (eAt_mem g e (visible_lt g e h))
  unfold GEdge.opposite
  split
  · exact h2
  · exact h1

theorem firstVis_visible (g : Graph) (v e : Nat) (h : g.firstVis v = some e) :
    g.visible e = true :=
  List.find?_some h

theorem succVis_visible (g : Graph) (v i e : Nat) (h : g.succVis v i = some e) :
    g.visible e = true :=
  List.find?_some h

theorem rewireEdges_same (x0 xm1 xi : Nat) (es : List Nat) (st : St) :
    (rewireEdges x0 xm1 xi es st).get.pre = st.pre ∧
    (rewireEdges x0 xm1 xi es st).get.lowpt = st.lowpt ∧
    (rewireEdges x0 xm1 xi es st).get.father = st.father ∧
    (rewireEdges x0 xm1 xi es st).get.sigma = st.sigma ∧
    (rewireEdges x0 xm1 xi es st).get.count2 = st.count2 := by
  induction es generalizing st with
  | nil => exact ⟨rfl, rfl, rfl, rfl, rfl⟩
  | cons e rest ih =>
    simp only [rewireEdges]
    split
    · exact ih _
    · split
      · exact ⟨rfl, rfl, rfl, rfl, rfl⟩
      · exact ih _

theorem rewireEdges_inv (N : Nat) (x0 xm1 xi : Nat) (es : List Nat) (st : St)
    (h : Inv N st) (hx0 : x0 < N) :
    Inv N (rewireEdges x0 xm1 xi es st).get := by
  induction es generalizing st with
  | nil => exact h
  | cons e rest ih =>
    obtain ⟨hn, he, hs⟩ := h
    simp only [rewireEdges]
    split
    · exact ih _ ⟨hn, hideEdge_endsOk _ _ he, hs⟩
    · split
      · exact ⟨hn, he, hs⟩
      · refine ih _ ⟨by rw [moveEdge_n]; exact hn, ?_, hs⟩
        by_cases hlt : e < st.g.edges.length
        · by_cases hvis : st.g.visible e = true
          · exact moveEdge_endsOk _ _ _ _ he (hn ▸ hx0)
              (opposite_lt _ _ _ he hvis)
          · -- hidden edge: its stored endpoints are still in range
            obtain ⟨h1, h2⟩ := he _ (eAt_mem _ _ hlt)
            refine moveEdge_endsOk _ _ _ _ he (hn ▸ hx0) ?_
            unfold GEdge.opposite
            split
            · exact h2
            · exact h1
        · intro e' he'
          rw [moveEdge_edges, List.set_eq_of_length_le (Nat.le_of_not_lt hlt)] at he'
          rw [moveEdge_n]
          exact he e' he'

theorem rewire_same (st : St) (xi xm1 x0 : Nat) :
    (rewire st xi xm1 x0).get.sigma = st.sigma :=
  (rewireEdges_same x0 xm1 xi _ st).2.2.2.1

theorem rewire_inv (N : Nat) (st : St) (xi xm1 x0 : Nat)
    (h : Inv N st) (hx0 : x0 < N) : Inv N (rewire st xi xm1 x0).get :=
  rewireEdges_inv N x0 xm1 xi _ st h hx0

theorem sigM_congr (st st' : St) (h : st'.sigma = st.sigma) : sigM st' = sigM st := by
  unfold sigM
  rw [h]

theorem concSigma_len (st : St) (x0 xi : Nat) :
    (concSigma st x0 xi).sigma.length = st.sigma.length := by
  unfold concSigma
  split
  · rfl
  · simp

theorem goA_inv (N : Nat) (x0 : Nat) (hx0 : x0 < N) (revP : List Nat) :
    ∀ (xm1 : Nat) (st : St), Inv N st →
      Inv N (goA x0 xm1 revP st).get.1 ∧
      sigM (goA x0 xm1 revP st).get.1 = sigM st ∧
      ∀ x ∈ (goA x0 xm1 revP st).get.2, x ∈ revP := by
  induction revP with
  | nil =>
    intro xm1 st h
    exact ⟨h, rfl, by intro x hx; cases hx⟩
  | cons a rest ih =>
    intro xm1 st h
    simp only [goA]
    split
    · exact ⟨h, rfl, by intro x hx; exact List.mem_reverse.mp hx⟩
    · have hc : Inv N (concSigma st x0 xm1) := concSigma_inv st x0 xm1 N h
      have hcm : sigM (concSigma st x0 xm1) = sigM st :=
        concSigma_sigM st x0 xm1 (by rw [h.2.2]; exact hx0)
      cases hrw : rewire (concSigma st x0 xm1) xm1 a x0 with
      | fail s =>
        have h1 : Inv N s := by
          have hh := rewire_inv N (concSigma st x0 xm1) xm1 a x0 hc hx0
          rw [hrw] at hh
          exact hh
        have h2 : sigM s = sigM st := by
          have hh := sigM_congr _ _ (rewire_same (concSigma st x0 xm1) xm1 a x0)
          rw [hrw] at hh
          exact hh.trans hcm
        exact ⟨h1, h2, fun x hx => List.mem_cons_of_mem _ (List.mem_reverse.mp hx)⟩
      | ok s =>
        have h1 : Inv N s := by
          have hh := rewire_inv N (concSigma st x0 xm1) xm1 a x0 hc hx0
          rw [hrw] at hh
          exact hh
        have h2 : sigM s = sigM st := by
          have hh := sigM_congr _ _ (rewire_same (concSigma st x0 xm1) xm1 a x0)
          rw [hrw] at hh
          exact hh.trans hcm
        obtain ⟨ha, hb, hm⟩ := ih a s h1
        exact ⟨ha, by rw [hb, h2], fun x hx => List.mem_cons_of_mem _ (hm x hx)⟩

theorem absorbA_inv (N : Nat) (st : St) (P : List Nat)
    (h : Inv N st) (hP : ∀ x ∈ P, x < N) :
    Inv N (absorbA st P).get.1 ∧
    sigM (absorbA st P).get.1 = sigM st ∧
    ∀ x ∈ (absorbA st P).get.2, x < N := by
  match P with
  | [] => exact ⟨h, rfl, by intro x hx; cases hx⟩
  | x0 :: t =>
    simp only [absorbA]
    cases hl : t.getLast? with
    | none => exact ⟨h, rfl, by intro x hx; cases hx⟩
    | some xm1 =>
      have hx0 : x0 < N := hP x0 (by simp)
      obtain ⟨ha, hb, hm⟩ := goA_inv N x0 hx0 ((x0 :: t.dropLast).reverse) xm1 st h
      refine ⟨ha, hb, fun x hx => ?_⟩
      have hx' : x ∈ x0 :: t.dropLast := List.mem_reverse.mp (hm x hx)
      rcases List.mem_cons.mp hx' with h1 | h1
      · exact h1 ▸ hx0
      · exact hP x (List.mem_cons_of_mem _ (t.dropLast_sublist.mem h1))

theorem goB_inv (N : Nat) (x0 : Nat) (hx0 : x0 < N) (ps : List Nat) :
    ∀ (xi : Nat) (st : St), Inv N st →
      Inv N (goB x0 xi ps st).get ∧ sigM (goB x0 xi ps st).get = sigM st := by
  induction ps with
  | nil =>
    intro xi st h
    simp only [goB]
    cases hrw : rewire st xi x0 x0 with
    | fail s =>
      have h1 : Inv N s := by
        have hh := rewire_inv N st xi x0 x0 h hx0
        rw [hrw] at hh
        exact hh
      have h2 : sigM s = sigM st := by
        have hh := sigM_congr _ _ (rewire_same st xi x0 x0)
        rw [hrw] at hh
        exact hh
      exact ⟨h1, h2⟩
    | ok s =>
      have h1 : Inv N s := by
        have hh := rewire_inv N st xi x0 x0 h hx0
        rw [hrw] at hh
        exact hh
      have h2 : sigM s = sigM st := by
        have hh := sigM_congr _ _ (rewire_same st xi x0 x0)
        rw [hrw] at hh
        exact hh
      exact ⟨concSigma_inv s x0 xi N h1,
        (concSigma_sigM s x0 xi (by rw [h1.2.2]; exact hx0)).trans h2⟩
  | cons p rest ih =>
    intro xi st h
    simp only [goB]
    cases hrw : rewire st xi p x0 with
    | fail s =>
      have h1 : Inv N s := by
        have hh := rewire_inv N st xi p x0 h hx0
        rw [hrw] at hh
        exact hh
      have h2 : sigM s = sigM st := by
        have hh := sigM_congr _ _ (rewire_same st xi p x0)
        rw [hrw] at hh
        exact hh
      exact ⟨h1, h2⟩
    | ok s =>
      have h1 : Inv N s := by
        have hh := rewire_inv N st xi p x0 h hx0
        rw [hrw] at hh
        exact hh
      have h2 : sigM s = sigM st := by
        have hh := sigM_congr _ _ (rewire_same st xi p x0)
        rw [hrw] at hh
        exact hh
      have hc1 : Inv N (concSigma s x0 xi) := concSigma_inv s x0 xi N h1
      have hc2 : sigM (concSigma s x0 xi) = sigM st :=
        (concSigma_sigM s x0 xi (by rw [h1.2.2]; exact hx0)).trans h2
      by_cases hp : p = x0
      · simp only [if_pos hp]
        exact ⟨hc1, hc2⟩
      · simp only [if_neg hp]
        obtain ⟨ha, hb⟩ := ih p (concSigma s x0 xi) hc1
        exact ⟨ha, hb.trans hc2⟩

theorem absorbB_inv (N : Nat) (st : St) (P : List Nat) (u v : Nat)
    (h : Inv N st) (hP : ∀ x ∈ P, x < N) :
    Inv N (absorbB st P u v).get.1 ∧
    sigM (absorbB st P u v).get.1 = sigM st ∧
    ∀ x ∈ (absorbB st P u v).get.2, x < N := by
  match P with
  | [] => exact ⟨h, rfl, by intro x hx; cases hx⟩
  | x0 :: t =>
    have hx0 : x0 < N := hP x0 (by simp)
    simp only [absorbB]
    split
    · exact ⟨h, rfl, hP⟩
    · split
      · exact ⟨h, rfl, hP⟩
      · rename_i pre suf hsp
        obtain ⟨hteq, _⟩ := splitLast_eq t v pre suf hsp
        have hrem : ∀ x ∈ (match splitLast pre x0 with
            | none => x0 :: suf
            | some (a, _) => x0 :: (a ++ x0 :: suf)), x < N := by
          cases hsp2 : splitLast pre x0 with
          | none =>
            intro x hx
            rcases List.mem_cons.mp hx with h1 | h1
            · exact h1 ▸ hx0
            · exact hP x (by rw [hteq]; simp [h1])
          | some as =>
            obtain ⟨a, b⟩ := as
            obtain ⟨hpeq, _⟩ := splitLast_eq pre x0 a b hsp2
            intro x hx
            rcases List.mem_cons.mp hx with h1 | h1
            · exact h1 ▸ hx0
            · rcases List.mem_append.mp h1 with h2 | h2
              · exact hP x (by rw [hteq, hpeq]; simp [h2])
              · rcases List.mem_cons.mp h2 with h3 | h3
                · exact h3 ▸ hx0
                · exact hP x (by rw [hteq]; simp [h3])
        obtain ⟨ha, hb⟩ := goB_inv N x0 hx0 pre.reverse v st h
        cases hgb : goB x0 v pre.reverse st with
        | fail s =>
          have h1 : Inv N s := by rw [hgb] at ha; exact ha
          have h2 : sigM s = sigM st := by rw [hgb] at hb; exact hb
          exact ⟨h1, h2, hrem⟩
        | ok s =>
          have h1 : Inv N s := by rw [hgb] at ha; exact ha
          have h2 : sigM s = sigM st := by rw [hgb] at hb; exact hb
          exact ⟨h1, h2, hrem⟩

/-- Well-formedness of a call: the visited vertex and all path entries are
nodes of the graph. -/
def CallOk (N : Nat) : Call → Prop
  | .vis w _ => w < N
  | .loop w _ _ Pw => w < N ∧ ∀ x ∈ Pw, x < N

/-- The absorb-or-extend step shared by the two tree-edge subcases of the
DFS edge loop (C lines 441-478), given the fuel-induction hypothesis. -/
theorem run_inv_tail (N fuel : Nat)
    (ih : ∀ (st : St) (c : Call), Inv N st → CallOk N c →
      Inv N (run fuel st c).get.1 ∧ sigM (run fuel st c).get.1 = sigM st ∧
      ∀ x ∈ (run fuel st c).get.2, x < N)
    (w : Nat) (parent : Option Nat) (e : Nat) (Pw : List Nat) (st : St)
    (hw : w < N) (hPw : ∀ x ∈ Pw, x < N)
    (st2 : St) (Pu2 : List Nat) (h2 : Inv N st2) (hsig : sigM st2 = sigM st)
    (hPu2 : ∀ x ∈ Pu2, x < N) :
    Inv N ((if st2.lowptOf w ≤ st2.lowptOf ((st.g.eAt e).opposite w) then
        match absorbA st2 (w :: Pu2) with
        | Out.fail s => Out.fail s
        | Out.ok (st3, Pu3) =>
          if Pu3 ≠ [] then Out.fail (st3, Pw)
          else run fuel st3 (.loop w parent (st.g.succVis w e) Pw)
      else
        match absorbA { st2 with
            lowpt := st2.lowpt.set w (st2.lowptOf ((st.g.eAt e).opposite w)) } Pw with
        | Out.fail s => Out.fail s
        | Out.ok (st3, Pw3) =>
          if Pw3 ≠ [] then Out.fail (st3, Pw3)
          else run fuel st3
            (.loop w parent (st.g.succVis w e) (w :: (Pw3 ++ Pu2))))).get.1 ∧
    sigM ((if st2.lowptOf w ≤ st2.lowptOf ((st.g.eAt e).opposite w) then
        match absorbA st2 (w :: Pu2) with
        | Out.fail s => Out.fail s
        | Out.ok (st3, Pu3) =>
          if Pu3 ≠ [] then Out.fail (st3, Pw)
          else run fuel st3 (.loop w parent (st.g.succVis w e) Pw)
      else
        match absorbA { st2 with
            lowpt := st2.lowpt.set w (st2.lowptOf ((st.g.eAt e).opposite w)) } Pw with
        | Out.fail s => Out.fail s
        | Out.ok (st3, Pw3) =>
          if Pw3 ≠ [] then Out.fail (st3, Pw3)
          else run fuel st3
            (.loop w parent (st.g.succVis w e) (w :: (Pw3 ++ Pu2))))).get.1 = sigM st ∧
    ∀ x ∈ ((if st2.lowptOf w ≤ st2.lowptOf ((st.g.eAt e).opposite w) then
        match absorbA st2 (w :: Pu2) with
        | Out.fail s => Out.fail s
        | Out.ok (st3, Pu3) =>
          if Pu3 ≠ [] then Out.fail (st3, Pw)
          else run fuel st3 (.loop w parent (st.g.succVis w e) Pw)
      else
        match absorbA { st2 with
            lowpt := st2.lowpt.set w (st2.lowptOf ((st.g.eAt e).opposite w)) } Pw with
        | Out.fail s => Out.fail s
        | Out.ok (st3, Pw3) =>
          if Pw3 ≠ [] then Out.fail (st3, Pw3)
          else run fuel st3
            (.loop w parent (st.g.succVis w e) (w :: (Pw3 ++ Pu2))))).get.2, x < N := by
  by_cases hcmp : st2.lowptOf w ≤ st2.lowptOf ((st.g.eAt e).opposite w)
  · rw [if_pos hcmp]
    have hvars : ∀ x ∈ w :: Pu2, x < N := by
      intro x hx
      rcases List.mem_cons.mp hx with h1 | h1
      · exact h1 ▸ hw
      · exact hPu2 x h1
    obtain ⟨a1, a2, a3⟩ := absorbA_inv N st2 (w :: Pu2) h2 hvars
    cases habs : absorbA st2 (w :: Pu2) with
    | fail s =>
      rw [habs] at a1 a2 a3
      exact ⟨a1, a2.trans hsig, a3⟩
    | ok sp =>
      obtain ⟨st3, Pu3⟩ := sp
      rw [habs] at a1 a2 a3
      dsimp only
      by_cases hne : Pu3 ≠ []
      · rw [if_pos hne]
        exact ⟨a1, a2.trans hsig, hPw⟩
      · rw [if_neg hne]
        obtain ⟨c1, c2, c3⟩ := ih st3 (.loop w parent (st.g.succVis w e) Pw) a1 ⟨hw, hPw⟩
        exact ⟨c1, c2.trans (a2.trans hsig), c3⟩
  · rw [if_neg hcmp]
    have h2a : Inv N { st2 with
        lowpt := st2.lowpt.set w (st2.lowptOf ((st.g.eAt e).opposite w)) } := h2
    obtain ⟨a1, a2, a3⟩ := absorbA_inv N _ Pw h2a hPw
    cases habs : absorbA { st2 with
        lowpt := st2.lowpt.set w (st2.lowptOf ((st.g.eAt e).opposite w)) } Pw with
    | fail s =>
      rw [habs] at a1 a2 a3
      exact ⟨a1, a2.trans hsig, a3⟩
    | ok sp =>
      obtain ⟨st3, Pw3⟩ := sp
      rw [habs] at a1 a2 a3
      dsimp only
      by_cases hne : Pw3 ≠ []
      · rw [if_pos hne]
        exact ⟨a1, a2.trans hsig, a3⟩
      · rw [if_neg hne]
        have hvars : ∀ x ∈ w :: (Pw3 ++ Pu2), x < N := by
          intro x hx
          rcases List.mem_cons.mp hx with h1 | h1
          · exact h1 ▸ hw
          · rcases List.mem_append.mp h1 with h3 | h3
            · exact a3 x h3
            · exact hPu2 x h3
        obtain ⟨c1, c2, c3⟩ := ih st3
          (.loop w parent (st.g.succVis w e) (w :: (Pw3 ++ Pu2))) a1 ⟨hw, hvars⟩
        exact ⟨c1, c2.trans (a2.trans hsig), c3⟩

/-- The central preservation theorem: every `run` (completed or aborted)
keeps the state invariant, never changes the multiset of `sigma` entries,
and returns a path of graph nodes. -/
theorem run_inv (N : Nat) (fuel : Nat) :
    ∀ (st : St) (c : Call), Inv N st → CallOk N c →
      Inv N (run fuel st c).get.1 ∧
      sigM (run fuel st c).get.1 = sigM st ∧
      ∀ x ∈ (run fuel st c).get.2, x < N := by
  induction fuel with
  | zero =>
    intro st c h _
    exact ⟨h, rfl, by intro x hx; cases hx⟩
  | succ fuel ih =>
    intro st c h hc
    match c with
    | .vis w parent =>
      simp only [run]
      refine ih _ _ ⟨h.1, h.2.1, h.2.2⟩ ⟨hc, ?_⟩
      intro x hx
      rcases List.mem_singleton.mp hx with rfl
      exact hc
    | .loop w parent none Pw =>
      exact ⟨h, rfl, hc.2⟩
    | .loop w parent (some e) Pw =>
      obtain ⟨hw, hPw⟩ := hc
      simp only [run]
      by_cases hvis : st.g.visible e = true
      · rw [if_neg (by simp [hvis])]
        by_cases hpar : some ((st.g.eAt e).opposite w) = parent
        · rw [if_pos hpar]
          exact ih _ _ h ⟨hw, hPw⟩
        · rw [if_neg hpar]
          by_cases hself : (st.g.eAt e).opposite w = w
          · rw [if_pos hself]
            exact ⟨⟨h.1, hideEdge_endsOk _ _ h.2.1, h.2.2⟩, rfl, hPw⟩
          · rw [if_neg hself]
            have hu : (st.g.eAt e).opposite w < N := by
              rw [← h.1]
              exact opposite_lt _ _ _ h.2.1 hvis
            by_cases hdeg : st.g.degree ((st.g.eAt e).opposite w) < 2
            · rw [if_pos hdeg]
              exact ih _ _ h ⟨hw, hPw⟩
            · rw [if_neg hdeg]
              by_cases hdisc : st.preOf ((st.g.eAt e).opposite w) < 0
              · -- tree edge
                rw [if_pos hdisc]
                obtain ⟨ih1, ih2, ih3⟩ :=
                  ih st (.vis ((st.g.eAt e).opposite w) (some w)) h hu
                cases hrec : run fuel st (.vis ((st.g.eAt e).opposite w) (some w)) with
                | fail s =>
                  rw [hrec] at ih1 ih2 ih3
                  exact ⟨ih1, ih2, ih3⟩
                | ok sp =>
                  obtain ⟨st1, Pu⟩ := sp
                  rw [hrec] at ih1 ih2 ih3
                  dsimp only
                  have hst1 : Inv N st1 := ih1
                  have hsg1 : sigM st1 = sigM st := ih2
                  have hPu : ∀ x ∈ Pu, x < N := ih3
                  by_cases hdeg2 : st1.g.degree ((st.g.eAt e).opposite w) = 2
                  · rw [if_pos hdeg2]
                    have hsth : Inv N { st1 with g := st1.g.hideEdge e } :=
                      ⟨hst1.1, hideEdge_endsOk _ _ hst1.2.1, hst1.2.2⟩
                    cases heuz : ({ st1 with g := st1.g.hideEdge e } : St).g.firstVis
                        ((st.g.eAt e).opposite w) with
                    | none => exact ⟨hsth, hsg1, hPu⟩
                    | some euz =>
                      dsimp only
                      by_cases hz : (st.g.eAt e).opposite w
                          = (({ st1 with g := st1.g.hideEdge e } : St).g.eAt euz).opposite
                              ((st.g.eAt e).opposite w)
                      · rw [if_pos hz]
                        exact ⟨hsth, hsg1, hPu⟩
                      · rw [if_neg hz]
                        have hzlt : ((st1.g.hideEdge e).eAt euz).opposite
                            ((st.g.eAt e).opposite w) < N := by
                          have h5 := opposite_lt (st1.g.hideEdge e) euz
                            ((st.g.eAt e).opposite w) hsth.2.1
                            (firstVis_visible _ _ _ heuz)
                          rw [hideEdge_n, hst1.1] at h5
                          exact h5
                        have hstm : Inv N { st1 with
                            g := (st1.g.hideEdge e).moveEdge euz w
                              (((st1.g.hideEdge e).eAt euz).opposite
                                ((st.g.eAt e).opposite w)) } := by
                          refine ⟨?_, ?_, hst1.2.2⟩
                          · rw [moveEdge_n, hideEdge_n]
                            exact hst1.1
                          · refine moveEdge_endsOk _ _ _ _ hsth.2.1 ?_ ?_
                            · rw [hideEdge_n, hst1.1]
                              exact hw
                            · rw [hideEdge_n, hst1.1]
                              exact hzlt
                        cases Pu with
                        | nil => exact ⟨hstm, hsg1, by intro x hx; cases hx⟩
                        | cons x rest =>
                          dsimp only
                          have hrest : ∀ y ∈ rest, y < N :=
                            fun y hy => hPu y (List.mem_cons_of_mem _ hy)
                          by_cases hxu : x ≠ (st.g.eAt e).opposite w
                          · rw [if_pos hxu]
                            exact ⟨hstm, hsg1, hrest⟩
                          · rw [if_neg hxu]
                            exact run_inv_tail N fuel ih w parent e Pw st hw hPw
                              _ rest hstm hsg1 hrest
                  · rw [if_neg hdeg2]
                    exact run_inv_tail N fuel ih w parent e Pw st hw hPw
                      st1 Pu hst1 hsg1 hPu
              · -- back edge
                rw [if_neg hdisc]
                by_cases houtg : st.preOf ((st.g.eAt e).opposite w) < st.preOf w
                · rw [if_pos houtg]
                  by_cases hlow : st.preOf ((st.g.eAt e).opposite w) < st.lowptOf w
                  · rw [if_pos hlow]
                    obtain ⟨a1, a2, a3⟩ := absorbA_inv N st Pw h hPw
                    cases habs : absorbA st Pw with
                    | fail s =>
                      rw [habs] at a1 a2 a3
                      exact ⟨a1, a2, a3⟩
                    | ok sp =>
                      obtain ⟨st1, q⟩ := sp
                      rw [habs] at a1 a2 a3
                      dsimp only
                      obtain ⟨c1, c2, c3⟩ := ih { st1 with
                          lowpt := st1.lowpt.set w (st1.preOf ((st.g.eAt e).opposite w)) }
                        (.loop w parent (st.g.succVis w e) [w]) a1
                        ⟨hw, by
                          intro x hx
                          rcases List.mem_singleton.mp hx with rfl
                          exact hw⟩
                      exact ⟨c1, c2.trans a2, c3⟩
                  · rw [if_neg hlow, if_neg hlow]
                    exact ih _ _ h ⟨hw, hPw⟩
                · rw [if_neg houtg]
                  by_cases hin : st.preOf w < st.preOf ((st.g.eAt e).opposite w)
                  · rw [if_pos hin]
                    obtain ⟨b1, b2, b3⟩ :=
                      absorbB_inv N st Pw w ((st.g.eAt e).opposite w) h hPw
                    cases habs : absorbB st Pw w ((st.g.eAt e).opposite w) with
                    | fail s =>
                      rw [habs] at b1 b2 b3
                      exact ⟨b1, b2, b3⟩
                    | ok sp =>
                      obtain ⟨st1, Pw1⟩ := sp
                      rw [habs] at b1 b2 b3
                      dsimp only
                      by_cases hlow2 : st1.preOf ((st.g.eAt e).opposite w) < st1.lowptOf w
                      · rw [if_pos hlow2]
                        obtain ⟨c1, c2, c3⟩ := ih { st1 with
                            lowpt := st1.lowpt.set w (st1.preOf ((st.g.eAt e).opposite w)) }
                          (.loop w parent (st.g.succVis w e) Pw1) b1 ⟨hw, b3⟩
                        exact ⟨c1, c2.trans b2, c3⟩
                      · rw [if_neg hlow2]
                        obtain ⟨c1, c2, c3⟩ := ih st1
                          (.loop w parent (st.g.succVis w e) Pw1) b1 ⟨hw, b3⟩
                        exact ⟨c1, c2.trans b2, c3⟩
                  · rw [if_neg hin]
                    dsimp only
                    by_cases hlow2 : st.preOf ((st.g.eAt e).opposite w) < st.lowptOf w
                    · rw [if_pos hlow2]
                      exact ih _ _ ⟨h.1, h.2.1, h.2.2⟩ ⟨hw, hPw⟩
                    · rw [if_neg hlow2]
                      exact ih _ _ h ⟨hw, hPw⟩
      · rw [if_pos (by simp [hvis])]
        exact ih _ _ h ⟨hw, hPw⟩

theorem ofList_flatten (L : List (List Nat)) :
    Multiset.ofList L.flatten = (L.map Multiset.ofList).sum := by
  induction L with
  | nil => rfl
  | cons a L ih =>
    simp only [List.flatten_cons, List.map_cons, List.sum_cons, ← ih]
    exact (Multiset.coe_add _ _).symm

theorem sigM_initSt (g : Graph) : sigM (initSt g) = Multiset.ofList (List.range g.n) := by
  unfold sigM initSt
  simp only [List.map_map]
  suffices hgen : ∀ l : List Nat,
      ((l.map (fun v => Multiset.ofList [v]))).sum = Multiset.ofList l by
    have := hgen (List.range g.n)
    simpa using this
  intro l
  induction l with
  | nil => rfl
  | cons a l ih =>
    simp only [List.map_cons, List.sum_cons, ih]
    rfl

theorem initSt_inv (g : Graph) (hends : EndsOk g) : Inv g.n (initSt g) :=
  ⟨rfl, hends, by simp [initSt]⟩

/-- Claim C9: after the per-vertex initialisation `sigma[v] = [v]`, the DFS
over a block moves `sigma` contents only wholesale (`conc`), so at its end
each vertex of the block occurs in exactly one `sigma[.]` list: the
concatenation of all lists is a permutation of the block's vertex set, and
each vertex has total multiplicity one across the lists (so the non-empty
lists are pairwise disjoint and their union is the block's vertex set).
This holds whether the DFS returns normally or aborts at a debug check. -/
theorem claim_C9 (fuel : Nat) (g : Graph) (r : Nat)
    (hends : EndsOk g) (hr : r < g.n) :
    ((triedge_dfs fuel g r).get.1.sigma.flatten).Perm (List.range g.n) ∧
    ∀ v, v < g.n →
      ((triedge_dfs fuel g r).get.1.sigma.map (List.count v)).sum = 1 := by
  obtain ⟨_, h2, _⟩ := run_inv g.n fuel (initSt g) (.vis r none) (initSt_inv g hends) hr
  have hperm : ((triedge_dfs fuel g r).get.1.sigma.flatten).Perm (List.range g.n) := by
    apply Multiset.coe_eq_coe.mp
    have e1 := ofList_flatten ((triedge_dfs fuel g r).get.1.sigma)
    have e2 : sigM (triedge_dfs fuel g r).get.1 = Multiset.ofList (List.range g.n) :=
      h2.trans (sigM_initSt g)
    exact e1.trans e2
  refine ⟨hperm, fun v hv => ?_⟩
  have hcnt := hperm.count_eq v
  rw [List.count_flatten] at hcnt
  rw [hcnt]
  exact List.count_eq_one_of_mem (List.nodup_range g.n) (List.mem_range.mpr hv)

/-- The complete graph on four nodes, used as the C9 witness block. -/
def k4g : Graph := mkGraph 4 [(0, 1), (0, 2), (0, 3), (1, 2), (1, 3), (2, 3)]

theorem claim_C9_witness :
    ((triedge_dfs 100 k4g 0).get.1.sigma.flatten).Perm (List.range 4) ∧
    ((triedge_dfs 100 k4g 0).get.1.sigma.map (List.count 2)).sum = 1 :=
  ⟨(claim_C9 100 k4g 0 (by unfold EndsOk; decide) (by decide)).1,
   (claim_C9 100 k4g 0 (by unfold EndsOk; decide) (by decide)).2 2 (by decide)⟩

/-!
## The pendant-stripping phase of the splitter (claim C6)

`split_graph` lines 750-765: after hiding the bridges, repeatedly scan
every vertex; each vertex of current degree 1 gets its single visible
incident edge pushed onto `deg1edges` and hidden; whole passes repeat until
a pass hides nothing.  The do-while loop is embedded with an internal fuel
of (number of visible edges + 1), which is provably enough because every
repeated pass hides at least one edge. -/

/-- One pass of the pendant scan over the vertex list `vs` (C:
`forall_nodes(n, G)`), threading the graph, the accumulated `deg1edges`
(LEDA `push` prepends) and the `haspendent` flag. -/
def pendScan : List Nat → Graph → List Nat → Bool → Graph × List Nat × Bool
  | [], g, acc, flag => (g, acc, flag)
  | v :: vs, g, acc, flag =>
    if g.degree v = 1 then
      match g.firstVis v with
      | some e =>
        if g.visible e then pendScan vs (g.hideEdge e) (e :: acc) true
        else pendScan vs g acc flag
      | none => pendScan vs g acc flag
    else pendScan vs g acc flag

/-- The do-while loop around the pendant scan. -/
def pendLoop : Nat → Graph → List Nat → Graph × List Nat
  | 0, g, acc => (g, acc)
  | fuel + 1, g, acc =>
    match pendScan (List.range g.n) g acc false with
    | (g', acc', flag) => if flag then pendLoop fuel g' acc' else (g', acc')

/-- Number of visible edges. -/
def visCount (g : Graph) : Nat := g.visibleIds.length

/-- The pendant-stripping phase: iterate passes until one hides nothing. -/
def stripPendants (g : Graph) (acc : List Nat) : Graph × List Nat :=
  pendLoop (visCount g + 1) g acc

theorem hideEdge_edges_length (g : Graph) (i : Nat) :
    (g.hideEdge i).edges.length = g.edges.length := by
  simp [Graph.hideEdge]

theorem hideEdge_visible_self (g : Graph) (e : Nat) (he : g.visible e = true) :
    (g.hideEdge e).visible e = false := by
  have hlt : e < g.edges.length := visible_lt g e he
  simp only [Graph.visible, Graph.eAt, Graph.hideEdge]
  rw [List.getD_eq_getElem _ _ (by simpa using hlt), List.getElem_set_self]
  rfl

theorem hideEdge_visible_ne (g : Graph) (i e : Nat) (hne : e ≠ i) :
    (g.hideEdge i).visible e = g.visible e := by
  by_cases hlt : e < g.edges.length
  · simp only [Graph.visible, Graph.eAt, Graph.hideEdge]
    rw [List.getD_eq_getElem _ _ (by simpa using hlt),
      List.getElem_set_ne (fun h => hne h.symm), List.getD_eq_getElem _ _ hlt]
  · simp only [Graph.visible, Graph.eAt, Graph.hideEdge]
    rw [List.getD_eq_default _ _ (by simpa using Nat.le_of_not_lt hlt),
      List.getD_eq_default _ _ (Nat.le_of_not_lt hlt)]

theorem hideEdge_visible_mono (g : Graph) (i e : Nat)
    (h : (g.hideEdge i).visible e = true) : g.visible e = true := by
  by_cases hne : e = i
  · subst hne
    by_cases hv : g.visible e = true
    · exact hv
    · by_cases hlt : e < g.edges.length
      · simp only [Graph.visible, Graph.eAt, Graph.hideEdge] at h
        rw [List.getD_eq_getElem _ _ (by simpa using hlt), List.getElem_set_self] at h
        cases h
      · simp only [Graph.visible, Graph.eAt, Graph.hideEdge] at h
        rw [List.getD_eq_default _ _ (by simpa using Nat.le_of_not_lt hlt)] at h
        cases h
  · rw [← hideEdge_visible_ne g i e hne]
    exact h

theorem hideEdge_adjOf (g : Graph) (i v : Nat) :
    (g.hideEdge i).adjOf v = g.adjOf v := rfl

theorem hideEdge_n' (g : Graph) (i : Nat) : (g.hideEdge i).n = g.n := rfl

/-- A strict `countP` comparison: if `q` implies `p` on `l` and some
element of `l` satisfies `p` but not `q`, then `q` counts strictly fewer. -/
theorem countP_lt_of (l : List Nat) (p q : Nat → Bool)
    (hsub : ∀ x ∈ l, q x = true → p x = true)
    (x0 : Nat) (hx0 : x0 ∈ l) (hp : p x0 = true) (hq : q x0 = false) :
    l.countP q < l.countP p := by
  induction l with
  | nil => cases hx0
  | cons a l ih =>
    rcases List.mem_cons.mp hx0 with h1 | h1
    · subst h1
      rw [List.countP_cons, List.countP_cons, hp, hq,
        if_neg (by decide : ¬((false : Bool) = true)), if_pos rfl]
      have hle : l.countP q ≤ l.countP p :=
        List.countP_mono_left (fun x hx => hsub x (List.mem_cons_of_mem _ hx))
      omega
    · rw [List.countP_cons, List.countP_cons]
      have hlt := ih (fun x hx => hsub x (List.mem_cons_of_mem _ hx)) h1
      have hca : (if q a then 1 else 0) ≤ (if p a then 1 else 0) := by
        by_cases hqa : q a = true
        · rw [hqa, hsub a (List.mem_cons_self a l) hqa]
        · rw [Bool.not_eq_true] at hqa
          rw [hqa]
          simp
      omega

theorem visCount_hide_lt (g : Graph) (e : Nat) (he : g.visible e = true) :
    visCount (g.hideEdge e) < visCount g := by
  unfold visCount Graph.visibleIds
  rw [hideEdge_edges_length]
  rw [← List.countP_eq_length_filter, ← List.countP_eq_length_filter]
  refine countP_lt_of _ _ _ ?_ e ?_ he ?_
  · intro x _ hx
    exact hideEdge_visible_mono g e x hx
  · exact List.mem_range.mpr (visible_lt g e he)
  · rw [← Bool.not_eq_true]
    intro hcon
    rw [hideEdge_visible_self g e he] at hcon
    cases hcon

/-- When `degree v = 1`, `first_adj_edge` returns a visible edge. -/
theorem degree_one_firstVis (g : Graph) (v : Nat) (h : g.degree v = 1) :
    ∃ e, g.firstVis v = some e ∧ g.visible e = true := by
  unfold Graph.degree at h
  have hne : (g.adjOf v).filter g.visible ≠ [] := by
    intro hcon
    rw [hcon] at h
    cases h
  obtain ⟨e, he⟩ := List.exists_mem_of_ne_nil _ hne
  have hmem := List.mem_filter.mp he
  have : ∃ x ∈ g.adjOf v, g.visible x = true := ⟨e, hmem.1, hmem.2⟩
  obtain ⟨e', he'⟩ := List.find?_isSome.mpr (by
    obtain ⟨x, hx1, hx2⟩ := this
    exact ⟨x, hx1, hx2⟩) |> Option.isSome_iff_exists.mp
  exact ⟨e', he', List.find?_some he'⟩

theorem pendScan_flag_true (vs : List Nat) :
    ∀ g acc, (pendScan vs g acc true).2.2 = true := by
  induction vs with
  | nil => intro g acc; rfl
  | cons v vs ih =>
    intro g acc
    simp only [pendScan]
    split
    · split
      · split
        · exact ih _ _
        · exact ih _ _
      · exact ih _ _
    · exact ih _ _

theorem pendScan_n (vs : List Nat) :
    ∀ g acc flag, (pendScan vs g acc flag).1.n = g.n := by
  induction vs with
  | nil => intro g acc flag; rfl
  | cons v vs ih =>
    intro g acc flag
    simp only [pendScan]
    split
    · split
      · split
        · rw [ih]; rfl
        · exact ih _ _ _
      · exact ih _ _ _
    · exact ih _ _ _

theorem pendScan_iacc (g0 : Graph) (vs : List Nat) :
    ∀ g acc flag,
      (∀ e, e ∈ acc ↔ (g0.visible e = true ∧ ¬ g.visible e = true)) →
      (∀ e, g.visible e = true → g0.visible e = true) →
      (∀ e, e ∈ (pendScan vs g acc flag).2.1 ↔
        (g0.visible e = true ∧ ¬ (pendScan vs g acc flag).1.visible e = true)) ∧
      (∀ e, (pendScan vs g acc flag).1.visible e = true → g0.visible e = true) := by
  induction vs with
  | nil =>
    intro g acc flag hi hm
    exact ⟨hi, hm⟩
  | cons v vs ih =>
    intro g acc flag hi hm
    simp only [pendScan]
    split
    · rename_i hdeg
      split
      · rename_i e1 hfv
        split
        · rename_i hevis
          refine ih (g.hideEdge e1) (e1 :: acc) true ?_ ?_
          · intro e
            by_cases hee : e = e1
            · subst hee
              simp only [List.mem_cons, true_or, true_iff]
              refine ⟨hm e hevis, ?_⟩
              rw [hideEdge_visible_self g e hevis]
              simp
            · rw [hideEdge_visible_ne g e1 e hee]
              constructor
              · intro hmem
                rcases List.mem_cons.mp hmem with h1 | h1
                · exact absurd h1 hee
                · exact (hi e).mp h1
              · intro hr
                exact List.mem_cons_of_mem _ ((hi e).mpr hr)
          · intro e hv
            exact hm e (hideEdge_visible_mono g e1 e hv)
        · exact ih g acc flag hi hm
      · exact ih g acc flag hi hm
    · exact ih g acc flag hi hm

theorem pendScan_false (vs : List Nat) :
    ∀ g acc, (pendScan vs g acc false).2.2 = false →
      (pendScan vs g acc false).1 = g ∧ (pendScan vs g acc false).2.1 = acc ∧
      ∀ v ∈ vs, g.degree v ≠ 1 := by
  induction vs with
  | nil =>
    intro g acc _
    exact ⟨rfl, rfl, by intro v hv; cases hv⟩
  | cons v vs ih =>
    intro g acc hflag
    by_cases hdeg : g.degree v = 1
    · exfalso
      obtain ⟨e, hfv, hevis⟩ := degree_one_firstVis g v hdeg
      simp only [pendScan, if_pos hdeg, hfv, if_pos hevis] at hflag
      rw [pendScan_flag_true] at hflag
      cases hflag
    · simp only [pendScan, if_neg hdeg] at hflag ⊢
      obtain ⟨h1, h2, h3⟩ := ih g acc hflag
      refine ⟨h1, h2, ?_⟩
      intro x hx
      rcases List.mem_cons.mp hx with h4 | h4
      · exact h4 ▸ hdeg
      · exact h3 x h4

theorem pendScan_count_le (vs : List Nat) :
    ∀ g acc flag, visCount (pendScan vs g acc flag).1 ≤ visCount g := by
  induction vs with
  | nil => intro g acc flag; exact Nat.le_refl _
  | cons v vs ih =>
    intro g acc flag
    simp only [pendScan]
    split
    · split
      · split
        · rename_i e1 hfv hevis
          exact Nat.le_trans (ih _ _ _) (Nat.le_of_lt (visCount_hide_lt g e1 hevis))
        · exact ih _ _ _
      · exact ih _ _ _
    · exact ih _ _ _

theorem pendScan_count (vs : List Nat) :
    ∀ g acc, (pendScan vs g acc false).2.2 = true →
      visCount (pendScan vs g acc false).1 < visCount g := by
  induction vs with
  | nil => intro g acc h; cases h
  | cons v vs ih =>
    intro g acc hflag
    by_cases hdeg : g.degree v = 1
    · obtain ⟨e, hfv, hevis⟩ := degree_one_firstVis g v hdeg
      simp only [pendScan, if_pos hdeg, hfv, if_pos hevis] at hflag ⊢
      exact Nat.lt_of_le_of_lt (pendScan_count_le vs _ _ _) (visCount_hide_lt g e hevis)
    · simp only [pendScan, if_neg hdeg] at hflag ⊢
      exact ih g acc hflag

theorem pendLoop_spec (g0 : Graph) :
    ∀ (fuel : Nat) (g : Graph) (acc : List Nat), visCount g < fuel →
      (∀ e, e ∈ acc ↔ (g0.visible e = true ∧ ¬ g.visible e = true)) →
      (∀ e, g.visible e = true → g0.visible e = true) →
      (∀ e, e ∈ (pendLoop fuel g acc).2 ↔
        (g0.visible e = true ∧ ¬ (pendLoop fuel g acc).1.visible e = true)) ∧
      (∀ v ∈ List.range g.n, (pendLoop fuel g acc).1.degree v ≠ 1) ∧
      (pendLoop fuel g acc).1.n = g.n := by
  intro fuel
  induction fuel with
  | zero =>
    intro g acc hcnt
    exact absurd hcnt (Nat.not_lt_zero _)
  | succ fuel ih =>
    intro g acc hcnt hi hm
    simp only [pendLoop]
    cases hflag : (pendScan (List.range g.n) g acc false).2.2 with
    | false =>
      obtain ⟨h1, h2, h3⟩ := pendScan_false (List.range g.n) g acc hflag
      have heq : pendScan (List.range g.n) g acc false
          = ((pendScan (List.range g.n) g acc false).1,
             (pendScan (List.range g.n) g acc false).2.1,
             (pendScan (List.range g.n) g acc false).2.2) := rfl
      rw [heq, hflag, h1, h2]
      rw [if_neg (by simp : ¬((false : Bool) = true))]
      exact ⟨hi, fun v hv => h3 v hv, rfl⟩
    | true =>
      obtain ⟨hiacc, hmono⟩ := pendScan_iacc g0 (List.range g.n) g acc false hi hm
      have hcnt2 := pendScan_count (List.range g.n) g acc hflag
      have heq : pendScan (List.range g.n) g acc false
          = ((pendScan (List.range g.n) g acc false).1,
             (pendScan (List.range g.n) g acc false).2.1,
             (pendScan (List.range g.n) g acc false).2.2) := rfl
      rw [heq, hflag]
      simp only [if_pos rfl]
      have hn := pendScan_n (List.range g.n) g acc false
      obtain ⟨c1, c2, c3⟩ := ih (pendScan (List.range g.n) g acc false).1
        (pendScan (List.range g.n) g acc false).2.1
        (by omega) hiacc hmono
      rw [hn] at c2 c3
      exact ⟨c1, c2, c3⟩

/-- Claim C6: the pendant-stripping phase of the splitter terminates with
no vertex of visible degree exactly 1, and the `deg1_after` list built by
its `push`/`hide` pairs contains exactly the edges hidden during the phase
(those visible on entry and hidden on exit). -/
theorem claim_C6 (g : Graph) :
    (∀ v, v < g.n → (stripPendants g []).1.degree v ≠ 1) ∧
    (∀ e, e ∈ (stripPendants g []).2 ↔
      (g.visible e = true ∧ (stripPendants g []).1.visible e = false)) := by
  obtain ⟨h1, h2, _⟩ := pendLoop_spec g (visCount g + 1) g []
    (Nat.lt_succ_self _)
    (by intro e; simp)
    (fun e he => he)
  simp only [stripPendants]
  constructor
  · intro v hv
    exact h2 v (List.mem_range.mpr hv)
  · intro e
    rw [h1 e]
    simp [Bool.not_eq_true]

/-- A three-vertex path whose two edges are both stripped as pendants. -/
def gpath : Graph := mkGraph 3 [(0, 1), (1, 2)]

theorem claim_C6_witness :
    ((stripPendants gpath []).1.degree 0 ≠ 1) ∧
    (0 ∈ (stripPendants gpath []).2 ↔
      (gpath.visible 0 = true ∧ (stripPendants gpath []).1.visible 0 = false)) :=
  ⟨(claim_C6 gpath).1 0 (by decide), (claim_C6 gpath).2 0⟩

/-!
## Connectivity (`COMPONENTS`, `Is_Connected`, `Is_Biconnected`)

These LEDA routines are not part of the repository source.  Modelled from
the spec: `connected_components(G)` "labels each vertex with its
connected-component index, ignoring hidden edges".  Reachability is defined
over an explicit list `es` of allowed edge ids (instantiated with the
visible edges of a graph, or with a candidate cycle's edges), both as an
inductive relation and as an executable `n`-fold neighbourhood closure,
proved equivalent. -/

/-- One undirected step along an edge drawn from the allowed list `es`. -/
def EdgeStepL (g : Graph) (es : List Nat) (a b : Nat) : Prop :=
  ∃ e ∈ es, ((g.eAt e).src = a ∧ (g.eAt e).tgt = b) ∨
    ((g.eAt e).src = b ∧ (g.eAt e).tgt = a)

/-- Reachability along allowed edges. -/
def ReachL (g : Graph) (es : List Nat) : Nat → Nat → Prop :=
  Relation.ReflTransGen (EdgeStepL g es)

/-- The neighbours of `v` along allowed edges (executable). -/
def nbrsVia (g : Graph) (es : List Nat) (v : Nat) : List Nat :=
  es.filterMap (fun e =>
    if (g.eAt e).src = v then some (g.eAt e).tgt
    else if (g.eAt e).tgt = v then some (g.eAt e).src
    else none)

/-- One closure step: a set together with all its neighbours. -/
def stepSet (g : Graph) (es : List Nat) (s : List Nat) : List Nat :=
  (s ++ s.flatMap (nbrsVia g es)).dedup

/-- The executable reachable set: `n`-fold closure from `v`. -/
def reachN (g : Graph) (es : List Nat) (v : Nat) : List Nat :=
  (stepSet g es)^[g.n] [v]

theorem edgeStepL_symm (g : Graph) (es : List Nat) (a b : Nat)
    (h : EdgeStepL g es a b) : EdgeStepL g es b a := by
  obtain ⟨e, he, h1 | h1⟩ := h
  · exact ⟨e, he, Or.inr h1⟩
  · exact ⟨e, he, Or.inl h1⟩

theorem reachL_symm (g : Graph) (es : List Nat) (a b : Nat)
    (h : ReachL g es a b) : ReachL g es b a := by
  induction h with
  | refl => exact Relation.ReflTransGen.refl
  | tail _ hstep ih =>
    exact Relation.ReflTransGen.trans
      (Relation.ReflTransGen.single (edgeStepL_symm _ _ _ _ hstep)) ih

theorem mem_nbrsVia (g : Graph) (es : List Nat) (v x : Nat) :
    x ∈ nbrsVia g es v ↔ EdgeStepL g es v x := by
  unfold nbrsVia EdgeStepL
  rw [List.mem_filterMap]
  constructor
  · rintro ⟨e, he, hx⟩
    by_cases h1 : (g.eAt e).src = v
    · rw [if_pos h1] at hx
      exact ⟨e, he, Or.inl ⟨h1, by injection hx⟩⟩
    · rw [if_neg h1] at hx
      by_cases h2 : (g.eAt e).tgt = v
      · rw [if_pos h2] at hx
        exact ⟨e, he, Or.inr ⟨by injection hx, h2⟩⟩
      · rw [if_neg h2] at hx
        cases hx
  · rintro ⟨e, he, ⟨h1, h2⟩ | ⟨h1, h2⟩⟩
    · exact ⟨e, he, by rw [if_pos h1, h2]⟩
    · refine ⟨e, he, ?_⟩
      by_cases h3 : (g.eAt e).src = v
      · rw [if_pos h3, h2, ← h1, h3]
      · rw [if_neg h3, if_pos h2, h1]

theorem mem_stepSet (g : Graph) (es : List Nat) (s : List Nat) (x : Nat) :
    x ∈ stepSet g es s ↔ x ∈ s ∨ ∃ y ∈ s, EdgeStepL g es y x := by
  unfold stepSet
  rw [List.mem_dedup, List.mem_append, List.mem_flatMap]
  constructor
  · rintro (h | ⟨y, hy, hx⟩)
    · exact Or.inl h
    · exact Or.inr ⟨y, hy, (mem_nbrsVia g es y x).mp hx⟩
  · rintro (h | ⟨y, hy, hx⟩)
    · exact Or.inl h
    · exact Or.inr ⟨y, hy, (mem_nbrsVia g es y x).mpr hx⟩

theorem stepSet_subset (g : Graph) (es : List Nat) (s : List Nat) :
    ∀ x ∈ s, x ∈ stepSet g es s := by
  intro x hx
  exact (mem_stepSet g es s x).mpr (Or.inl hx)

theorem iterate_mono_step (g : Graph) (es : List Nat) (k : Nat) (v x : Nat)
    (h : x ∈ (stepSet g es)^[k] [v]) : x ∈ (stepSet g es)^[k + 1] [v] := by
  induction k generalizing x with
  | zero => exact stepSet_subset g es [v] x h
  | succ k ih =>
    rw [Function.iterate_succ_apply'] at h ⊢
    rw [mem_stepSet] at h ⊢
    rcases h with h | ⟨y, hy, hstep⟩
    · exact Or.inl (ih x h)
    · exact Or.inr ⟨y, ih y hy, hstep⟩

theorem iterate_mono (g : Graph) (es : List Nat) (k m : Nat) (hkm : k ≤ m)
    (v x : Nat) (h : x ∈ (stepSet g es)^[k] [v]) : x ∈ (stepSet g es)^[m] [v] := by
  induction m with
  | zero =>
    have hk0 : k = 0 := Nat.le_zero.mp hkm
    subst hk0
    exact h
  | succ m ih =>
    rcases Nat.lt_or_ge k (m + 1) with h1 | h1
    · exact iterate_mono_step g es m v x (ih (Nat.lt_succ_iff.mp h1))
    · have : k = m + 1 := Nat.le_antisymm hkm h1
      subst this
      exact h

/-- Soundness: everything in the closure is reachable. -/
theorem reachN_sound (g : Graph) (es : List Nat) (v : Nat) (k : Nat) :
    ∀ x ∈ (stepSet g es)^[k] [v], ReachL g es v x := by
  induction k with
  | zero =>
    intro x hx
    rcases List.mem_singleton.mp hx with rfl
    exact Relation.ReflTransGen.refl
  | succ k ih =>
    intro x hx
    rw [Function.iterate_succ_apply', mem_stepSet] at hx
    rcases hx with h | ⟨y, hy, hstep⟩
    · exact ih x h
    · exact Relation.ReflTransGen.tail (ih y hy) hstep

/-- Every element of the closure is a node, provided the allowed edges have
in-range endpoints and `v` is a node. -/
theorem iterate_subset_range (g : Graph) (es : List Nat)
    (hok : ∀ e ∈ es, (g.eAt e).src < g.n ∧ (g.eAt e).tgt < g.n)
    (v : Nat) (hv : v < g.n) (k : Nat) :
    ∀ x ∈ (stepSet g es)^[k] [v], x < g.n := by
  induction k with
  | zero =>
    intro x hx
    rcases List.mem_singleton.mp hx with rfl
    exact hv
  | succ k ih =>
    intro x hx
    rw [Function.iterate_succ_apply', mem_stepSet] at hx
    rcases hx with h | ⟨y, _, e, he, h1 | h1⟩
    · exact ih x h
    · exact h1.2 ▸ (hok e he).2
    · exact h1.1 ▸ (hok e he).1

theorem stepSet_congr_subset (g : Graph) (es : List Nat) (s s' : List Nat)
    (h : ∀ x ∈ s', x ∈ s) : ∀ x ∈ stepSet g es s', x ∈ stepSet g es s := by
  intro x hx
  rw [mem_stepSet] at hx ⊢
  rcases hx with h1 | ⟨y, hy, hstep⟩
  · exact Or.inl (h x h1)
  · exact Or.inr ⟨y, h y hy, hstep⟩

/-- Saturation: if one closure step adds nothing, later steps add nothing. -/
theorem iterate_stable (g : Graph) (es : List Nat) (v : Nat) (k : Nat)
    (hstab : ∀ x, x ∈ (stepSet g es)^[k + 1] [v] → x ∈ (stepSet g es)^[k] [v]) :
    ∀ j x, x ∈ (stepSet g es)^[k + j] [v] → x ∈ (stepSet g es)^[k] [v] := by
  intro j
  induction j with
  | zero => intro x hx; exact hx
  | succ j ih =>
    intro x hx
    rw [show k + (j + 1) = (k + j) + 1 by omega, Function.iterate_succ_apply'] at hx
    have h2 : ∀ y ∈ (stepSet g es)^[k + j] [v], y ∈ (stepSet g es)^[k] [v] := ih
    have h3 := stepSet_congr_subset g es ((stepSet g es)^[k] [v])
      ((stepSet g es)^[k + j] [v]) h2 x hx
    have h4 : x ∈ (stepSet g es)^[k + 1] [v] := by
      rw [Function.iterate_succ_apply']
      exact h3
    exact hstab x h4

/-- Within `n` closure steps a fixpoint is reached (all iterates live in
`range n`, and a strictly growing chain of subsets of `range n` has length
at most `n`). -/
theorem iterate_saturates (g : Graph) (es : List Nat)
    (hok : ∀ e ∈ es, (g.eAt e).src < g.n ∧ (g.eAt e).tgt < g.n)
    (v : Nat) (hv : v < g.n) :
    ∃ k ≤ g.n, ∀ x, x ∈ (stepSet g es)^[k + 1] [v] → x ∈ (stepSet g es)^[k] [v] := by
  by_contra hcon
  push_neg at hcon
  have hstep : ∀ k ≤ g.n, ∃ x, x ∈ (stepSet g es)^[k + 1] [v] ∧
      x ∉ (stepSet g es)^[k] [v] := by
    intro k hk
    obtain ⟨x, hx1, hx2⟩ := hcon k hk
    exact ⟨x, hx1, hx2⟩
  have hcard : ∀ k, k ≤ g.n + 1 → k + 1 ≤ ((stepSet g es)^[k] [v]).toFinset.card := by
    intro k
    induction k with
    | zero =>
      intro _
      have hone : ([v] : List Nat).toFinset.card = 1 := by simp
      simp only [Function.iterate_zero_apply]
      omega
    | succ k ih =>
      intro hk
      obtain ⟨x, hx1, hx2⟩ := hstep k (by omega)
      have hsub : ((stepSet g es)^[k] [v]).toFinset ⊆
          ((stepSet g es)^[k + 1] [v]).toFinset := by
        intro y hy
        rw [List.mem_toFinset] at hy ⊢
        exact iterate_mono_step g es k v y hy
      have hss : ((stepSet g es)^[k] [v]).toFinset ⊂
          ((stepSet g es)^[k + 1] [v]).toFinset := by
        refine ⟨hsub, ?_⟩
        intro hcon2
        exact hx2 (List.mem_toFinset.mp (hcon2 (List.mem_toFinset.mpr hx1)))
      have := Finset.card_lt_card hss
      have hih := ih (by omega)
      omega
  have hbound : ((stepSet g es)^[g.n + 1] [v]).toFinset ⊆ Finset.range g.n := by
    intro y hy
    rw [List.mem_toFinset] at hy
    exact Finset.mem_range.mpr (iterate_subset_range g es hok v hv (g.n + 1) y hy)
  have h1 := hcard (g.n + 1) (Nat.le_refl _)
  have h2 := Finset.card_le_card hbound
  rw [Finset.card_range] at h2
  omega

/-- Completeness: every vertex reachable along allowed edges is in the
`n`-fold closure. -/
theorem reachN_complete (g : Graph) (es : List Nat)
    (hok : ∀ e ∈ es, (g.eAt e).src < g.n ∧ (g.eAt e).tgt < g.n)
    (v : Nat) (hv : v < g.n) (x : Nat) (h : ReachL g es v x) :
    x ∈ reachN g es v := by
  have hex : ∃ k, x ∈ (stepSet g es)^[k] [v] := by
    induction h with
    | refl => exact ⟨0, by simp⟩
    | tail _ hstep ih =>
      obtain ⟨k, hk⟩ := ih
      refine ⟨k + 1, ?_⟩
      rw [Function.iterate_succ_apply', mem_stepSet]
      exact Or.inr ⟨_, hk, hstep⟩
  obtain ⟨k, hk⟩ := hex
  obtain ⟨k0, hk0, hstab⟩ := iterate_saturates g es hok v hv
  have hall := iterate_stable g es v k0 hstab
  rcases Nat.le_total k k0 with h1 | h1
  · exact iterate_mono g es k0 g.n hk0 v x (iterate_mono g es k k0 h1 v x hk)
  · have : x ∈ (stepSet g es)^[k0 + (k - k0)] [v] := by
      rw [show k0 + (k - k0) = k by omega]
      exact hk
    exact iterate_mono g es k0 g.n hk0 v x (hall (k - k0) x this)

/-- The executable closure decides reachability. -/
theorem reachN_iff (g : Graph) (es : List Nat)
    (hok : ∀ e ∈ es, (g.eAt e).src < g.n ∧ (g.eAt e).tgt < g.n)
    (v : Nat) (hv : v < g.n) (x : Nat) :
    x ∈ reachN g es v ↔ ReachL g es v x :=
  ⟨reachN_sound g es v g.n x, reachN_complete g es hok v hv x⟩

/-!
## Biconnected edge blocks and bridges (`BICONNECTED_COMPONENTS`)

LEDA's `BICONNECTED_COMPONENTS` is not part of the repository source.
Modelled from the spec: it "labels each visible edge with its
2-vertex-connected-component (block) index"; two distinct edges share a
block exactly when some simple cycle contains both, so an edge forms a
block of size one exactly when no simple cycle passes through it (the
program's bridge test `A[ecomp[e]] <= 1`, under the loop-free precondition
that LEDA imposes and `main` establishes with `Delete_Loops`).  A simple
cycle is modelled as a set of visible edges that is non-empty,
duplicate-free, 2-regular on every incident vertex (counting endpoint
slots) and connected. -/

/-- Number of endpoint slots of `v` among the edges `s` (a self-loop
contributes twice). -/
def slots (g : Graph) (s : List Nat) (v : Nat) : Nat :=
  (s.map (fun e => (if (g.eAt e).src = v then 1 else 0) +
    (if (g.eAt e).tgt = v then 1 else 0))).sum

/-- `s` is a simple cycle of visible edges. -/
structure IsCycleSet (g : Graph) (s : List Nat) : Prop where
  nonempty : s ≠ []
  nodup : s.Nodup
  vis : ∀ e ∈ s, g.visible e = true
  deg2 : ∀ v, 0 < slots g s v → slots g s v = 2
  conn : ∀ a b, 0 < slots g s a → 0 < slots g s b → ReachL g s a b

/-- All endpoints of the edges of `s`, with multiplicity. -/
def touchedVerts (g : Graph) (s : List Nat) : List Nat :=
  s.flatMap (fun e => [(g.eAt e).src, (g.eAt e).tgt])

/-- Executable connectivity check of the subgraph `s`: all touched
vertices reachable from the first one. -/
def connB (g : Graph) (s : List Nat) : Bool :=
  match touchedVerts g s with
  | [] => true
  | a :: rest => rest.all (fun b => (reachN g s a).contains b)

/-- Executable simple-cycle check. -/
def cycSetB (g : Graph) (s : List Nat) : Bool :=
  (!s.isEmpty) && (decide s.Nodup) && (s.all (fun e => g.visible e)) &&
  ((touchedVerts g s).all (fun v => slots g s v = 2)) && connB g s

/-- The bridge test of `split_graph` (spec-modelled block of size one): no
simple cycle of visible edges passes through `e`.  Decided by searching the
sublists of the visible edge list. -/
def isBridgeB (g : Graph) (e : Nat) : Bool :=
  !((g.visibleIds.sublists).any (fun s => cycSetB g s && s.contains e))

/-- The `bridges` list collected by `split_graph` (`forall_edges` pushes
each bridge onto the front of the list, so the result is in reverse edge-id
order). -/
def bridgesOf (g : Graph) : List Nat :=
  (g.visibleIds.filter (isBridgeB g)).reverse

theorem slots_nil (g : Graph) (v : Nat) : slots g [] v = 0 := rfl

theorem slots_cons (g : Graph) (f : Nat) (s : List Nat) (v : Nat) :
    slots g (f :: s) v = ((if (g.eAt f).src = v then 1 else 0) +
      (if (g.eAt f).tgt = v then 1 else 0)) + slots g s v := by
  simp [slots]

theorem slots_perm (g : Graph) (s s' : List Nat) (h : s.Perm s') (v : Nat) :
    slots g s v = slots g s' v :=
  (h.map _).sum_eq

theorem slots_pos_iff (g : Graph) (s : List Nat) (v : Nat) :
    0 < slots g s v ↔ ∃ e ∈ s, (g.eAt e).src = v ∨ (g.eAt e).tgt = v := by
  induction s with
  | nil => simp [slots]
  | cons f s ih =>
    rw [slots_cons]
    constructor
    · intro h
      by_cases h1 : (g.eAt f).src = v
      · exact ⟨f, by simp, Or.inl h1⟩
      · by_cases h2 : (g.eAt f).tgt = v
        · exact ⟨f, by simp, Or.inr h2⟩
        · rw [if_neg h1, if_neg h2] at h
          simp only [Nat.add_zero, Nat.zero_add] at h
          obtain ⟨e, he, hor⟩ := ih.mp h
          exact ⟨e, List.mem_cons_of_mem _ he, hor⟩
    · rintro ⟨e, he, hor⟩
      rcases List.mem_cons.mp he with h1 | h1
      · subst h1
        rcases hor with h2 | h2
        · rw [if_pos h2]; omega
        · rw [h2]; simp
      · have := ih.mpr ⟨e, h1, hor⟩
        omega

theorem slots_pos_of_endpoint (g : Graph) (s : List Nat) (e : Nat)
    (he : e ∈ s) (v : Nat) (hv : (g.eAt e).src = v ∨ (g.eAt e).tgt = v) :
    0 < slots g s v :=
  (slots_pos_iff g s v).mpr ⟨e, he, hv⟩

/-- Removing one occurrence of `e` subtracts exactly `e`'s contribution. -/
theorem slots_erase (g : Graph) (s : List Nat) (e : Nat) (he : e ∈ s) (v : Nat) :
    slots g s v = ((if (g.eAt e).src = v then 1 else 0) +
      (if (g.eAt e).tgt = v then 1 else 0)) + slots g (s.erase e) v := by
  have hperm : s.Perm (e :: s.erase e) := List.perm_cons_erase he
  rw [slots_perm g s (e :: s.erase e) hperm v, slots_cons]

/-- Double counting: summing slot-degrees over any vertex set `D` counts,
for each edge, its endpoints lying in `D`. -/
theorem sum_slots_eq (g : Graph) (es : List Nat) (D : Finset Nat) :
    (D.sum (fun v => slots g es v)) =
      (es.map (fun f => (if (g.eAt f).src ∈ D then 1 else 0) +
        (if (g.eAt f).tgt ∈ D then 1 else 0))).sum := by
  induction es with
  | nil => simp [slots]
  | cons f es ih =>
    have hdist : (D.sum (fun v => slots g (f :: es) v)) =
        (D.sum (fun v => (if (g.eAt f).src = v then 1 else 0) +
          (if (g.eAt f).tgt = v then 1 else 0))) + (D.sum (fun v => slots g es v)) := by
      rw [← Finset.sum_add_distrib]
      apply Finset.sum_congr rfl
      intro v _
      rw [slots_cons]
    rw [hdist, ih]
    have hsrc : (D.sum (fun v => if (g.eAt f).src = v then 1 else 0))
        = (if (g.eAt f).src ∈ D then 1 else 0) := Finset.sum_ite_eq D _ (fun _ => 1)
    have htgt : (D.sum (fun v => if (g.eAt f).tgt = v then 1 else 0))
        = (if (g.eAt f).tgt ∈ D then 1 else 0) := Finset.sum_ite_eq D _ (fun _ => 1)
    rw [Finset.sum_add_distrib, hsrc, htgt]
    simp

theorem sum_mod_two (l : List Nat) (h : ∀ x ∈ l, x = 0 ∨ x = 2) :
    l.sum % 2 = 0 := by
  induction l with
  | nil => rfl
  | cons a l ih =>
    have ha := h a (by simp)
    have hl := ih (fun x hx => h x (List.mem_cons_of_mem _ hx))
    rw [List.sum_cons]
    omega

/-- The handshake direction: deleting one edge of a simple cycle leaves its
endpoints connected by the remaining cycle edges. -/
theorem cycle_erase_connected (g : Graph) (s : List Nat) (e : Nat)
    (hok : ∀ f ∈ s, (g.eAt f).src < g.n ∧ (g.eAt f).tgt < g.n)
    (hc : IsCycleSet g s) (he : e ∈ s) :
    ReachL g (s.erase e) (g.eAt e).src (g.eAt e).tgt := by
  by_cases hab : (g.eAt e).src = (g.eAt e).tgt
  · rw [hab]
    exact Relation.ReflTransGen.refl
  · by_contra hreach
    classical
    set a := (g.eAt e).src with ha
    set b := (g.eAt e).tgt with hb
    set D : Finset Nat :=
      (Finset.range g.n).filter (fun v => ReachL g (s.erase e) a v) with hD
    have hmemD : ∀ v, v ∈ D ↔ (v < g.n ∧ ReachL g (s.erase e) a v) := by
      intro v
      rw [hD, Finset.mem_filter, Finset.mem_range]
    have haD : a ∈ D := by
      rw [hmemD]
      exact ⟨(hok e he).1, Relation.ReflTransGen.refl⟩
    have hbD : b ∉ D := by
      rw [hmemD]
      rintro ⟨_, hr⟩
      exact hreach hr
    have hnocross : ∀ f ∈ s.erase e,
        ((g.eAt f).src ∈ D ↔ (g.eAt f).tgt ∈ D) := by
      intro f hf
      have hfs : f ∈ s := List.mem_of_mem_erase hf
      constructor
      · intro hsrc
        rw [hmemD] at hsrc ⊢
        refine ⟨(hok f hfs).2, Relation.ReflTransGen.tail hsrc.2 ?_⟩
        exact ⟨f, hf, Or.inl ⟨rfl, rfl⟩⟩
      · intro htgt
        rw [hmemD] at htgt ⊢
        refine ⟨(hok f hfs).1, Relation.ReflTransGen.tail htgt.2 ?_⟩
        exact ⟨f, hf, Or.inr ⟨rfl, rfl⟩⟩
    -- the total slot sum over D is even (no edge crosses D)
    have heven : (D.sum (fun v => slots g (s.erase e) v)) % 2 = 0 := by
      rw [sum_slots_eq]
      apply sum_mod_two
      intro x hx
      rw [List.mem_map] at hx
      obtain ⟨f, hf, hfx⟩ := hx
      by_cases h1 : (g.eAt f).src ∈ D
      · have h2 : (g.eAt f).tgt ∈ D := (hnocross f hf).mp h1
        rw [if_pos h1, if_pos h2] at hfx
        exact Or.inr hfx.symm
      · have h2 : (g.eAt f).tgt ∉ D := fun hcon => h1 ((hnocross f hf).mpr hcon)
        rw [if_neg h1, if_neg h2] at hfx
        exact Or.inl hfx.symm
    -- every vertex of D is on the cycle, so its full slot count is 2
    have hDtwo : ∀ v ∈ D, slots g s v = 2 := by
      intro v hv
      rw [hmemD] at hv
      apply hc.deg2
      rcases Relation.ReflTransGen.cases_tail hv.2 with h1 | ⟨y, _, hstep⟩
      · subst h1
        exact slots_pos_of_endpoint g s e he a (Or.inl rfl)
      · obtain ⟨f, hf, hor⟩ := hstep
        have hfs : f ∈ s := List.mem_of_mem_erase hf
        rcases hor with ⟨_, h2⟩ | ⟨h2, _⟩
        · exact slots_pos_of_endpoint g s f hfs v (Or.inr h2)
        · exact slots_pos_of_endpoint g s f hfs v (Or.inl h2)
    have hsum2 : (D.sum (fun v => slots g (s.erase e) v)) +
        (D.sum (fun v => (if a = v then 1 else 0) + (if b = v then 1 else 0)))
        = D.sum (fun v => slots g s v) := by
      rw [← Finset.sum_add_distrib]
      apply Finset.sum_congr rfl
      intro v _
      rw [slots_erase g s e he v, ← ha, ← hb]
      exact Nat.add_comm _ _
    have hab1 : (D.sum (fun v => (if a = v then 1 else 0) + (if b = v then 1 else 0))) = 1 := by
      rw [Finset.sum_add_distrib, Finset.sum_ite_eq D a (fun _ => 1),
        Finset.sum_ite_eq D b (fun _ => 1), if_pos haD, if_neg hbD]
      rfl
    have hfull : (D.sum (fun v => slots g s v)) = 2 * D.card := by
      rw [Finset.sum_congr rfl (fun v hv => hDtwo v hv), Finset.sum_const]
      simp [Nat.mul_comm]
    have hcard : 0 < D.card := Finset.card_pos.mpr ⟨a, haD⟩
    omega

/-!
## Walks, simple paths, and the converse bridge direction

A walk is an edge list together with a start vertex; the next vertex after
traversing edge `f` from `v` is deterministic (`walkNext`).  Reachability
yields a walk, a shortest treatment yields a walk with duplicate-free
vertex trace, and such a walk has the slot-degree profile of a simple
path, which closes up with the missing edge into a simple cycle. -/

/-- The endpoint of `f` reached when entering from `v`. -/
def walkNext (g : Graph) (v f : Nat) : Nat :=
  if (g.eAt f).src = v then (g.eAt f).tgt else (g.eAt f).src

/-- `IsWalkB g es a l b`: the edge list `l` is a walk from `a` to `b` along
allowed edges. -/
def IsWalkB (g : Graph) (es : List Nat) : Nat → List Nat → Nat → Prop
  | a, [], b => a = b
  | a, f :: l, b => f ∈ es ∧ ((g.eAt f).src = a ∨ (g.eAt f).tgt = a) ∧
      IsWalkB g es (walkNext g a f) l b

/-- The vertex sequence of a walk. -/
def traceVerts (g : Graph) : Nat → List Nat → List Nat
  | a, [] => [a]
  | a, f :: l => a :: traceVerts g (walkNext g a f) l

/-- The final vertex of a walk. -/
def walkEnd (g : Graph) (a : Nat) (l : List Nat) : Nat :=
  l.foldl (walkNext g) a

theorem edgeStep_walkNext (g : Graph) (es : List Nat) (a f : Nat)
    (hf : f ∈ es) (hinc : (g.eAt f).src = a ∨ (g.eAt f).tgt = a) :
    EdgeStepL g es a (walkNext g a f) := by
  unfold walkNext
  rcases hinc with h | h
  · rw [if_pos h]
    exact ⟨f, hf, Or.inl ⟨h, rfl⟩⟩
  · by_cases h2 : (g.eAt f).src = a
    · rw [if_pos h2]
      exact ⟨f, hf, Or.inl ⟨h2, rfl⟩⟩
    · rw [if_neg h2]
      exact ⟨f, hf, Or.inr ⟨rfl, h⟩⟩

theorem edgeStep_to_walk (g : Graph) (es : List Nat) (a b : Nat)
    (h : EdgeStepL g es a b) : ∃ f, f ∈ es ∧ ((g.eAt f).src = a ∨ (g.eAt f).tgt = a) ∧
      walkNext g a f = b := by
  obtain ⟨f, hf, ⟨h1, h2⟩ | ⟨h1, h2⟩⟩ := h
  · exact ⟨f, hf, Or.inl h1, by rw [walkNext, if_pos h1, h2]⟩
  · refine ⟨f, hf, Or.inr h2, ?_⟩
    unfold walkNext
    by_cases h3 : (g.eAt f).src = a
    · rw [if_pos h3]
      rw [h3] at h1
      rw [h2, ← h1]
    · rw [if_neg h3, h1]

theorem walk_append (g : Graph) (es : List Nat) (a m b : Nat)
    (l1 l2 : List Nat) (h1 : IsWalkB g es a l1 m) (h2 : IsWalkB g es m l2 b) :
    IsWalkB g es a (l1 ++ l2) b := by
  induction l1 generalizing a with
  | nil =>
    have : a = m := h1
    subst this
    exact h2
  | cons f l1 ih =>
    obtain ⟨hf, hinc, hw⟩ := h1
    exact ⟨hf, hinc, ih _ hw⟩

theorem reach_to_walk (g : Graph) (es : List Nat) (a b : Nat)
    (h : ReachL g es a b) : ∃ l, IsWalkB g es a l b := by
  induction h with
  | refl => exact ⟨[], rfl⟩
  | tail _ hstep ih =>
    obtain ⟨l, hl⟩ := ih
    obtain ⟨f, hf, hinc, hnext⟩ := edgeStep_to_walk g es _ _ hstep
    refine ⟨l ++ [f], walk_append g es _ _ _ l [f] hl ?_⟩
    exact ⟨hf, hinc, hnext⟩

theorem walk_to_reach (g : Graph) (es : List Nat) (a : Nat) (l : List Nat) (b : Nat)
    (h : IsWalkB g es a l b) : ReachL g es a b := by
  induction l generalizing a with
  | nil =>
    have : a = b := h
    subst this
    exact Relation.ReflTransGen.refl
  | cons f l ih =>
    obtain ⟨hf, hinc, hw⟩ := h
    exact Relation.ReflTransGen.head (edgeStep_walkNext g es a f hf hinc) (ih _ hw)

theorem walk_end_eq (g : Graph) (es : List Nat) (a : Nat) (l : List Nat) (b : Nat)
    (h : IsWalkB g es a l b) : b = walkEnd g a l := by
  induction l generalizing a with
  | nil => exact (h : a = b).symm
  | cons f l ih =>
    obtain ⟨_, _, hw⟩ := h
    exact ih _ hw

theorem walk_take (g : Graph) (es : List Nat) (a : Nat) (l : List Nat) (b : Nat)
    (h : IsWalkB g es a l b) (i : Nat) :
    IsWalkB g es a (l.take i) (walkEnd g a (l.take i)) := by
  induction l generalizing a i with
  | nil => simp [IsWalkB, walkEnd]
  | cons f l ih =>
    obtain ⟨hf, hinc, hw⟩ := h
    cases i with
    | zero => simp [IsWalkB, walkEnd]
    | succ i => exact ⟨hf, hinc, ih _ hw i⟩

theorem walk_drop (g : Graph) (es : List Nat) (a : Nat) (l : List Nat) (b : Nat)
    (h : IsWalkB g es a l b) (i : Nat) :
    IsWalkB g es (walkEnd g a (l.take i)) (l.drop i) b := by
  induction l generalizing a i with
  | nil => simpa [walkEnd] using h
  | cons f l ih =>
    obtain ⟨hf, hinc, hw⟩ := h
    cases i with
    | zero => exact ⟨hf, hinc, hw⟩
    | succ i => exact ih _ hw i

theorem walkEnd_take_cons (g : Graph) (a f : Nat) (l : List Nat) (i : Nat) :
    walkEnd g a ((f :: l).take (i + 1)) = walkEnd g (walkNext g a f) (l.take i) := rfl

/-- The trace is the list of partial-walk endpoints. -/
theorem traceVerts_eq_map (g : Graph) (l : List Nat) :
    ∀ a, traceVerts g a l
      = (List.range (l.length + 1)).map (fun i => walkEnd g a (l.take i)) := by
  induction l with
  | nil => intro a; rfl
  | cons f l ih =>
    intro a
    show a :: traceVerts g (walkNext g a f) l = _
    conv_rhs => rw [List.range_succ_eq_map]
    rw [ih (walkNext g a f)]
    simp only [List.map_cons, List.map_map]
    rfl

/-- A list with a duplicate splits around the two occurrences. -/
theorem dup_split (l : List Nat) (h : ¬ l.Nodup) :
    ∃ l1 x l2 l3, l = l1 ++ x :: l2 ++ x :: l3 := by
  induction l with
  | nil => exact absurd List.nodup_nil h
  | cons a l ih =>
    by_cases ha : a ∈ l
    · obtain ⟨s, t, hst⟩ := List.append_of_mem ha
      exact ⟨[], a, s, t, by rw [hst]; rfl⟩
    · have : ¬ l.Nodup := fun hcon => h (List.nodup_cons.mpr ⟨ha, hcon⟩)
      obtain ⟨l1, x, l2, l3, hsp⟩ := ih this
      exact ⟨a :: l1, x, l2, l3, by rw [hsp]; rfl⟩

theorem get_mid (T1 : List Nat) (x : Nat) (R : List Nat) :
    ∀ (h : T1.length < (T1 ++ x :: R).length), (T1 ++ x :: R)[T1.length] = x := by
  induction T1 with
  | nil => intro h; rfl
  | cons a T1 ih => intro h; exact ih _

theorem get_mid2 (T1 : List Nat) (x : Nat) (R : List Nat) (k : Nat) (hk : k = T1.length)
    (h : k < (T1 ++ x :: R).length) : (T1 ++ x :: R)[k] = x := by
  subst hk
  exact get_mid T1 x R h

theorem traceVerts_length (g : Graph) (a : Nat) (l : List Nat) :
    (traceVerts g a l).length = l.length + 1 := by
  rw [traceVerts_eq_map]
  simp

/-- Every walk contains a walk with duplicate-free vertex trace between the
same endpoints (cutting out the loop between two equal trace vertices). -/
theorem exists_simple_walk (g : Graph) (es : List Nat) :
    ∀ (n : Nat) (l : List Nat) (a b : Nat), l.length ≤ n → IsWalkB g es a l b →
      ∃ l', IsWalkB g es a l' b ∧ (traceVerts g a l').Nodup ∧
        (∀ f ∈ l', f ∈ l) := by
  intro n
  induction n with
  | zero =>
    intro l a b hlen hw
    have hnil : l = [] := List.length_eq_zero.mp (Nat.le_zero.mp hlen)
    subst hnil
    exact ⟨[], hw, by simp [traceVerts], by intro f hf; cases hf⟩
  | succ n ih =>
    intro l a b hlen hw
    by_cases hnd : (traceVerts g a l).Nodup
    · exact ⟨l, hw, hnd, fun f hf => hf⟩
    · obtain ⟨T1, x, T2, T3, hsp⟩ := dup_split _ hnd
      have hmap : T1 ++ x :: T2 ++ x :: T3
          = (List.range (l.length + 1)).map (fun i => walkEnd g a (l.take i)) :=
        hsp.symm.trans (traceVerts_eq_map g l a)
      have hlen2 : (traceVerts g a l).length = l.length + 1 := traceVerts_length g a l
      have hlensum : T1.length + T2.length + T3.length + 2 = l.length + 1 := by
        rw [hsp] at hlen2
        simp at hlen2
        omega
      have hjle : T1.length + T2.length + 1 ≤ l.length := by omega
      have hget : ∀ (k : Nat), k < l.length + 1 →
          ∀ (hk : k < (T1 ++ x :: T2 ++ x :: T3).length),
          (T1 ++ x :: T2 ++ x :: T3)[k] = walkEnd g a (l.take k) := by
        intro k hkb hk
        have h2 := List.getElem_of_eq hmap hk
        rw [h2, List.getElem_map, List.getElem_range]
      have hlenall : (T1 ++ x :: T2 ++ x :: T3).length = l.length + 1 := by
        rw [← hsp]
        exact hlen2
      have hxi : walkEnd g a (l.take T1.length) = x := by
        have hb : T1.length < (T1 ++ x :: T2 ++ x :: T3).length := by
          rw [hlenall]; omega
        rw [← hget T1.length (by omega) hb]
        have hassoc : T1 ++ x :: T2 ++ x :: T3 = T1 ++ (x :: T2 ++ x :: T3) := by
          simp
        exact (List.getElem_of_eq hassoc hb).trans (get_mid T1 x _ _)
      have hxj : walkEnd g a (l.take (T1.length + T2.length + 1)) = x := by
        have hb : T1.length + T2.length + 1 < (T1 ++ x :: T2 ++ x :: T3).length := by
          rw [hlenall]; omega
        rw [← hget (T1.length + T2.length + 1) (by omega) hb]
        exact get_mid2 (T1 ++ x :: T2) x T3 (T1.length + T2.length + 1)
          (by simp; omega) hb
      have hw1 : IsWalkB g es a (l.take T1.length) x := by
        rw [← hxi]
        exact walk_take g es a l b hw T1.length
      have hw2 : IsWalkB g es x (l.drop (T1.length + T2.length + 1)) b := by
        have := walk_drop g es a l b hw (T1.length + T2.length + 1)
        rw [hxj] at this
        exact this
      have hw3 : IsWalkB g es a
          (l.take T1.length ++ l.drop (T1.length + T2.length + 1)) b :=
        walk_append g es a x b _ _ hw1 hw2
      have hlen3 : (l.take T1.length ++ l.drop (T1.length + T2.length + 1)).length ≤ n := by
        rw [List.length_append, List.length_take, List.length_drop]
        omega
      obtain ⟨l', hl1, hl2, hl3⟩ := ih _ a b hlen3 hw3
      refine ⟨l', hl1, hl2, fun f hf => ?_⟩
      rcases List.mem_append.mp (hl3 f hf) with h4 | h4
      · exact (List.take_subset _ _) h4
      · exact (List.drop_subset _ _) h4

theorem mem_visibleIds (g : Graph) (f : Nat) :
    f ∈ g.visibleIds ↔ g.visible f = true := by
  unfold Graph.visibleIds
  rw [List.mem_filter, List.mem_range]
  exact ⟨fun h => h.2, fun h => ⟨visible_lt g f h, h⟩⟩

theorem visibleIds_nodup (g : Graph) : g.visibleIds.Nodup :=
  (List.nodup_range _).filter _

theorem reachL_mono (g : Graph) (es es' : List Nat)
    (hsub : ∀ f ∈ es, f ∈ es') (a b : Nat) (h : ReachL g es a b) :
    ReachL g es' a b := by
  induction h with
  | refl => exact Relation.ReflTransGen.refl
  | tail _ hstep ih =>
    obtain ⟨f, hf, hor⟩ := hstep
    exact Relation.ReflTransGen.tail ih ⟨f, hsub f hf, hor⟩

theorem walk_mono (g : Graph) (es es' : List Nat)
    (hsub : ∀ f ∈ es, f ∈ es') :
    ∀ (l : List Nat) (a b : Nat), IsWalkB g es a l b → IsWalkB g es' a l b := by
  intro l
  induction l with
  | nil => intro a b h; exact h
  | cons f l ih =>
    intro a b h
    obtain ⟨hf, hinc, hw⟩ := h
    exact ⟨hsub f hf, hinc, ih _ _ hw⟩

theorem walk_self (g : Graph) (es : List Nat) :
    ∀ (l : List Nat) (a b : Nat), IsWalkB g es a l b → IsWalkB g l a l b := by
  intro l
  induction l with
  | nil => intro a b h; exact h
  | cons f l ih =>
    intro a b h
    obtain ⟨hf, hinc, hw⟩ := h
    refine ⟨by simp, hinc, ?_⟩
    exact walk_mono g l (f :: l) (fun x hx => List.mem_cons_of_mem _ hx) _ _ _ (ih _ _ hw)

theorem walk_edges_mem (g : Graph) (es : List Nat) :
    ∀ (l : List Nat) (a b : Nat), IsWalkB g es a l b → ∀ f ∈ l, f ∈ es := by
  intro l
  induction l with
  | nil => intro a b _ f hf; cases hf
  | cons f0 l ih =>
    intro a b h f hf
    obtain ⟨hf0, hinc, hw⟩ := h
    rcases List.mem_cons.mp hf with h1 | h1
    · exact h1 ▸ hf0
    · exact ih _ _ hw f h1

theorem trace_head_mem (g : Graph) (a : Nat) (l : List Nat) :
    a ∈ traceVerts g a l := by
  cases l with
  | nil => exact List.mem_singleton.mpr rfl
  | cons f l => exact List.mem_cons_self _ _

theorem walk_mem_trace_endpoint (g : Graph) (es : List Nat) :
    ∀ (l : List Nat) (a b : Nat), IsWalkB g es a l b → ∀ f ∈ l,
      (g.eAt f).src ∈ traceVerts g a l ∧ (g.eAt f).tgt ∈ traceVerts g a l := by
  intro l
  induction l with
  | nil => intro a b _ f hf; cases hf
  | cons f0 l ih =>
    intro a b h f hf
    obtain ⟨hf0, hinc, hw⟩ := h
    have htr : traceVerts g a (f0 :: l) = a :: traceVerts g (walkNext g a f0) l := rfl
    rcases List.mem_cons.mp hf with h1 | h1
    · subst h1
      rcases hinc with h2 | h2
      · constructor
        · rw [htr, h2]; exact List.mem_cons_self _ _
        · rw [htr]
          apply List.mem_cons_of_mem
          have : walkNext g a f = (g.eAt f).tgt := by rw [walkNext, if_pos h2]
          rw [← this]
          exact trace_head_mem g _ l
      · constructor
        · by_cases h3 : (g.eAt f).src = a
          · rw [htr, h3]; exact List.mem_cons_self _ _
          · rw [htr]
            apply List.mem_cons_of_mem
            have : walkNext g a f = (g.eAt f).src := by rw [walkNext, if_neg h3]
            rw [← this]
            exact trace_head_mem g _ l
        · rw [htr, h2]; exact List.mem_cons_self _ _
    · obtain ⟨hs, ht⟩ := ih _ _ hw f h1
      exact ⟨List.mem_cons_of_mem _ hs, List.mem_cons_of_mem _ ht⟩

/-- A walk with a duplicate-free vertex trace repeats no edge. -/
theorem walk_edges_nodup (g : Graph) (es : List Nat) :
    ∀ (l : List Nat) (a b : Nat), IsWalkB g es a l b →
      (traceVerts g a l).Nodup → l.Nodup := by
  intro l
  induction l with
  | nil => intro a b _ _; exact List.nodup_nil
  | cons f l ih =>
    intro a b h hnd
    obtain ⟨hf, hinc, hw⟩ := h
    have htr : traceVerts g a (f :: l) = a :: traceVerts g (walkNext g a f) l := rfl
    rw [htr, List.nodup_cons] at hnd
    refine List.nodup_cons.mpr ⟨?_, ih _ _ hw hnd.2⟩
    intro hfl
    obtain ⟨hs, ht⟩ := walk_mem_trace_endpoint g es l (walkNext g a f) b hw f hfl
    rcases hinc with h2 | h2
    · exact hnd.1 (h2 ▸ hs)
    · exact hnd.1 (h2 ▸ ht)

theorem trace_mem_reach (g : Graph) (es : List Nat) (a : Nat) (l : List Nat)
    (b v : Nat) (hw : IsWalkB g es a l b) (hv : v ∈ traceVerts g a l) :
    ReachL g es a v := by
  rw [traceVerts_eq_map] at hv
  obtain ⟨i, _, heq⟩ := List.mem_map.mp hv
  have := walk_take g es a l b hw i
  rw [heq] at this
  exact walk_to_reach g es a _ v this

theorem ite_eq_comm (x y : Nat) :
    (if x = y then (1 : Nat) else 0) = (if y = x then 1 else 0) := by
  by_cases h : x = y
  · rw [if_pos h, if_pos h.symm]
  · rw [if_neg h, if_neg (fun hc => h hc.symm)]

/-- Slot-degree profile of a walk over loop-free edges: each vertex gets two
slots per occurrence on the trace, minus one at each of the two ends. -/
theorem walk_profile (g : Graph) (es : List Nat) :
    ∀ (l : List Nat) (a b : Nat),
      (∀ f ∈ l, (g.eAt f).src ≠ (g.eAt f).tgt) → IsWalkB g es a l b → ∀ v,
      slots g l v + (if v = a then 1 else 0) + (if v = b then 1 else 0)
        = 2 * ((traceVerts g a l).count v) := by
  intro l
  induction l with
  | nil =>
    intro a b _ h v
    have hab : a = b := h
    subst hab
    rw [slots_nil]
    show 0 + _ + _ = 2 * (List.count v [a])
    by_cases hva : v = a
    · subst hva
      rw [if_pos rfl]
      have hc1 : List.count v [v] = 1 := by simp
      omega
    · rw [if_neg hva]
      have hc0 : List.count v [a] = 0 := List.count_eq_zero.mpr (by simp [hva])
      omega
  | cons f l ih =>
    intro a b hloop h v
    obtain ⟨hf, hinc, hw⟩ := h
    have hfl := hloop f (List.mem_cons_self _ _)
    have ihv := ih (walkNext g a f) b
      (fun x hx => hloop x (List.mem_cons_of_mem _ hx)) hw v
    have hcontrib : (if (g.eAt f).src = v then (1 : Nat) else 0) +
        (if (g.eAt f).tgt = v then 1 else 0)
        = (if v = a then 1 else 0) + (if v = walkNext g a f then 1 else 0) := by
      unfold walkNext
      rcases hinc with h2 | h2
      · rw [if_pos h2, h2, ite_eq_comm a v, ite_eq_comm ((g.eAt f).tgt) v]
      · have h3 : (g.eAt f).src ≠ a := fun hc => hfl (hc.trans h2.symm)
        rw [if_neg h3, h2, ite_eq_comm ((g.eAt f).src) v, ite_eq_comm a v,
          Nat.add_comm]
    have htr : traceVerts g a (f :: l) = a :: traceVerts g (walkNext g a f) l := rfl
    have hcc : List.count v (a :: traceVerts g (walkNext g a f) l)
        = (if v = a then 1 else 0) + List.count v (traceVerts g (walkNext g a f) l) := by
      by_cases h2 : v = a
      · subst h2
        rw [List.count_cons_self, if_pos rfl]
        omega
      · rw [List.count_cons_of_ne h2, if_neg h2]
        omega
    rw [slots_cons, htr, hcc]
    omega

theorem mem_touchedVerts (g : Graph) (s : List Nat) (v : Nat) :
    v ∈ touchedVerts g s ↔ ∃ f ∈ s, (g.eAt f).src = v ∨ (g.eAt f).tgt = v := by
  unfold touchedVerts
  rw [List.mem_flatMap]
  constructor
  · rintro ⟨f, hf, hv⟩
    rcases List.mem_cons.mp hv with h1 | h1
    · exact ⟨f, hf, Or.inl h1.symm⟩
    · exact ⟨f, hf, Or.inr (List.mem_singleton.mp h1).symm⟩
  · rintro ⟨f, hf, h1 | h1⟩
    · exact ⟨f, hf, h1 ▸ List.mem_cons_self _ _⟩
    · exact ⟨f, hf, h1 ▸ List.mem_cons_of_mem _ (List.mem_singleton.mpr rfl)⟩

theorem slots_pos_touched (g : Graph) (s : List Nat) (v : Nat) :
    0 < slots g s v ↔ v ∈ touchedVerts g s := by
  rw [slots_pos_iff, mem_touchedVerts]

theorem isCycleSet_perm (g : Graph) (s s' : List Nat) (hp : s.Perm s')
    (hc : IsCycleSet g s) : IsCycleSet g s' where
  nonempty := by
    intro h
    exact hc.nonempty (List.Perm.eq_nil (h ▸ hp))
  nodup := hc.nodup.perm hp
  vis := fun e he => hc.vis e (hp.mem_iff.mpr he)
  deg2 := by
    intro v hv
    rw [← slots_perm g s s' hp] at hv ⊢
    exact hc.deg2 v hv
  conn := by
    intro a b ha hb
    rw [← slots_perm g s s' hp] at ha hb
    exact reachL_mono g s s' (fun f hf => hp.mem_iff.mp hf) a b (hc.conn a b ha hb)

/-- Closing a simple path between the endpoints of `e` with `e` itself gives
a simple cycle. -/
theorem path_cycle (g : Graph) (es : List Nat) (e : Nat) (l : List Nat)
    (hevis : g.visible e = true)
    (hw : IsWalkB g es (g.eAt e).src l ((g.eAt e).tgt))
    (hnd : (traceVerts g ((g.eAt e).src) l).Nodup)
    (hvis : ∀ f ∈ l, g.visible f = true)
    (hloopl : ∀ f ∈ l, (g.eAt f).src ≠ (g.eAt f).tgt)
    (hne : e ∉ l) :
    IsCycleSet g (e :: l) := by
  have hslots : ∀ v, slots g (e :: l) v
      = 2 * ((traceVerts g ((g.eAt e).src) l).count v) := by
    intro v
    have hpr := walk_profile g es l ((g.eAt e).src) ((g.eAt e).tgt) hloopl hw v
    have hsc := slots_cons g e l v
    have h1 : (if (g.eAt e).src = v then (1 : Nat) else 0)
        = (if v = (g.eAt e).src then 1 else 0) := ite_eq_comm _ _
    have h2 : (if (g.eAt e).tgt = v then (1 : Nat) else 0)
        = (if v = (g.eAt e).tgt then 1 else 0) := ite_eq_comm _ _
    omega
  have hcount : ∀ v, (traceVerts g ((g.eAt e).src) l).count v ≤ 1 :=
    fun v => List.nodup_iff_count_le_one.mp hnd v
  refine ⟨List.cons_ne_nil _ _, List.nodup_cons.mpr
    ⟨hne, walk_edges_nodup g es l _ _ hw hnd⟩, ?_, ?_, ?_⟩
  · intro f hf
    rcases List.mem_cons.mp hf with h1 | h1
    · exact h1 ▸ hevis
    · exact hvis f h1
  · intro v hv
    have h1 := hslots v
    have h2 := hcount v
    omega
  · intro u w hu hw2
    have hwalk : IsWalkB g (e :: l) ((g.eAt e).src) l ((g.eAt e).tgt) :=
      walk_mono g l (e :: l) (fun x hx => List.mem_cons_of_mem _ hx) _ _ _
        (walk_self g es l _ _ hw)
    have hmem : ∀ v, 0 < slots g (e :: l) v →
        v ∈ traceVerts g ((g.eAt e).src) l := by
      intro v hv
      have h1 := hslots v
      have h2 : 0 < (traceVerts g ((g.eAt e).src) l).count v := by omega
      exact List.count_pos_iff.mp h2
    have hru := trace_mem_reach g (e :: l) _ l _ u hwalk (hmem u hu)
    have hrw := trace_mem_reach g (e :: l) _ l _ w hwalk (hmem w hw2)
    exact Relation.ReflTransGen.trans (reachL_symm _ _ _ _ hru) hrw

theorem ends_lt_of_visible (g : Graph) (hok : EndsOk g) (f : Nat)
    (hf : g.visible f = true) :
    (g.eAt f).src < g.n ∧ (g.eAt f).tgt < g.n :=
  hok _ (eAt_mem g f (visible_lt g f hf))

/-- The executable simple-cycle test decides `IsCycleSet`. -/
theorem cycSetB_iff (g : Graph) (hok : EndsOk g) (s : List Nat) :
    cycSetB g s = true ↔ IsCycleSet g s := by
  unfold cycSetB
  simp only [Bool.and_eq_true, Bool.not_eq_true', List.isEmpty_eq_false,
    decide_eq_true_eq, List.all_eq_true]
  constructor
  · rintro ⟨⟨⟨⟨h1, h2⟩, h3⟩, h4⟩, h5⟩
    have hvis : ∀ f ∈ s, g.visible f = true := fun f hf => h3 f hf
    have hend : ∀ f ∈ s, (g.eAt f).src < g.n ∧ (g.eAt f).tgt < g.n :=
      fun f hf => ends_lt_of_visible g hok f (hvis f hf)
    have hdeg2 : ∀ v, 0 < slots g s v → slots g s v = 2 := by
      intro v hv
      have htv : v ∈ touchedVerts g s := (slots_pos_touched g s v).mp hv
      exact h4 v htv
    refine ⟨h1, h2, hvis, hdeg2, ?_⟩
    intro a b ha hb
    have hta : a ∈ touchedVerts g s := (slots_pos_touched g s a).mp ha
    have htb : b ∈ touchedVerts g s := (slots_pos_touched g s b).mp hb
    unfold connB at h5
    cases hmt : touchedVerts g s with
    | nil =>
      rw [hmt] at hta
      cases hta
    | cons h0 rest =>
      rw [hmt] at h5 hta htb
      have h0t : h0 ∈ touchedVerts g s := by
        rw [hmt]
        exact List.mem_cons_self _ _
      obtain ⟨f0, hf0, hor0⟩ := (mem_touchedVerts g s h0).mp h0t
      have h0lt : h0 < g.n := by
        rcases hor0 with h | h
        · exact h ▸ (hend f0 hf0).1
        · exact h ▸ (hend f0 hf0).2
      have hreach : ∀ x ∈ h0 :: rest, ReachL g s h0 x := by
        intro x hx
        rcases List.mem_cons.mp hx with h6 | h6
        · exact h6 ▸ Relation.ReflTransGen.refl
        · have h7 := List.all_eq_true.mp h5 x h6
          have h8 : x ∈ reachN g s h0 := by
            rw [← List.elem_iff]
            exact h7
          exact (reachN_iff g s hend h0 h0lt x).mp h8
      exact Relation.ReflTransGen.trans
        (reachL_symm _ _ _ _ (hreach a hta)) (hreach b htb)
  · intro hc
    have hend : ∀ f ∈ s, (g.eAt f).src < g.n ∧ (g.eAt f).tgt < g.n :=
      fun f hf => ends_lt_of_visible g hok f (hc.vis f hf)
    refine ⟨⟨⟨⟨hc.nonempty, hc.nodup⟩, hc.vis⟩, ?_⟩, ?_⟩
    · intro v hv
      exact hc.deg2 v ((slots_pos_touched g s v).mpr hv)
    · unfold connB
      cases hmt : touchedVerts g s with
      | nil => rfl
      | cons h0 rest =>
        have h0t : h0 ∈ touchedVerts g s := by
          rw [hmt]
          exact List.mem_cons_self _ _
        obtain ⟨f0, hf0, hor0⟩ := (mem_touchedVerts g s h0).mp h0t
        have h0lt : h0 < g.n := by
          rcases hor0 with h | h
          · exact h ▸ (hend f0 hf0).1
          · exact h ▸ (hend f0 hf0).2
        rw [List.all_eq_true]
        intro x hx
        have hxt : x ∈ touchedVerts g s := by
          rw [hmt]
          exact List.mem_cons_of_mem _ hx
        have hr : ReachL g s h0 x :=
          hc.conn h0 x ((slots_pos_touched g s h0).mpr h0t)
            ((slots_pos_touched g s x).mpr hxt)
        have h8 : x ∈ reachN g s h0 := (reachN_iff g s hend h0 h0lt x).mpr hr
        rw [← List.elem_iff] at h8
        exact h8

/-- The bridge test holds exactly when no simple cycle of visible edges
passes through `e`. -/
theorem isBridgeB_iff (g : Graph) (hok : EndsOk g) (e : Nat) :
    isBridgeB g e = true ↔ ¬ ∃ s, IsCycleSet g s ∧ e ∈ s := by
  have hmain : ((g.visibleIds.sublists).any (fun s => cycSetB g s && s.contains e)) = true
      ↔ ∃ s, IsCycleSet g s ∧ e ∈ s := by
    rw [List.any_eq_true]
    constructor
    · rintro ⟨t, ht, hand⟩
      rw [Bool.and_eq_true] at hand
      exact ⟨t, (cycSetB_iff g hok t).mp hand.1, List.elem_iff.mp hand.2⟩
    · rintro ⟨s, hc, hes⟩
      have hsub : s ⊆ g.visibleIds :=
        fun f hf => (mem_visibleIds g f).mpr (hc.vis f hf)
      obtain ⟨t, hperm, hsl⟩ := hc.nodup.subperm hsub
      refine ⟨t, List.mem_sublists.mpr hsl, ?_⟩
      rw [Bool.and_eq_true]
      exact ⟨(cycSetB_iff g hok t).mpr (isCycleSet_perm g s t hperm.symm hc),
        List.elem_iff.mpr (hperm.mem_iff.mpr hes)⟩
  unfold isBridgeB
  cases hb : ((g.visibleIds.sublists).any fun s => cycSetB g s && s.contains e) with
  | false =>
    refine iff_of_true rfl ?_
    intro hx
    have := hmain.mpr hx
    rw [hb] at this
    cases this
  | true =>
    refine iff_of_false ?_ ?_
    · intro hc
      cases hc
    · intro hn
      exact hn (hmain.mp hb)

/-- C5: for every loop-free input graph with in-range endpoints, an edge `e`
appears in the `bridges` list produced by the splitter if and only if
removing `e` disconnects some pair of vertices that were connected while `e`
was present. -/
theorem claim_C5 (g : Graph) (hok : EndsOk g)
    (hloop : ∀ f ∈ g.visibleIds, (g.eAt f).src ≠ (g.eAt f).tgt) (e : Nat) :
    e ∈ bridgesOf g ↔
      (g.visible e = true ∧
        ∃ u v, ReachL g g.visibleIds u v ∧
          ¬ ReachL g (g.visibleIds.erase e) u v) := by
  have hbr : e ∈ bridgesOf g ↔ (g.visible e = true ∧ isBridgeB g e = true) := by
    unfold bridgesOf
    rw [List.mem_reverse, List.mem_filter, mem_visibleIds]
  constructor
  · intro hbe
    obtain ⟨hev, hbb⟩ := hbr.mp hbe
    refine ⟨hev, (g.eAt e).src, (g.eAt e).tgt, ?_, ?_⟩
    · exact Relation.ReflTransGen.single
        ⟨e, (mem_visibleIds g e).mpr hev, Or.inl ⟨rfl, rfl⟩⟩
    · intro hre
      obtain ⟨l0, hl0⟩ := reach_to_walk g (g.visibleIds.erase e) _ _ hre
      obtain ⟨l', hw', hnd', hsub'⟩ := exists_simple_walk g (g.visibleIds.erase e)
        l0.length l0 _ _ (Nat.le_refl _) hl0
      have hl'mem : ∀ f ∈ l', f ∈ g.visibleIds.erase e :=
        walk_edges_mem g _ l' _ _ hw'
      have hl'vis : ∀ f ∈ l', g.visible f = true := fun f hf =>
        (mem_visibleIds g f).mp (List.mem_of_mem_erase (hl'mem f hf))
      have hl'loop : ∀ f ∈ l', (g.eAt f).src ≠ (g.eAt f).tgt := fun f hf =>
        hloop f (List.mem_of_mem_erase (hl'mem f hf))
      have hne : e ∉ l' := by
        intro hc
        exact ((List.Nodup.mem_erase_iff (visibleIds_nodup g)).mp
          (hl'mem e hc)).1 rfl
      have hcyc := path_cycle g _ e l' hev hw' hnd' hl'vis hl'loop hne
      exact (isBridgeB_iff g hok e).mp hbb ⟨e :: l', hcyc, List.mem_cons_self _ _⟩
  · rintro ⟨hev, u, v, huv, hnuv⟩
    apply hbr.mpr
    refine ⟨hev, (isBridgeB_iff g hok e).mpr ?_⟩
    rintro ⟨s, hc, hes⟩
    have hend_s : ∀ f ∈ s, (g.eAt f).src < g.n ∧ (g.eAt f).tgt < g.n :=
      fun f hf => ends_lt_of_visible g hok f (hc.vis f hf)
    have hdetour0 : ReachL g (s.erase e) ((g.eAt e).src) ((g.eAt e).tgt) :=
      cycle_erase_connected g s e hend_s hc hes
    have hsub : ∀ f ∈ s.erase e, f ∈ g.visibleIds.erase e := by
      intro f hf
      have h1 := (List.Nodup.mem_erase_iff hc.nodup).mp hf
      have h2 : f ∈ g.visibleIds := (mem_visibleIds g f).mpr (hc.vis f h1.2)
      exact (List.mem_erase_of_ne h1.1).mpr h2
    have hdetour : ReachL g (g.visibleIds.erase e) ((g.eAt e).src) ((g.eAt e).tgt) :=
      reachL_mono g _ _ hsub _ _ hdetour0
    have havoid : ∀ x y, ReachL g g.visibleIds x y →
        ReachL g (g.visibleIds.erase e) x y := by
      intro x y h
      induction h with
      | refl => exact Relation.ReflTransGen.refl
      | tail _ hstep ih =>
        refine Relation.ReflTransGen.trans ih ?_
        obtain ⟨f, hf, hor⟩ := hstep
        by_cases hfe : f = e
        · subst hfe
          rcases hor with ⟨h1, h2⟩ | ⟨h1, h2⟩
          · rw [← h1, ← h2]
            exact hdetour
          · rw [← h1, ← h2]
            exact reachL_symm _ _ _ _ hdetour
        · exact Relation.ReflTransGen.single
            ⟨f, (List.mem_erase_of_ne hfe).mpr hf, hor⟩
    exact hnuv (havoid u v huv)

/-- Witness for C5: the two-vertex single-edge graph, whose one edge is a
bridge. -/
theorem claim_C5_witness :
    (EndsOk (mkGraph 2 [(0, 1)]) ∧
      (∀ f ∈ (mkGraph 2 [(0, 1)]).visibleIds,
        ((mkGraph 2 [(0, 1)]).eAt f).src ≠ ((mkGraph 2 [(0, 1)]).eAt f).tgt)) ∧
    (0 ∈ bridgesOf (mkGraph 2 [(0, 1)]) ↔
      ((mkGraph 2 [(0, 1)]).visible 0 = true ∧
        ∃ u v, ReachL (mkGraph 2 [(0, 1)]) (mkGraph 2 [(0, 1)]).visibleIds u v ∧
          ¬ ReachL (mkGraph 2 [(0, 1)]) ((mkGraph 2 [(0, 1)]).visibleIds.erase 0) u v)) := by
  have h1 : EndsOk (mkGraph 2 [(0, 1)]) := by
    unfold EndsOk
    decide
  have h2 : ∀ f ∈ (mkGraph 2 [(0, 1)]).visibleIds,
      ((mkGraph 2 [(0, 1)]).eAt f).src ≠ ((mkGraph 2 [(0, 1)]).eAt f).tgt := by
    decide
  exact ⟨⟨h1, h2⟩, claim_C5 (mkGraph 2 [(0, 1)]) h1 h2 0⟩

/-!
## The full orchestrator `TRICONNECTED_COMPONENTS`

`split_graph` (triconnect.c lines 695-784), `CopyInducedGraph` (lines
1181-1216) and the orchestrator (lines 83-290) are transcribed from the
source.  The two LEDA library routines they call are not part of the
repository and are modelled from the spec: `COMPONENTS` labels every node
with the index of its connected component (components numbered in order of
first appearance over the node scan), and `Is_Biconnected` tests that the
graph is connected and stays connected after removing any single vertex. -/

/-- The set of nodes reachable from `v` along visible edges, as the
canonical increasing list. -/
def reachSet (g : Graph) (v : Nat) : List Nat :=
  (List.range g.n).filter (fun u => (reachN g g.visibleIds v).contains u)

/-- The distinct reachability classes, in order of first appearance.
Modelled from the spec: `COMPONENTS` numbers the connected components in
the order the node scan first meets them. -/
def blocksReprs (g : Graph) : List (List Nat) :=
  ((List.range g.n).map (fun v => reachSet g v)).dedup

/-- The component label `COMPONENTS` assigns to node `v`. -/
def compLabel (g : Graph) (v : Nat) : Nat :=
  @List.indexOf (List Nat) instBEqOfDecidableEq (reachSet g v) (blocksReprs g)

/-- The number of connected components. -/
def numComps (g : Graph) : Nat := (blocksReprs g).length

/-- `sigma[col].append(n)` over the node scan: the nodes of each component,
in increasing node order, listed per label. -/
def compLists (g : Graph) : List (List Nat) :=
  (List.range (numComps g)).map
    (fun k => (List.range g.n).filter (fun v => compLabel g v = k))

/-- All of `vs` mutually connected along the allowed edges (executable). -/
def connAllB (g : Graph) (es : List Nat) (vs : List Nat) : Bool :=
  match vs with
  | [] => true
  | a :: rest => rest.all (fun b => (reachN g es a).contains b)

/-- Modelled from the spec: `Is_Biconnected` holds when the graph is
connected and deleting any one vertex leaves the remaining vertices
connected. -/
def Is_BiconnectedB (g : Graph) : Bool :=
  connAllB g g.visibleIds (List.range g.n) &&
  (List.range g.n).all (fun v =>
    connAllB g
      (g.visibleIds.filter (fun e =>
        (g.eAt e).src ≠ v ∧ (g.eAt e).tgt ≠ v))
      ((List.range g.n).filter (fun u => u ≠ v)))

/-- `CopyInducedGraph(H, G, V)` (triconnect.c lines 1181-1216): `H` gets
one node per entry of `V` (so H-node `i` stands for G-node `V[i]`); then
for each `v` of `V` in order, each visible adjacent edge `e` of `v` whose
opposite endpoint `x` lies in `V` and has not been fully processed yet
(`Na[x] > 0`) yields `H.new_edge(v_in_H[x], v_in_H[v])`. -/
def cigEdgeStep (g : Graph) (V : List Nat) (v : Nat) (na : List Nat)
    (h : Graph) (e : Nat) : Graph :=
  if g.visible e then
    let x := (g.eAt e).opposite v
    if x ∈ V then
      if x ∈ na then h
      else h.newEdge (V.indexOf x) (V.indexOf v)
    else h
  else h

def cigStep (g : Graph) (V : List Nat) (acc : Graph × List Nat) (v : Nat) :
    Graph × List Nat :=
  ((g.adjOf v).foldl (cigEdgeStep g V v acc.2) acc.1, v :: acc.2)

def CopyInducedGraph (g : Graph) (V : List Nat) : Graph :=
  (V.foldl (cigStep g V) (emptyGraph V.length, [])).1

/-- Hiding the bridge list in order, with the `TRIM`-guarded
already-hidden check (`exit(1)`). -/
def hideBridges : Graph → List Nat → Out Graph
  | g, [] => .ok g
  | g, e :: es => if ¬ g.visible e then .fail g else hideBridges (g.hideEdge e) es

/-- `split_graph` (triconnect.c lines 695-784): find the bridges (blocks of
size one), and if there are any, hide them, strip pendant edges, and group
the nodes by connected component; otherwise a single group of all nodes.
Returns the mutated graph, the bridges, the node groups `sigma`, and
`deg1edges`. -/
def split_graph (g : Graph) :
    Out (Graph × List Nat × List (List Nat) × List Nat) :=
  let bridges := bridgesOf g
  if bridges.isEmpty then
    .ok (g, bridges, [List.range g.n], [])
  else
    match hideBridges g bridges with
    | .fail h => .fail (h, bridges, [], [])
    | .ok g1 =>
      let p := stripPendants g1 []
      .ok (p.1, bridges, compLists p.1, p.2)

/-- `compnum[x] = k` for every `x` of `xs`. -/
def setAll (cn : List Int) (xs : List Nat) (k : Int) : List Int :=
  xs.foldl (fun cn x => cn.set x k) cn

/-- The component-emission loop over `sigma` after the DFS (triconnect.c
lines 259-283): each non-empty `sigma[n]`, in node order, becomes the next
component (nodes mapped back through `H[.]` and pushed, hence reversed),
and its members get `compnum := cnumb`. -/
def emitDFS (V : List Nat) :
    List (List Nat) → List (List Nat) → List Int → List (List Nat) × List Int
  | [], comps, cn => (comps, cn)
  | s :: rest, comps, cn =>
    if s.isEmpty then emitDFS V rest comps cn
    else
      let comp := (s.map (fun u => V.getD u 0)).reverse
      emitDFS V rest (comps.concat comp) (setAll cn comp (Int.ofNat comps.length))

/-- One iteration of the per-component loop of the orchestrator
(triconnect.c lines 134-285) on the node group `V`: copy the induced
subgraph, emit the component directly in the isolated-vertex,
isolated-edge and cycle cases, and otherwise run `triedge_dfs` from the
first node of degree `> 2` and emit the non-empty `sigma` lists. -/
def processBlock (fuel : Nat) (g : Graph) (V : List Nat)
    (comps : List (List Nat)) (cn : List Int) :
    Out (List (List Nat) × List Int) :=
  let H := CopyInducedGraph g V
  if H.n ≤ 1 then
    if H.n = 0 then .ok (comps, cn)
    else .ok (comps.concat [V.getD 0 0], cn)
  else if H.edges.length = 1 then
    .ok (comps.concat [V.getD (H.n - 1) 0, V.getD 0 0], cn)
  else
    match (List.range H.n).find? (fun v => 2 < H.degree v) with
    | none =>
      .ok (comps.concat (((List.range H.n).map (fun v => V.getD v 0)).reverse), cn)
    | some r =>
      match triedge_dfs fuel H r with
      | .fail _ => .fail (comps, cn)
      | .ok (st, _) => .ok (emitDFS V st.sigma comps cn)

/-- The per-component loop over all node groups. -/
def processBlocks (fuel : Nat) (g : Graph) :
    List (List Nat) → List (List Nat) → List Int →
      Out (List (List Nat) × List Int)
  | [], comps, cn => .ok (comps, cn)
  | V :: rest, comps, cn =>
    match processBlock fuel g V comps cn with
    | .fail s => .fail s
    | .ok p => processBlocks fuel g rest p.1 p.2

/-- The final `cut_edges` loop (triconnect.c lines 286-292): every visible
edge whose endpoints carry different `compnum` values, pushed (hence in
reverse id order). -/
def cutEdgesOf (g : Graph) (cn : List Int) : List Nat :=
  ((List.range g.edges.length).filter (fun e =>
    g.visible e && decide (cn.getD (g.eAt e).src (-1) ≠ cn.getD (g.eAt e).tgt (-1)))).reverse

/-- The outputs of `TRICONNECTED_COMPONENTS`: the final graph, the four
edge/component lists, the per-node `compnum` array and the returned count. -/
structure TCRes where
  g : Graph
  cutEdges : List Nat
  bridges : List Nat
  sigma3 : List (List Nat)
  deg1edges : List Nat
  compnum : List Int
  cnumb : Nat
deriving DecidableEq, Repr

/-- `TRICONNECTED_COMPONENTS` (triconnect.c lines 83-296): split into
2-edge-connected groups unless the graph is biconnected (then a single
group of all nodes), check every bridge got hidden (`exit(0)` otherwise),
process each group, and collect the cut-edges from `compnum`. -/
def TRICONNECTED_COMPONENTS (fuel : Nat) (g : Graph) : Out TCRes :=
  if Is_BiconnectedB g then
    match processBlocks fuel g [List.range g.n] [] (List.replicate g.n (-1)) with
    | .fail p => .fail ⟨g, [], [], p.1, [], p.2, p.1.length⟩
    | .ok p => .ok ⟨g, cutEdgesOf g p.2, [], p.1, [], p.2, p.1.length⟩
  else
    match split_graph g with
    | .fail q => .fail ⟨q.1, [], q.2.1, q.2.2.1, q.2.2.2, List.replicate g.n (-1), 0⟩
    | .ok (g2, bridges, sigma2, deg1) =>
      if bridges.any g2.visible then
        .fail ⟨g2, [], bridges, [], deg1, List.replicate g2.n (-1), 0⟩
      else
        match processBlocks fuel g2 sigma2 [] (List.replicate g2.n (-1)) with
        | .fail p => .fail ⟨g2, [], bridges, p.1, deg1, p.2, p.1.length⟩
        | .ok p => .ok ⟨g2, cutEdgesOf g2 p.2, bridges, p.1, deg1, p.2, p.1.length⟩

/-- The S2 graph: two triangles joined by one edge.  The spec names the
vertices `1..6`; under the program's 0-based ids they are `0..5`, so the
edge set is `{(0,1),(1,2),(2,0),(3,4),(4,5),(5,3),(2,3)}` and the claimed
components are `{0,1,2}` and `{3,4,5}` with bridge `(2,3)`. -/
def g6c4 : Graph := mkGraph 6 [(0, 1), (1, 2), (2, 0), (3, 4), (4, 5), (5, 3), (2, 3)]

/-- The record the orchestrator returns on S2. -/
def r6c4 : TCRes := (TRICONNECTED_COMPONENTS 100 g6c4).get

/-- C4: on the two-triangles-with-a-bridge input S2 the algorithm returns
normally with exactly two 3-edge-connected components, `{0,1,2}` and
`{3,4,5}` (spec's `{1,2,3}` and `{4,5,6}`), and the bridges list holds
exactly the joining edge `(2,3)` (spec's `(3,4)`). -/
theorem claim_C4 :
    TRICONNECTED_COMPONENTS 100 g6c4 = Out.ok r6c4 ∧
    r6c4.cnumb = 2 ∧
    (∃ l1 l2, r6c4.sigma3 = [l1, l2] ∧ l1.Perm [0, 1, 2] ∧ l2.Perm [3, 4, 5]) ∧
    (∃ b, r6c4.bridges = [b] ∧ (g6c4.eAt b).src = 2 ∧ (g6c4.eAt b).tgt = 3) := by
  refine ⟨by decide, by decide, ⟨[2, 1, 0], [5, 4, 3], by decide, by decide, by decide⟩,
    ⟨6, by decide, by decide, by decide⟩⟩

/-!
## Generic facts used by the orchestrator proof (claim C1)
-/

theorem setAll_length (xs : List Nat) (cn : List Int) (k : Int) :
    (setAll cn xs k).length = cn.length := by
  induction xs generalizing cn with
  | nil => rfl
  | cons y ys ih =>
    show (setAll (cn.set y k) ys k).length = cn.length
    rw [ih, List.length_set]

theorem getD_set_ne (cn : List Int) (i x : Nat) (k d : Int) (h : i ≠ x) :
    (cn.set i k).getD x d = cn.getD x d := by
  rw [List.getD_eq_getElem?_getD, List.getD_eq_getElem?_getD,
    List.getElem?_set_ne h]

theorem getD_set_self (cn : List Int) (x : Nat) (k d : Int) (h : x < cn.length) :
    (cn.set x k).getD x d = k := by
  rw [List.getD_eq_getElem?_getD, List.getElem?_set_self', List.getElem?_eq_getElem h]
  rfl

theorem setAll_getD_not_mem (xs : List Nat) (cn : List Int) (k d : Int) (x : Nat)
    (h : x ∉ xs) : (setAll cn xs k).getD x d = cn.getD x d := by
  induction xs generalizing cn with
  | nil => rfl
  | cons y ys ih =>
    show (setAll (cn.set y k) ys k).getD x d = cn.getD x d
    rw [ih _ (fun hc => h (List.mem_cons_of_mem _ hc)),
      getD_set_ne _ _ _ _ _ (fun hc => h (by rw [← hc]; exact List.mem_cons_self _ _))]

theorem setAll_getD_mem (xs : List Nat) (cn : List Int) (k : Int) (x : Nat)
    (hx : x ∈ xs) (hlt : x < cn.length) : (setAll cn xs k).getD x (-1) = k := by
  induction xs generalizing cn with
  | nil => cases hx
  | cons y ys ih =>
    show (setAll (cn.set y k) ys k).getD x (-1) = k
    by_cases hxy : x ∈ ys
    · exact ih _ hxy (by rw [List.length_set]; exact hlt)
    · have hx2 : x = y := by
        rcases List.mem_cons.mp hx with h1 | h1
        · exact h1
        · exact absurd h1 hxy
      rw [setAll_getD_not_mem _ _ _ _ _ hxy, hx2, getD_set_self _ _ _ _ (hx2 ▸ hlt)]

theorem getD_replicate_neg (n x : Nat) :
    ((List.replicate n (-1 : Int)).getD x (-1)) = -1 := by
  rw [List.getD_eq_getElem?_getD]
  by_cases h : x < n
  · rw [List.getElem?_eq_getElem (by simpa using h)]
    simp
  · rw [List.getElem?_eq_none (by simpa using Nat.le_of_not_lt h)]
    rfl

theorem getD_concat_lt (L : List (List Nat)) (a : List Nat) (k : Nat)
    (h : k < L.length) : (L.concat a).getD k [] = L.getD k [] := by
  rw [List.concat_eq_append, List.getD_eq_getElem?_getD, List.getD_eq_getElem?_getD,
    List.getElem?_append_left h]

theorem getD_concat_self (L : List (List Nat)) (a : List Nat) :
    (L.concat a).getD L.length [] = a := by
  rw [List.concat_eq_append, List.getD_eq_getElem?_getD]
  rw [List.getElem?_append_right (Nat.le_refl _)]
  simp

theorem map_getD_range (V : List Nat) :
    (List.range V.length).map (fun i => V.getD i 0) = V := by
  apply List.ext_getElem
  · simp
  · intro i h1 h2
    rw [List.getElem_map, List.getElem_range, List.getD_eq_getElem _ _ h2]

theorem getD_mem_of_lt (V : List Nat) (u : Nat) (h : u < V.length) :
    V.getD u 0 ∈ V := by
  rw [List.getD_eq_getElem _ _ h]
  exact List.getElem_mem h

theorem nodup_getD_inj (V : List Nat) (hVn : V.Nodup) (u1 u2 : Nat)
    (h1 : u1 < V.length) (h2 : u2 < V.length)
    (he : V.getD u1 0 = V.getD u2 0) : u1 = u2 := by
  rw [List.getD_eq_getElem _ _ h1, List.getD_eq_getElem _ _ h2] at he
  exact (List.Nodup.getElem_inj_iff hVn).mp he

/-- The DFS over a block, when it returns, leaves `sigma` a partition of the
block's nodes into its lists (packaged from the `conc`-invariant). -/
theorem dfs_partition (fuel : Nat) (H : Graph) (r : Nat) (st : St) (P : List Nat)
    (hok : EndsOk H) (hr : r < H.n)
    (h : triedge_dfs fuel H r = Out.ok (st, P)) :
    st.sigma.length = H.n ∧ (st.sigma.flatten).Perm (List.range H.n) := by
  obtain ⟨h1, h2, _⟩ := run_inv H.n fuel (initSt H) (.vis r none) (initSt_inv H hok) hr
  have hg : (run fuel (initSt H) (.vis r none)).get = (st, P) := by
    unfold triedge_dfs at h
    rw [h]
    rfl
  rw [hg] at h1 h2
  refine ⟨h1.2.2, ?_⟩
  apply Multiset.coe_eq_coe.mp
  exact (ofList_flatten st.sigma).trans (h2.trans (sigM_initSt H))

theorem cigEdgeStep_n (g : Graph) (V : List Nat) (v : Nat) (na : List Nat)
    (h : Graph) (e : Nat) : (cigEdgeStep g V v na h e).n = h.n := by
  unfold cigEdgeStep
  split
  · dsimp only
    split
    · split
      · rfl
      · exact newEdge_n _ _ _
    · rfl
  · rfl

theorem cigEdgeStep_endsOk (g : Graph) (V : List Nat) (v : Nat) (na : List Nat)
    (h : Graph) (e : Nat) (hv : v ∈ V) (hn : h.n = V.length) (hok : EndsOk h) :
    EndsOk (cigEdgeStep g V v na h e) := by
  unfold cigEdgeStep
  split
  · dsimp only
    split
    · split
      · exact hok
      · rename_i hvis hxV hna
        intro f hf
        rw [newEdge_edges] at hf
        rw [newEdge_n, hn]
        rcases List.mem_append.mp hf with h1 | h1
        · have := hok f h1
          rw [hn] at this
          exact this
        · rw [List.mem_singleton.mp h1]
          exact ⟨List.indexOf_lt_length.mpr hxV, List.indexOf_lt_length.mpr hv⟩
    · exact hok
  · exact hok

theorem cigFold_inv (g : Graph) (V : List Nat) (v : Nat) (na : List Nat)
    (hv : v ∈ V) :
    ∀ (es : List Nat) (h : Graph), h.n = V.length → EndsOk h →
      (es.foldl (cigEdgeStep g V v na) h).n = V.length ∧
      EndsOk (es.foldl (cigEdgeStep g V v na) h) := by
  intro es
  induction es with
  | nil => intro h hn hok; exact ⟨hn, hok⟩
  | cons e es ih =>
    intro h hn hok
    rw [List.foldl_cons]
    exact ih _ ((cigEdgeStep_n g V v na h e).trans hn)
      (cigEdgeStep_endsOk g V v na h e hv hn hok)

theorem cigOuter_inv (g : Graph) (V : List Nat) :
    ∀ (W : List Nat), (∀ v ∈ W, v ∈ V) →
      ∀ (acc : Graph × List Nat), acc.1.n = V.length → EndsOk acc.1 →
      ((W.foldl (cigStep g V) acc).1).n = V.length ∧
      EndsOk ((W.foldl (cigStep g V) acc).1) := by
  intro W
  induction W with
  | nil => intro _ acc hn hok; exact ⟨hn, hok⟩
  | cons v W ih =>
    intro hW acc hn hok
    rw [List.foldl_cons]
    obtain ⟨hn2, hok2⟩ := cigFold_inv g V v acc.2 (hW v (List.mem_cons_self _ _))
      (g.adjOf v) acc.1 hn hok
    exact ih (fun x hx => hW x (List.mem_cons_of_mem _ hx))
      ((g.adjOf v).foldl (cigEdgeStep g V v acc.2) acc.1, v :: acc.2) hn2 hok2

theorem CopyInducedGraph_n (g : Graph) (V : List Nat) :
    (CopyInducedGraph g V).n = V.length :=
  (cigOuter_inv g V V (fun _ hv => hv) (emptyGraph V.length, []) rfl
    (fun _ he => absurd he (List.not_mem_nil _))).1

theorem CopyInducedGraph_endsOk (g : Graph) (V : List Nat) :
    EndsOk (CopyInducedGraph g V) :=
  (cigOuter_inv g V V (fun _ hv => hv) (emptyGraph V.length, []) rfl
    (fun _ he => absurd he (List.not_mem_nil _))).2

theorem hideBridges_inv :
    ∀ (bs : List Nat) (g g1 : Graph), hideBridges g bs = Out.ok g1 →
      EndsOk g → (g1.n = g.n ∧ EndsOk g1) := by
  intro bs
  induction bs with
  | nil =>
    intro g g1 h hok
    cases h
    exact ⟨rfl, hok⟩
  | cons e es ih =>
    intro g g1 h hok
    unfold hideBridges at h
    by_cases hv : g.visible e = true
    · rw [if_neg (by rw [hv]; exact fun hc => hc rfl)] at h
      obtain ⟨hn, hok2⟩ := ih _ _ h (hideEdge_endsOk g e hok)
      exact ⟨hn.trans (hideEdge_n g e), hok2⟩
    · rw [if_pos (by rw [Bool.not_eq_true] at hv; rw [hv]; exact Bool.false_ne_true)] at h
      cases h

theorem pendScan_inv :
    ∀ (vs : List Nat) (g : Graph) (acc : List Nat) (flag : Bool),
      EndsOk g →
      ((pendScan vs g acc flag).1.n = g.n ∧ EndsOk (pendScan vs g acc flag).1) := by
  intro vs
  induction vs with
  | nil => intro g acc flag hok; exact ⟨rfl, hok⟩
  | cons v vs ih =>
    intro g acc flag hok
    unfold pendScan
    by_cases hd : g.degree v = 1
    · rw [if_pos hd]
      cases hf : g.firstVis v with
      | none => exact ih g acc flag hok
      | some e =>
        dsimp only
        by_cases hv : g.visible e = true
        · rw [if_pos hv]
          obtain ⟨hn, hok2⟩ := ih (g.hideEdge e) (e :: acc) true
            (hideEdge_endsOk g e hok)
          exact ⟨hn.trans (hideEdge_n g e), hok2⟩
        · rw [if_neg hv]
          exact ih g acc flag hok
    · rw [if_neg hd]
      exact ih g acc flag hok

theorem pendLoop_inv :
    ∀ (fuel : Nat) (g : Graph) (acc : List Nat), EndsOk g →
      ((pendLoop fuel g acc).1.n = g.n ∧ EndsOk (pendLoop fuel g acc).1) := by
  intro fuel
  induction fuel with
  | zero => intro g acc hok; exact ⟨rfl, hok⟩
  | succ fuel ih =>
    intro g acc hok
    unfold pendLoop
    obtain ⟨hn, hok2⟩ := pendScan_inv (List.range g.n) g acc false hok
    cases hsc : pendScan (List.range g.n) g acc false with
    | mk g' p =>
      rw [hsc] at hn hok2
      dsimp only at hn hok2 ⊢
      cases hfl : p.2 with
      | true =>
        rw [if_pos rfl]
        obtain ⟨hn2, hok3⟩ := ih g' p.1 hok2
        exact ⟨hn2.trans hn, hok3⟩
      | false =>
        rw [if_neg Bool.false_ne_true]
        exact ⟨hn, hok2⟩

theorem stripPendants_inv (g : Graph) (acc : List Nat) (hok : EndsOk g) :
    (stripPendants g acc).1.n = g.n ∧ EndsOk (stripPendants g acc).1 :=
  pendLoop_inv _ g acc hok

theorem split_graph_inv (g : Graph) (g2 : Graph) (br : List Nat)
    (s2 : List (List Nat)) (d1 : List Nat)
    (h : split_graph g = Out.ok (g2, br, s2, d1)) (hok : EndsOk g) :
    g2.n = g.n ∧ EndsOk g2 := by
  unfold split_graph at h
  by_cases hbe : (bridgesOf g).isEmpty = true
  · rw [if_pos hbe] at h
    cases h
    exact ⟨rfl, hok⟩
  · rw [if_neg hbe] at h
    cases hhb : hideBridges g (bridgesOf g) with
    | fail q =>
      rw [hhb] at h
      cases h
    | ok g1 =>
      rw [hhb] at h
      dsimp only at h
      obtain ⟨hn1, hok1⟩ := hideBridges_inv (bridgesOf g) g g1 hhb hok
      obtain ⟨hn2, hok2⟩ := stripPendants_inv g1 [] hok1
      cases h
      exact ⟨hn2.trans hn1, hok2⟩

/-- Behaviour of the component-emission loop: `compnum` writes are confined
to the images of the `sigma` lists, old components are untouched, every
emitted member traces back to a `sigma` entry, every `sigma` entry lands in
exactly one fresh component with its `compnum` set to that index, and fresh
components are pairwise disjoint. -/
theorem emitDFS_spec (V : List Nat) (hVn : V.Nodup) :
    ∀ (S : List (List Nat)) (comps : List (List Nat)) (cn : List Int),
      (∀ s ∈ S, ∀ u ∈ s, u < V.length) →
      (∀ u, (S.flatten.count u) ≤ 1) →
      (∀ x ∈ V, x < cn.length) →
      ((emitDFS V S comps cn).2.length = cn.length) ∧
      (∀ x, x ∉ S.flatten.map (fun u => V.getD u 0) →
        (emitDFS V S comps cn).2.getD x (-1) = cn.getD x (-1)) ∧
      (comps.length ≤ (emitDFS V S comps cn).1.length ∧
        ∀ k, k < comps.length →
          (emitDFS V S comps cn).1.getD k [] = comps.getD k []) ∧
      (∀ k, comps.length ≤ k → k < (emitDFS V S comps cn).1.length →
        ∀ x ∈ (emitDFS V S comps cn).1.getD k [],
          ∃ u, u ∈ S.flatten ∧ u < V.length ∧ V.getD u 0 = x) ∧
      (∀ u, u ∈ S.flatten → u < V.length →
        ∃ k, comps.length ≤ k ∧ k < (emitDFS V S comps cn).1.length ∧
          V.getD u 0 ∈ (emitDFS V S comps cn).1.getD k [] ∧
          (emitDFS V S comps cn).2.getD (V.getD u 0) (-1) = Int.ofNat k) ∧
      (∀ x k, (emitDFS V S comps cn).2.getD x (-1) = Int.ofNat k →
        (cn.getD x (-1) = Int.ofNat k) ∨
        (comps.length ≤ k ∧ k < (emitDFS V S comps cn).1.length ∧
          x ∈ (emitDFS V S comps cn).1.getD k [])) ∧
      (∀ k1 k2, comps.length ≤ k1 → k1 < (emitDFS V S comps cn).1.length →
        comps.length ≤ k2 → k2 < (emitDFS V S comps cn).1.length →
        ∀ x, x ∈ (emitDFS V S comps cn).1.getD k1 [] →
          x ∈ (emitDFS V S comps cn).1.getD k2 [] → k1 = k2) := by
  intro S
  induction S with
  | nil =>
    intro comps cn _ _ _
    refine ⟨rfl, fun x _ => rfl, ⟨Nat.le_refl _, fun k _ => rfl⟩,
      fun k hk1 hk2 x _ => absurd hk2 (Nat.not_lt.mpr hk1),
      fun u hu _ => absurd hu (List.not_mem_nil _),
      fun x k h => Or.inl h,
      fun k1 k2 hk1 hk2 _ _ _ _ _ => absurd hk2 (Nat.not_lt.mpr hk1)⟩
  | cons s rest ih =>
    intro comps cn hS hcount hVlt
    have hred0 : emitDFS V (s :: rest) comps cn
        = if s.isEmpty = true then emitDFS V rest comps cn
          else emitDFS V rest (comps.concat ((s.map (fun u => V.getD u 0)).reverse))
            (setAll cn ((s.map (fun u => V.getD u 0)).reverse) (Int.ofNat comps.length)) := rfl
    by_cases hse : s.isEmpty = true
    · have hs0 : s = [] := List.isEmpty_iff.mp hse
      have hred : emitDFS V (s :: rest) comps cn = emitDFS V rest comps cn := by
        rw [hred0, if_pos hse]
      have hfl : (s :: rest).flatten = rest.flatten := by
        rw [hs0]
        simp
      rw [hred, hfl]
      exact ih comps cn (fun t ht => hS t (List.mem_cons_of_mem _ ht))
        (by rw [hfl] at hcount; exact hcount) hVlt
    · have hred : emitDFS V (s :: rest) comps cn
          = emitDFS V rest (comps.concat ((s.map (fun u => V.getD u 0)).reverse))
              (setAll cn ((s.map (fun u => V.getD u 0)).reverse) (Int.ofNat comps.length)) := by
        rw [hred0, if_neg hse]
      set comp := (s.map (fun u => V.getD u 0)).reverse with hcompdef
      set comps1 := comps.concat comp with hcomps1
      set cn1 := setAll cn comp (Int.ofNat comps.length) with hcn1
      have hfl : (s :: rest).flatten = s ++ rest.flatten := List.flatten_cons
      have hslt : ∀ u ∈ s, u < V.length := hS s (List.mem_cons_self _ _)
      have hrestlt : ∀ u ∈ rest.flatten, u < V.length := by
        intro u hu
        obtain ⟨t, ht, hut⟩ := List.mem_flatten.mp hu
        exact hS t (List.mem_cons_of_mem _ ht) u hut
      have hcomp_mem : ∀ x ∈ comp, ∃ u, u ∈ s ∧ u < V.length ∧ V.getD u 0 = x := by
        intro x hx
        rw [hcompdef, List.mem_reverse, List.mem_map] at hx
        obtain ⟨u, hu, hux⟩ := hx
        exact ⟨u, hu, hslt u hu, hux⟩
      have hmem_comp : ∀ u ∈ s, V.getD u 0 ∈ comp := by
        intro u hu
        rw [hcompdef, List.mem_reverse, List.mem_map]
        exact ⟨u, hu, rfl⟩
      have hcomp_V : ∀ x ∈ comp, x ∈ V := by
        intro x hx
        obtain ⟨u, _, hu2, hux⟩ := hcomp_mem x hx
        rw [← hux]
        exact getD_mem_of_lt V u hu2
      have hcn1len : cn1.length = cn.length := setAll_length comp cn _
      have hVlt1 : ∀ x ∈ V, x < cn1.length := by
        intro x hx
        rw [hcn1len]
        exact hVlt x hx
      have hnotboth : ∀ u, u ∈ s → u ∈ rest.flatten → False := by
        intro u hu1 hu2
        have h1 : 1 ≤ s.count u := List.one_le_count_iff.mpr hu1
        have h2 : 1 ≤ rest.flatten.count u := List.one_le_count_iff.mpr hu2
        have := hcount u
        rw [hfl, List.count_append] at this
        omega
      obtain ⟨ihA, ihB, ⟨ihC1, ihC2⟩, ihD, ihE, ihF, ihI⟩ :=
        ih comps1 cn1 (fun t ht => hS t (List.mem_cons_of_mem _ ht))
          (by
            intro u
            have := hcount u
            rw [hfl, List.count_append] at this
            omega) hVlt1
      have hc1len : comps1.length = comps.length + 1 := List.length_concat _ _
      have hresL : comps.length + 1 ≤ (emitDFS V rest comps1 cn1).1.length := by
        rw [← hc1len]
        exact ihC1
      have hatL : (emitDFS V rest comps1 cn1).1.getD comps.length [] = comp := by
        rw [ihC2 comps.length (by omega), hcomps1, getD_concat_self]
      rw [hred, hfl]
      refine ⟨?_, ?_, ?_, ?_, ?_, ?_, ?_⟩
      · rw [ihA, hcn1len]
      · intro x hx
        rw [List.map_append, List.mem_append] at hx
        have hx1 : x ∉ List.map (fun u => V.getD u 0) s := fun hc => hx (Or.inl hc)
        have hx2 : x ∉ List.map (fun u => V.getD u 0) rest.flatten := fun hc => hx (Or.inr hc)
        have hxcomp : x ∉ comp := by
          intro hc
          rw [hcompdef, List.mem_reverse] at hc
          exact hx1 hc
        rw [ihB x hx2, hcn1, setAll_getD_not_mem _ _ _ _ _ hxcomp]
      · refine ⟨by omega, ?_⟩
        intro k hk
        rw [ihC2 k (by omega), hcomps1, getD_concat_lt _ _ _ hk]
      · intro k hk1 hk2 x hx
        by_cases hkL : k = comps.length
        · subst hkL
          rw [hatL] at hx
          obtain ⟨u, hu, hu2, hux⟩ := hcomp_mem x hx
          exact ⟨u, List.mem_append.mpr (Or.inl hu), hu2, hux⟩
        · obtain ⟨u, hu, hu2, hux⟩ := ihD k (by omega) hk2 x hx
          exact ⟨u, List.mem_append.mpr (Or.inr hu), hu2, hux⟩
      · intro u hu hulen
        rcases List.mem_append.mp hu with hus | hur
        · refine ⟨comps.length, Nat.le_refl _, by omega, ?_, ?_⟩
          · rw [hatL]
            exact hmem_comp u hus
          · have hximg : V.getD u 0 ∉ List.map (fun w => V.getD w 0) rest.flatten := by
              intro hc
              obtain ⟨u2, hu2, hux⟩ := List.mem_map.mp hc
              have hu2l : u2 < V.length := hrestlt u2 hu2
              have := nodup_getD_inj V hVn u2 u hu2l hulen hux
              subst this
              exact hnotboth u2 hus hu2
            rw [ihB _ hximg, hcn1,
              setAll_getD_mem _ _ _ _ (hmem_comp u hus)
                (hVlt _ (getD_mem_of_lt V u hulen))]
        · obtain ⟨k, hk1, hk2, hk3, hk4⟩ := ihE u hur hulen
          exact ⟨k, by omega, hk2, hk3, hk4⟩
      · intro x k h
        rcases ihF x k h with h1 | h1
        · by_cases hxc : x ∈ comp
          · have hxV : x ∈ V := hcomp_V x hxc
            rw [hcn1, setAll_getD_mem _ _ _ _ hxc (hVlt _ hxV)] at h1
            have hkL : k = comps.length := by
              have := Int.ofNat.inj h1.symm
              omega
            subst hkL
            refine Or.inr ⟨Nat.le_refl _, by omega, ?_⟩
            rw [hatL]
            exact hxc
          · rw [hcn1, setAll_getD_not_mem _ _ _ _ _ hxc] at h1
            exact Or.inl h1
        · exact Or.inr ⟨by omega, h1.2.1, h1.2.2⟩
      · intro k1 k2 hk1a hk1b hk2a hk2b x hx1 hx2
        by_cases hk1L : k1 = comps.length
        · by_cases hk2L : k2 = comps.length
          · rw [hk1L, hk2L]
          · exfalso
            subst hk1L
            rw [hatL] at hx1
            obtain ⟨u1, hu1, hu1l, hu1x⟩ := hcomp_mem x hx1
            obtain ⟨u2, hu2, hu2l, hu2x⟩ := ihD k2 (by omega) hk2b x hx2
            have := nodup_getD_inj V hVn u1 u2 hu1l hu2l (hu1x.trans hu2x.symm)
            subst this
            exact hnotboth u1 hu1 hu2
        · by_cases hk2L : k2 = comps.length
          · exfalso
            subst hk2L
            rw [hatL] at hx2
            obtain ⟨u1, hu1, hu1l, hu1x⟩ := hcomp_mem x hx2
            obtain ⟨u2, hu2, hu2l, hu2x⟩ := ihD k1 (by omega) hk1b x hx1
            have := nodup_getD_inj V hVn u1 u2 hu1l hu2l (hu1x.trans hu2x.symm)
            subst this
            exact hnotboth u1 hu1 hu2
          · exact ihI k1 k2 (by omega) hk1b (by omega) hk2b x hx1 hx2

theorem indexOf_getD (V : List Nat) (x : Nat) (h : x ∈ V) :
    V.getD (V.indexOf x) 0 = x := by
  have hlt : V.indexOf x < V.length := List.indexOf_lt_length.mpr h
  rw [List.getD_eq_getElem _ _ hlt]
  exact List.getElem_indexOf hlt

/-- The invariant carried across the per-component loop: `done` is the set
of nodes of the groups already processed, `comps` the emitted components
and `cn` the `compnum` array.  Emitted members come from processed groups,
components are pairwise disjoint, a non-`-1` entry of `compnum` names the
component of its node, untouched nodes are `-1`, and along every visible
edge with processed endpoints the two `compnum` entries are defined
together and, when undefined, the endpoints cannot sit in distinct
components. -/
structure BInv (g2 : Graph) (done : List Nat) (comps : List (List Nat))
    (cn : List Int) : Prop where
  len : cn.length = g2.n
  mem_done : ∀ k, k < comps.length → ∀ x ∈ comps.getD k [], x ∈ done
  uniq : ∀ k1 k2, k1 < comps.length → k2 < comps.length →
    ∀ x, x ∈ comps.getD k1 [] → x ∈ comps.getD k2 [] → k1 = k2
  shape : ∀ x, cn.getD x (-1) = -1 ∨ ∃ k, cn.getD x (-1) = Int.ofNat k
  cn_mem : ∀ x k, cn.getD x (-1) = Int.ofNat k → k < comps.length ∧ x ∈ comps.getD k []
  fresh : ∀ x, x ∉ done → cn.getD x (-1) = -1
  edge_def : ∀ e, g2.visible e = true → (g2.eAt e).src ∈ done → (g2.eAt e).tgt ∈ done →
    ((cn.getD (g2.eAt e).src (-1) = -1) ↔ (cn.getD (g2.eAt e).tgt (-1) = -1))
  edge_sep : ∀ e, g2.visible e = true → (g2.eAt e).src ∈ done → (g2.eAt e).tgt ∈ done →
    cn.getD (g2.eAt e).src (-1) = -1 →
    ∀ i j, i < comps.length → j < comps.length →
      (g2.eAt e).src ∈ comps.getD i [] → (g2.eAt e).tgt ∈ comps.getD j [] → i = j

/-- Processing a group whose nodes got no component (the empty group). -/
theorem binv_done_mono (g2 : Graph) (done : List Nat) (comps : List (List Nat))
    (cn : List Int) (V : List Nat)
    (hinv : BInv g2 done comps cn)
    (hdisj : ∀ x ∈ V, x ∉ done)
    (hco : ∀ e, g2.visible e = true → ((g2.eAt e).src ∈ V ↔ (g2.eAt e).tgt ∈ V)) :
    BInv g2 (done ++ V) comps cn where
  len := hinv.len
  mem_done := fun k hk x hx =>
    List.mem_append.mpr (Or.inl (hinv.mem_done k hk x hx))
  uniq := hinv.uniq
  shape := hinv.shape
  cn_mem := hinv.cn_mem
  fresh := fun x hx => hinv.fresh x (fun hc => hx (List.mem_append.mpr (Or.inl hc)))
  edge_def := by
    intro e hv hs ht
    rcases List.mem_append.mp hs with hs1 | hs1
    · rcases List.mem_append.mp ht with ht1 | ht1
      · exact hinv.edge_def e hv hs1 ht1
      · exact absurd hs1 (hdisj _ ((hco e hv).mpr ht1))
    · have ht1 : (g2.eAt e).tgt ∈ V := (hco e hv).mp hs1
      rw [hinv.fresh _ (hdisj _ hs1), hinv.fresh _ (hdisj _ ht1)]
  edge_sep := by
    intro e hv hs ht hcn i j hi hj hxi hxj
    rcases List.mem_append.mp hs with hs1 | hs1
    · rcases List.mem_append.mp ht with ht1 | ht1
      · exact hinv.edge_sep e hv hs1 ht1 hcn i j hi hj hxi hxj
      · exact absurd hs1 (hdisj _ ((hco e hv).mpr ht1))
    · exact absurd (hinv.mem_done i hi _ hxi) (hdisj _ hs1)

/-- Processing a group emitted as one whole component (the trivial and
cycle branches): `compnum` untouched, one component appended. -/
theorem binv_append_comp (g2 : Graph) (done : List Nat) (comps : List (List Nat))
    (cn : List Int) (V c : List Nat)
    (hinv : BInv g2 done comps cn)
    (hdisj : ∀ x ∈ V, x ∉ done)
    (hcV : ∀ x ∈ c, x ∈ V)
    (hco : ∀ e, g2.visible e = true → ((g2.eAt e).src ∈ V ↔ (g2.eAt e).tgt ∈ V)) :
    BInv g2 (done ++ V) (comps.concat c) cn where
  len := hinv.len
  mem_done := by
    intro k hk x hx
    rw [List.length_concat] at hk
    by_cases hkL : k < comps.length
    · rw [getD_concat_lt _ _ _ hkL] at hx
      exact List.mem_append.mpr (Or.inl (hinv.mem_done k hkL x hx))
    · have hkE : k = comps.length := by omega
      rw [hkE, getD_concat_self] at hx
      exact List.mem_append.mpr (Or.inr (hcV x hx))
  uniq := by
    intro k1 k2 hk1 hk2 x hx1 hx2
    rw [List.length_concat] at hk1 hk2
    by_cases h1 : k1 < comps.length
    · by_cases h2 : k2 < comps.length
      · rw [getD_concat_lt _ _ _ h1] at hx1
        rw [getD_concat_lt _ _ _ h2] at hx2
        exact hinv.uniq k1 k2 h1 h2 x hx1 hx2
      · have hkE : k2 = comps.length := by omega
        rw [hkE, getD_concat_self] at hx2
        rw [getD_concat_lt _ _ _ h1] at hx1
        exact absurd (hinv.mem_done k1 h1 x hx1) (hdisj _ (hcV x hx2))
    · by_cases h2 : k2 < comps.length
      · have hkE : k1 = comps.length := by omega
        rw [hkE, getD_concat_self] at hx1
        rw [getD_concat_lt _ _ _ h2] at hx2
        exact absurd (hinv.mem_done k2 h2 x hx2) (hdisj _ (hcV x hx1))
      · omega
  shape := hinv.shape
  cn_mem := by
    intro x k h
    obtain ⟨hk, hx⟩ := hinv.cn_mem x k h
    rw [List.length_concat]
    exact ⟨by omega, by rw [getD_concat_lt _ _ _ hk]; exact hx⟩
  fresh := fun x hx => hinv.fresh x (fun hc => hx (List.mem_append.mpr (Or.inl hc)))
  edge_def := by
    intro e hv hs ht
    rcases List.mem_append.mp hs with hs1 | hs1
    · rcases List.mem_append.mp ht with ht1 | ht1
      · exact hinv.edge_def e hv hs1 ht1
      · exact absurd hs1 (hdisj _ ((hco e hv).mpr ht1))
    · have ht1 : (g2.eAt e).tgt ∈ V := (hco e hv).mp hs1
      rw [hinv.fresh _ (hdisj _ hs1), hinv.fresh _ (hdisj _ ht1)]
  edge_sep := by
    intro e hv hs ht hcn i j hi hj hxi hxj
    rw [List.length_concat] at hi hj
    rcases List.mem_append.mp hs with hs1 | hs1
    · rcases List.mem_append.mp ht with ht1 | ht1
      · by_cases h1 : i < comps.length
        · by_cases h2 : j < comps.length
          · rw [getD_concat_lt _ _ _ h1] at hxi
            rw [getD_concat_lt _ _ _ h2] at hxj
            exact hinv.edge_sep e hv hs1 ht1 hcn i j h1 h2 hxi hxj
          · have hkE : j = comps.length := by omega
            rw [hkE, getD_concat_self] at hxj
            exact absurd ht1 (hdisj _ (hcV _ hxj))
        · have hkE : i = comps.length := by omega
          rw [hkE, getD_concat_self] at hxi
          exact absurd hs1 (hdisj _ (hcV _ hxi))
      · exact absurd hs1 (hdisj _ ((hco e hv).mpr ht1))
    · have ht1 : (g2.eAt e).tgt ∈ V := (hco e hv).mp hs1
      by_cases h1 : i < comps.length
      · rw [getD_concat_lt _ _ _ h1] at hxi
        exact absurd (hinv.mem_done i h1 _ hxi) (hdisj _ hs1)
      · by_cases h2 : j < comps.length
        · rw [getD_concat_lt _ _ _ h2] at hxj
          exact absurd (hinv.mem_done j h2 _ hxj) (hdisj _ ht1)
        · omega

/-- Processing a group through the DFS branch: the non-empty `sigma` lists
(whose H-node entries partition `range V.length`) are emitted as fresh
components and their members' `compnum` set accordingly. -/
theorem ofNat_ne_neg_one (k : Nat) : Int.ofNat k ≠ -1 := by
  intro h
  rw [Int.ofNat_eq_natCast] at h
  omega

theorem binv_emit (g2 : Graph) (done : List Nat) (comps : List (List Nat))
    (cn : List Int) (V : List Nat) (S : List (List Nat))
    (hinv : BInv g2 done comps cn)
    (hdisj : ∀ x ∈ V, x ∉ done)
    (hVn : V.Nodup)
    (hVg : ∀ x ∈ V, x < g2.n)
    (hco : ∀ e, g2.visible e = true → ((g2.eAt e).src ∈ V ↔ (g2.eAt e).tgt ∈ V))
    (hS : ∀ s ∈ S, ∀ u ∈ s, u < V.length)
    (hcount : ∀ u, S.flatten.count u ≤ 1)
    (hcover : ∀ u, u < V.length → u ∈ S.flatten) :
    BInv g2 (done ++ V) (emitDFS V S comps cn).1 (emitDFS V S comps cn).2 := by
  have hVlt : ∀ x ∈ V, x < cn.length := by
    intro x hx
    rw [hinv.len]
    exact hVg x hx
  obtain ⟨hA, hB, ⟨hC1, hC2⟩, hD, hE, hF, hI⟩ :=
    emitDFS_spec V hVn S comps cn hS hcount hVlt
  have himgV : ∀ x, x ∈ S.flatten.map (fun u => V.getD u 0) → x ∈ V := by
    intro x hx
    obtain ⟨u, hu, hux⟩ := List.mem_map.mp hx
    have hul : u < V.length := by
      obtain ⟨t, ht, hut⟩ := List.mem_flatten.mp hu
      exact hS t ht u hut
    rw [← hux]
    exact getD_mem_of_lt V u hul
  have huntouched : ∀ x, x ∉ V →
      (emitDFS V S comps cn).2.getD x (-1) = cn.getD x (-1) :=
    fun x hx => hB x (fun hc => hx (himgV x hc))
  have hcoverV : ∀ x ∈ V, ∃ k, comps.length ≤ k ∧
      k < (emitDFS V S comps cn).1.length ∧
      x ∈ (emitDFS V S comps cn).1.getD k [] ∧
      (emitDFS V S comps cn).2.getD x (-1) = Int.ofNat k := by
    intro x hx
    have hul : V.indexOf x < V.length := List.indexOf_lt_length.mpr hx
    have hgd : V.getD (V.indexOf x) 0 = x := indexOf_getD V x hx
    obtain ⟨k, h1, h2, h3, h4⟩ := hE (V.indexOf x) (hcover _ hul) hul
    rw [hgd] at h3 h4
    exact ⟨k, h1, h2, h3, h4⟩
  have hdoneV : ∀ x ∈ done, x ∉ V := fun x hx hc => hdisj x hc hx
  refine ⟨hA.trans hinv.len, ?_, ?_, ?_, ?_, ?_, ?_, ?_⟩
  · intro k hk x hx
    by_cases hkL : k < comps.length
    · rw [hC2 k hkL] at hx
      exact List.mem_append.mpr (Or.inl (hinv.mem_done k hkL x hx))
    · obtain ⟨u, _, hul, hux⟩ := hD k (by omega) hk x hx
      exact List.mem_append.mpr (Or.inr (hux ▸ getD_mem_of_lt V u hul))
  · intro k1 k2 hk1 hk2 x hx1 hx2
    by_cases h1 : k1 < comps.length
    · by_cases h2 : k2 < comps.length
      · rw [hC2 k1 h1] at hx1
        rw [hC2 k2 h2] at hx2
        exact hinv.uniq k1 k2 h1 h2 x hx1 hx2
      · exfalso
        rw [hC2 k1 h1] at hx1
        obtain ⟨u, _, hul, hux⟩ := hD k2 (by omega) hk2 x hx2
        exact hdisj x (hux ▸ getD_mem_of_lt V u hul) (hinv.mem_done k1 h1 x hx1)
    · by_cases h2 : k2 < comps.length
      · exfalso
        rw [hC2 k2 h2] at hx2
        obtain ⟨u, _, hul, hux⟩ := hD k1 (by omega) hk1 x hx1
        exact hdisj x (hux ▸ getD_mem_of_lt V u hul) (hinv.mem_done k2 h2 x hx2)
      · exact hI k1 k2 (by omega) hk1 (by omega) hk2 x hx1 hx2
  · intro x
    by_cases hx : x ∈ V
    · obtain ⟨k, _, _, _, h4⟩ := hcoverV x hx
      exact Or.inr ⟨k, h4⟩
    · rw [huntouched x hx]
      exact hinv.shape x
  · intro x k h
    rcases hF x k h with h1 | h1
    · obtain ⟨hk, hx⟩ := hinv.cn_mem x k h1
      exact ⟨by omega, by rw [hC2 k hk]; exact hx⟩
    · exact ⟨h1.2.1, h1.2.2⟩
  · intro x hx
    have hxV : x ∉ V := fun hc => hx (List.mem_append.mpr (Or.inr hc))
    rw [huntouched x hxV]
    exact hinv.fresh x (fun hc => hx (List.mem_append.mpr (Or.inl hc)))
  · intro e hv hs ht
    rcases List.mem_append.mp hs with hs1 | hs1
    · rcases List.mem_append.mp ht with ht1 | ht1
      · rw [huntouched _ (hdoneV _ hs1), huntouched _ (hdoneV _ ht1)]
        exact hinv.edge_def e hv hs1 ht1
      · exact absurd hs1 (fun hc => hdisj _ ((hco e hv).mpr ht1) hc)
    · have ht1 : (g2.eAt e).tgt ∈ V := (hco e hv).mp hs1
      obtain ⟨ks, _, _, _, h4s⟩ := hcoverV _ hs1
      obtain ⟨kt, _, _, _, h4t⟩ := hcoverV _ ht1
      rw [h4s, h4t]
      constructor
      · intro hcon
        exact absurd hcon (ofNat_ne_neg_one ks)
      · intro hcon
        exact absurd hcon (ofNat_ne_neg_one kt)
  · intro e hv hs ht hcn i j hi hj hxi hxj
    rcases List.mem_append.mp hs with hs1 | hs1
    · rcases List.mem_append.mp ht with ht1 | ht1
      · rw [huntouched _ (hdoneV _ hs1)] at hcn
        have hiL : i < comps.length := by
          by_contra hc
          obtain ⟨u, _, hul, hux⟩ := hD i (by omega) hi _ hxi
          exact hdoneV _ hs1 (hux ▸ getD_mem_of_lt V u hul)
        have hjL : j < comps.length := by
          by_contra hc
          obtain ⟨u, _, hul, hux⟩ := hD j (by omega) hj _ hxj
          exact hdoneV _ ht1 (hux ▸ getD_mem_of_lt V u hul)
        rw [hC2 i hiL] at hxi
        rw [hC2 j hjL] at hxj
        exact hinv.edge_sep e hv hs1 ht1 hcn i j hiL hjL hxi hxj
      · exact absurd hs1 (fun hc => hdisj _ ((hco e hv).mpr ht1) hc)
    · obtain ⟨ks, _, _, _, h4s⟩ := hcoverV _ hs1
      rw [h4s] at hcn
      exact absurd hcn (ofNat_ne_neg_one ks)

/-- Each iteration of the per-component loop preserves the invariant,
extending the processed set by the group's nodes. -/
theorem processBlock_inv (fuel : Nat) (g2 : Graph) (V : List Nat)
    (done : List Nat) (comps : List (List Nat)) (cn : List Int)
    (res : List (List Nat) × List Int)
    (hres : processBlock fuel g2 V comps cn = Out.ok res)
    (hinv : BInv g2 done comps cn)
    (hVn : V.Nodup)
    (hVg : ∀ x ∈ V, x < g2.n)
    (hdisj : ∀ x ∈ V, x ∉ done)
    (hco : ∀ e, g2.visible e = true → ((g2.eAt e).src ∈ V ↔ (g2.eAt e).tgt ∈ V)) :
    BInv g2 (done ++ V) res.1 res.2 := by
  have hHn : (CopyInducedGraph g2 V).n = V.length := CopyInducedGraph_n g2 V
  unfold processBlock at hres
  dsimp only at hres
  by_cases h1 : (CopyInducedGraph g2 V).n ≤ 1
  · rw [if_pos h1] at hres
    by_cases h0 : (CopyInducedGraph g2 V).n = 0
    · rw [if_pos h0] at hres
      cases hres
      exact binv_done_mono g2 done comps cn V hinv hdisj hco
    · rw [if_neg h0] at hres
      cases hres
      have hpos : 0 < V.length := by
        rw [← hHn]
        omega
      refine binv_append_comp g2 done comps cn V [V.getD 0 0] hinv hdisj ?_ hco
      intro x hx
      rw [List.mem_singleton.mp hx]
      exact getD_mem_of_lt V 0 hpos
  · rw [if_neg h1] at hres
    by_cases h2 : (CopyInducedGraph g2 V).edges.length = 1
    · rw [if_pos h2] at hres
      cases hres
      have hpos : 0 < V.length := by
        rw [← hHn]
        omega
      have hpos2 : (CopyInducedGraph g2 V).n - 1 < V.length := by
        rw [← hHn]
        omega
      refine binv_append_comp g2 done comps cn V
        [V.getD ((CopyInducedGraph g2 V).n - 1) 0, V.getD 0 0] hinv hdisj ?_ hco
      intro x hx
      rcases List.mem_cons.mp hx with h3 | h3
      · rw [h3]
        exact getD_mem_of_lt V _ hpos2
      · rw [List.mem_singleton.mp h3]
        exact getD_mem_of_lt V 0 hpos
    · rw [if_neg h2] at hres
      cases hfind : (List.range (CopyInducedGraph g2 V).n).find?
          (fun v => 2 < (CopyInducedGraph g2 V).degree v) with
      | none =>
        rw [hfind] at hres
        dsimp only at hres
        cases hres
        refine binv_append_comp g2 done comps cn V
          (((List.range (CopyInducedGraph g2 V).n).map (fun v => V.getD v 0)).reverse)
          hinv hdisj ?_ hco
        intro x hx
        rw [List.mem_reverse, List.mem_map] at hx
        obtain ⟨u, hu, hux⟩ := hx
        rw [← hux]
        exact getD_mem_of_lt V u (by rw [← hHn]; exact List.mem_range.mp hu)
      | some r =>
        rw [hfind] at hres
        dsimp only at hres
        cases hdfs : triedge_dfs fuel (CopyInducedGraph g2 V) r with
        | fail q =>
          rw [hdfs] at hres
          cases hres
        | ok p =>
          cases p with
          | mk st P =>
            rw [hdfs] at hres
            dsimp only at hres
            cases hres
            have hr : r < (CopyInducedGraph g2 V).n :=
              List.mem_range.mp (List.mem_of_find?_eq_some hfind)
            obtain ⟨hlen, hperm⟩ := dfs_partition fuel _ r st P
              (CopyInducedGraph_endsOk g2 V) hr hdfs
            have hS : ∀ s ∈ st.sigma, ∀ u ∈ s, u < V.length := by
              intro s hs u hu
              have hf : u ∈ st.sigma.flatten := List.mem_flatten.mpr ⟨s, hs, hu⟩
              have := List.mem_range.mp (hperm.mem_iff.mp hf)
              rw [← hHn]
              exact this
            have hcount : ∀ u, st.sigma.flatten.count u ≤ 1 := by
              intro u
              rw [hperm.count_eq]
              exact List.nodup_iff_count_le_one.mp (List.nodup_range _) u
            have hcover : ∀ u, u < V.length → u ∈ st.sigma.flatten := by
              intro u hu
              exact hperm.mem_iff.mpr (List.mem_range.mpr (by rw [hHn]; exact hu))
            exact binv_emit g2 done comps cn V st.sigma hinv hdisj hVn hVg hco
              hS hcount hcover

/-- The whole per-component loop preserves the invariant over a pairwise
disjoint list of groups. -/
theorem processBlocks_inv (fuel : Nat) (g2 : Graph) :
    ∀ (Bs : List (List Nat)) (done : List Nat) (comps : List (List Nat))
      (cn : List Int) (res : List (List Nat) × List Int),
      processBlocks fuel g2 Bs comps cn = Out.ok res →
      BInv g2 done comps cn →
      (∀ V ∈ Bs, V.Nodup) →
      (∀ V ∈ Bs, ∀ x ∈ V, x < g2.n) →
      (∀ V ∈ Bs, ∀ x ∈ V, x ∉ done) →
      (∀ V ∈ Bs, ∀ e, g2.visible e = true →
        ((g2.eAt e).src ∈ V ↔ (g2.eAt e).tgt ∈ V)) →
      List.Pairwise (fun V1 V2 => ∀ x ∈ V2, x ∉ V1) Bs →
      BInv g2 (done ++ Bs.flatten) res.1 res.2 := by
  intro Bs
  induction Bs with
  | nil =>
    intro done comps cn res hres hinv _ _ _ _ _
    cases hres
    simpa using hinv
  | cons V rest ih =>
    intro done comps cn res hres hinv hn hg hd hc hpw
    unfold processBlocks at hres
    cases hpb : processBlock fuel g2 V comps cn with
    | fail q =>
      rw [hpb] at hres
      cases hres
    | ok p =>
      rw [hpb] at hres
      dsimp only at hres
      have hstep := processBlock_inv fuel g2 V done comps cn p hpb hinv
        (hn V (List.mem_cons_self _ _)) (hg V (List.mem_cons_self _ _))
        (hd V (List.mem_cons_self _ _)) (hc V (List.mem_cons_self _ _))
      have hrec := ih (done ++ V) p.1 p.2 res hres hstep
        (fun W hW => hn W (List.mem_cons_of_mem _ hW))
        (fun W hW => hg W (List.mem_cons_of_mem _ hW))
        (by
          intro W hW x hx hmem
          rcases List.mem_append.mp hmem with hm | hm
          · exact hd W (List.mem_cons_of_mem _ hW) x hx hm
          · exact (List.pairwise_cons.mp hpw).1 W hW x hx hm)
        (fun W hW => hc W (List.mem_cons_of_mem _ hW))
        (List.pairwise_cons.mp hpw).2
      rw [List.flatten_cons, ← List.append_assoc]
      exact hrec

theorem bool_eq_of_iff (a b : Bool) (h : a = true ↔ b = true) : a = b := by
  cases a
  · cases b
    · rfl
    · exact absurd (h.mpr rfl) (fun hc => Bool.noConfusion hc)
  · rw [h.mp rfl]

theorem visEndsOk (g : Graph) (hok : EndsOk g) :
    ∀ f ∈ g.visibleIds, (g.eAt f).src < g.n ∧ (g.eAt f).tgt < g.n :=
  fun f hf => ends_lt_of_visible g hok f ((mem_visibleIds g f).mp hf)

theorem mem_reachSet (g : Graph) (hok : EndsOk g) (v : Nat) (hv : v < g.n) (x : Nat) :
    x ∈ reachSet g v ↔ (x < g.n ∧ ReachL g g.visibleIds v x) := by
  unfold reachSet
  rw [List.mem_filter, List.mem_range]
  constructor
  · rintro ⟨h1, h2⟩
    refine ⟨h1, ?_⟩
    have h3 : x ∈ reachN g g.visibleIds v := by
      rw [← List.elem_iff]
      exact h2
    exact (reachN_iff g _ (visEndsOk g hok) v hv x).mp h3
  · rintro ⟨h1, h2⟩
    refine ⟨h1, ?_⟩
    have h3 : x ∈ reachN g g.visibleIds v :=
      (reachN_iff g _ (visEndsOk g hok) v hv x).mpr h2
    rw [← List.elem_iff] at h3
    exact h3

theorem reachSet_eq_of_reach (g : Graph) (hok : EndsOk g) (u v : Nat)
    (hu : u < g.n) (hv : v < g.n) (h : ReachL g g.visibleIds u v) :
    reachSet g u = reachSet g v := by
  unfold reachSet
  apply List.filter_congr
  intro x _
  apply bool_eq_of_iff
  constructor
  · intro hc
    have hr : ReachL g g.visibleIds u x :=
      (reachN_iff g _ (visEndsOk g hok) u hu x).mp (by rw [← List.elem_iff]; exact hc)
    have h2 : ReachL g g.visibleIds v x :=
      Relation.ReflTransGen.trans (reachL_symm _ _ _ _ h) hr
    have h3 : x ∈ reachN g g.visibleIds v :=
      (reachN_iff g _ (visEndsOk g hok) v hv x).mpr h2
    rw [← List.elem_iff] at h3
    exact h3
  · intro hc
    have hr : ReachL g g.visibleIds v x :=
      (reachN_iff g _ (visEndsOk g hok) v hv x).mp (by rw [← List.elem_iff]; exact hc)
    have h2 : ReachL g g.visibleIds u x := Relation.ReflTransGen.trans h hr
    have h3 : x ∈ reachN g g.visibleIds u :=
      (reachN_iff g _ (visEndsOk g hok) u hu x).mpr h2
    rw [← List.elem_iff] at h3
    exact h3

theorem reachSet_mem_blocksReprs (g : Graph) (v : Nat) (hv : v < g.n) :
    reachSet g v ∈ blocksReprs g :=
  List.mem_dedup.mpr (List.mem_map.mpr ⟨v, List.mem_range.mpr hv, rfl⟩)

theorem compLabel_lt (g : Graph) (v : Nat) (hv : v < g.n) :
    compLabel g v < numComps g := by
  unfold compLabel numComps
  exact List.indexOf_lt_length.mpr (reachSet_mem_blocksReprs g v hv)

theorem blocksReprs_at_label (g : Graph) (v : Nat) (hv : v < g.n) :
    (blocksReprs g).getD (compLabel g v) [] = reachSet g v := by
  unfold compLabel
  have hlt : @List.indexOf (List Nat) instBEqOfDecidableEq (reachSet g v) (blocksReprs g)
      < (blocksReprs g).length :=
    List.indexOf_lt_length.mpr (reachSet_mem_blocksReprs g v hv)
  rw [List.getD_eq_getElem _ _ hlt]
  exact List.getElem_indexOf hlt

theorem label_eq_reachSet_eq (g : Graph) (u v : Nat) (hu : u < g.n) (hv : v < g.n)
    (h : compLabel g u = compLabel g v) : reachSet g u = reachSet g v := by
  have h1 := blocksReprs_at_label g u hu
  have h2 := blocksReprs_at_label g v hv
  rw [← h1, ← h2, h]

theorem compLists_length (g : Graph) : (compLists g).length = numComps g := by
  unfold compLists
  simp

theorem mem_compLists_getD (g : Graph) (k : Nat) (hk : k < numComps g) (x : Nat) :
    x ∈ (compLists g).getD k [] ↔ (x < g.n ∧ compLabel g x = k) := by
  unfold compLists
  rw [List.getD_eq_getElem _ _ (by simpa using hk), List.getElem_map,
    List.getElem_range, List.mem_filter, List.mem_range, decide_eq_true_eq]

theorem visible_same_label (g : Graph) (hok : EndsOk g) (e : Nat)
    (hv : g.visible e = true) :
    compLabel g (g.eAt e).src = compLabel g (g.eAt e).tgt := by
  obtain ⟨h1, h2⟩ := ends_lt_of_visible g hok e hv
  unfold compLabel
  rw [reachSet_eq_of_reach g hok _ _ h1 h2 (Relation.ReflTransGen.single
    ⟨e, (mem_visibleIds g e).mpr hv, Or.inl ⟨rfl, rfl⟩⟩)]

/-- The group-list hypotheses the per-component loop needs. -/
def BlocksOk (g2 : Graph) (Bs : List (List Nat)) : Prop :=
  (∀ V ∈ Bs, V.Nodup) ∧ (∀ V ∈ Bs, ∀ x ∈ V, x < g2.n) ∧
  (∀ V ∈ Bs, ∀ e, g2.visible e = true →
    ((g2.eAt e).src ∈ V ↔ (g2.eAt e).tgt ∈ V)) ∧
  List.Pairwise (fun V1 V2 => ∀ x ∈ V2, x ∉ V1) Bs ∧
  (∀ x, x < g2.n → x ∈ Bs.flatten)

theorem blocksOk_range (g2 : Graph) (hok2 : EndsOk g2) :
    BlocksOk g2 [List.range g2.n] := by
  refine ⟨?_, ?_, ?_, ?_, ?_⟩
  · intro V hV
    rw [List.mem_singleton.mp hV]
    exact List.nodup_range _
  · intro V hV x hx
    rw [List.mem_singleton.mp hV] at hx
    exact List.mem_range.mp hx
  · intro V hV e hv
    rw [List.mem_singleton.mp hV]
    obtain ⟨h1, h2⟩ := ends_lt_of_visible g2 hok2 e hv
    rw [List.mem_range, List.mem_range]
    exact iff_of_true h1 h2
  · exact List.pairwise_singleton _ _
  · intro x hx
    rw [List.mem_flatten]
    exact ⟨List.range g2.n, List.mem_singleton.mpr rfl, List.mem_range.mpr hx⟩

theorem blocksOk_compLists (g2 : Graph) (hok2 : EndsOk g2) :
    BlocksOk g2 (compLists g2) := by
  have hform : ∀ V ∈ compLists g2, ∃ k, k < numComps g2 ∧
      V = (List.range g2.n).filter (fun v => compLabel g2 v = k) := by
    intro V hV
    unfold compLists at hV
    obtain ⟨k, hk, hVk⟩ := List.mem_map.mp hV
    exact ⟨k, List.mem_range.mp hk, hVk.symm⟩
  refine ⟨?_, ?_, ?_, ?_, ?_⟩
  · intro V hV
    obtain ⟨k, _, hVk⟩ := hform V hV
    rw [hVk]
    exact (List.nodup_range _).filter _
  · intro V hV x hx
    obtain ⟨k, _, hVk⟩ := hform V hV
    rw [hVk] at hx
    exact List.mem_range.mp (List.mem_filter.mp hx).1
  · intro V hV e hv
    obtain ⟨k, _, hVk⟩ := hform V hV
    obtain ⟨h1, h2⟩ := ends_lt_of_visible g2 hok2 e hv
    have hlab := visible_same_label g2 hok2 e hv
    rw [hVk, List.mem_filter, List.mem_filter, List.mem_range, List.mem_range,
      decide_eq_true_eq, decide_eq_true_eq, hlab]
    exact iff_of_eq (by rw [eq_iff_iff]; constructor <;> (intro h3; exact ⟨by omega, h3.2⟩))
  · unfold compLists
    rw [List.pairwise_map]
    have hpw : List.Pairwise (· < ·) (List.range (numComps g2)) :=
      List.pairwise_lt_range _
    apply List.Pairwise.imp ?_ hpw
    intro k1 k2 hlt x hx2 hx1
    rw [List.mem_filter, decide_eq_true_eq] at hx1 hx2
    omega
  · intro x hx
    rw [List.mem_flatten]
    refine ⟨(compLists g2).getD (compLabel g2 x) [], ?_, ?_⟩
    · have hlt : compLabel g2 x < (compLists g2).length := by
        rw [compLists_length]
        exact compLabel_lt g2 x hx
      rw [List.getD_eq_getElem _ _ hlt]
      exact List.getElem_mem hlt
    · exact (mem_compLists_getD g2 _ (compLabel_lt g2 x hx) x).mpr ⟨hx, rfl⟩

theorem binv_init (g2 : Graph) : BInv g2 [] [] (List.replicate g2.n (-1)) where
  len := by simp
  mem_done := by
    intro k hk
    exact absurd hk (by simp)
  uniq := by
    intro k1 k2 hk1
    exact absurd hk1 (by simp)
  shape := fun x => Or.inl (getD_replicate_neg _ _)
  cn_mem := by
    intro x k h
    rw [getD_replicate_neg] at h
    exact absurd h.symm (ofNat_ne_neg_one k)
  fresh := fun x _ => getD_replicate_neg _ _
  edge_def := by
    intro e _ _ _
    rw [getD_replicate_neg, getD_replicate_neg]
  edge_sep := by
    intro e _ _ _ _ i j hi
    exact absurd hi (by simp)

theorem split_graph_cases (g : Graph) (g2 : Graph) (br : List Nat)
    (s2 : List (List Nat)) (d1 : List Nat)
    (h : split_graph g = Out.ok (g2, br, s2, d1)) :
    (g2 = g ∧ s2 = [List.range g.n]) ∨ s2 = compLists g2 := by
  unfold split_graph at h
  by_cases hbe : (bridgesOf g).isEmpty = true
  · rw [if_pos hbe] at h
    cases h
    exact Or.inl ⟨rfl, rfl⟩
  · rw [if_neg hbe] at h
    cases hhb : hideBridges g (bridgesOf g) with
    | fail q =>
      rw [hhb] at h
      cases h
    | ok g1 =>
      rw [hhb] at h
      dsimp only at h
      cases h
      exact Or.inr rfl

/-- C1: when `TRICONNECTED_COMPONENTS` returns normally, the `cut_edges`
list holds exactly the visible (non-hidden) edges of the final graph whose
two endpoints lie in two different returned 3-edge-connected components. -/
theorem claim_C1 (fuel : Nat) (g : Graph) (hok : EndsOk g) (r : TCRes)
    (h : TRICONNECTED_COMPONENTS fuel g = Out.ok r) (e : Nat) :
    e ∈ r.cutEdges ↔
      (r.g.visible e = true ∧
        ∃ i j, i < r.sigma3.length ∧ j < r.sigma3.length ∧ i ≠ j ∧
          (r.g.eAt e).src ∈ r.sigma3.getD i [] ∧
          (r.g.eAt e).tgt ∈ r.sigma3.getD j []) := by
  have hmain : ∃ (done : List Nat),
      EndsOk r.g ∧ r.cutEdges = cutEdgesOf r.g r.compnum ∧
      BInv r.g done r.sigma3 r.compnum ∧ (∀ x, x < r.g.n → x ∈ done) := by
    unfold TRICONNECTED_COMPONENTS at h
    by_cases hbic : Is_BiconnectedB g = true
    · rw [if_pos hbic] at h
      cases hpb : processBlocks fuel g [List.range g.n] []
          (List.replicate g.n (-1)) with
      | fail p =>
        rw [hpb] at h
        cases h
      | ok p =>
        rw [hpb] at h
        dsimp only at h
        cases h
        obtain ⟨hBn, hBg, hBco, hBpw, hBcov⟩ := blocksOk_range g hok
        have hfin := processBlocks_inv fuel g [List.range g.n] [] []
          (List.replicate g.n (-1)) p hpb (binv_init g) hBn hBg
          (fun V _ x _ => List.not_mem_nil x) hBco hBpw
        refine ⟨[] ++ [List.range g.n].flatten, hok, rfl, hfin, ?_⟩
        intro x hx
        exact List.mem_append.mpr (Or.inr (hBcov x hx))
    · rw [if_neg hbic] at h
      cases hsp : split_graph g with
      | fail q =>
        rw [hsp] at h
        cases h
      | ok q =>
        obtain ⟨g2, br, s2, d1⟩ := q
        rw [hsp] at h
        dsimp only at h
        obtain ⟨hn2, hok2⟩ := split_graph_inv g g2 br s2 d1 hsp hok
        by_cases hbv : br.any g2.visible = true
        · rw [if_pos hbv] at h
          cases h
        · rw [if_neg hbv] at h
          cases hpb : processBlocks fuel g2 s2 [] (List.replicate g2.n (-1)) with
          | fail p =>
            rw [hpb] at h
            cases h
          | ok p =>
            rw [hpb] at h
            dsimp only at h
            cases h
            have hB : BlocksOk g2 s2 := by
              rcases split_graph_cases g g2 br s2 d1 hsp with ⟨hg2, hs2⟩ | hs2
              · subst hg2
                rw [hs2]
                exact blocksOk_range g2 hok2
              · rw [hs2]
                exact blocksOk_compLists g2 hok2
            obtain ⟨hBn, hBg, hBco, hBpw, hBcov⟩ := hB
            have hfin := processBlocks_inv fuel g2 s2 [] []
              (List.replicate g2.n (-1)) p hpb (binv_init g2) hBn hBg
              (fun V _ x _ => List.not_mem_nil x) hBco hBpw
            refine ⟨[] ++ s2.flatten, hok2, rfl, hfin, ?_⟩
            intro x hx
            exact List.mem_append.mpr (Or.inr (hBcov x hx))
  obtain ⟨done, hok2, hcut, hinv, hcov⟩ := hmain
  rw [hcut]
  have hmemcut : e ∈ cutEdgesOf r.g r.compnum ↔
      (e < r.g.edges.length ∧ r.g.visible e = true ∧
        r.compnum.getD (r.g.eAt e).src (-1) ≠ r.compnum.getD (r.g.eAt e).tgt (-1)) := by
    unfold cutEdgesOf
    rw [List.mem_reverse, List.mem_filter, List.mem_range, Bool.and_eq_true,
      decide_eq_true_eq]
  rw [hmemcut]
  constructor
  · rintro ⟨helt, hvis, hne⟩
    refine ⟨hvis, ?_⟩
    obtain ⟨hslt, htlt⟩ := hok2 _ (eAt_mem r.g e helt)
    have hsd : (r.g.eAt e).src ∈ done := hcov _ hslt
    have htd : (r.g.eAt e).tgt ∈ done := hcov _ htlt
    rcases hinv.shape ((r.g.eAt e).src) with hs1 | ⟨ks, hs1⟩
    · have ht1 := (hinv.edge_def e hvis hsd htd).mp hs1
      rw [hs1, ht1] at hne
      exact absurd rfl hne
    · rcases hinv.shape ((r.g.eAt e).tgt) with ht1 | ⟨kt, ht1⟩
      · have hs2 := (hinv.edge_def e hvis hsd htd).mpr ht1
        rw [hs2, ht1] at hne
        exact absurd rfl hne
      · obtain ⟨hks, hsmem⟩ := hinv.cn_mem _ ks hs1
        obtain ⟨hkt, htmem⟩ := hinv.cn_mem _ kt ht1
        refine ⟨ks, kt, hks, hkt, ?_, hsmem, htmem⟩
        intro hc
        rw [hs1, ht1, hc] at hne
        exact absurd rfl hne
  · rintro ⟨hvis, i, j, hi, hj, hij, hsi, htj⟩
    have helt : e < r.g.edges.length := visible_lt r.g e hvis
    refine ⟨helt, hvis, ?_⟩
    obtain ⟨hslt, htlt⟩ := hok2 _ (eAt_mem r.g e helt)
    have hsd : (r.g.eAt e).src ∈ done := hcov _ hslt
    have htd : (r.g.eAt e).tgt ∈ done := hcov _ htlt
    intro heq
    rcases hinv.shape ((r.g.eAt e).src) with hs1 | ⟨ks, hs1⟩
    · exact hij (hinv.edge_sep e hvis hsd htd hs1 i j hi hj hsi htj)
    · have ht1 : r.compnum.getD ((r.g.eAt e).tgt) (-1) = Int.ofNat ks := by
        rw [← heq]
        exact hs1
      obtain ⟨hks, hsmem⟩ := hinv.cn_mem _ ks hs1
      obtain ⟨_, htmem⟩ := hinv.cn_mem _ ks ht1
      have hik : i = ks := hinv.uniq i ks hi hks _ hsi hsmem
      have hjk : j = ks := hinv.uniq j ks hj hks _ htj htmem
      exact hij (hik.trans hjk.symm)

/-- The record the orchestrator returns on the two-node one-edge graph,
used to witness C1. -/
def rW1 : TCRes := (TRICONNECTED_COMPONENTS 10 (mkGraph 2 [(0, 1)])).get

/-- Witness for C1 at the two-node one-edge graph and its only edge. -/
theorem claim_C1_witness :
    (EndsOk (mkGraph 2 [(0, 1)]) ∧
      TRICONNECTED_COMPONENTS 10 (mkGraph 2 [(0, 1)]) = Out.ok rW1) ∧
    (0 ∈ rW1.cutEdges ↔
      (rW1.g.visible 0 = true ∧
        ∃ i j, i < rW1.sigma3.length ∧ j < rW1.sigma3.length ∧ i ≠ j ∧
          (rW1.g.eAt 0).src ∈ rW1.sigma3.getD i [] ∧
          (rW1.g.eAt 0).tgt ∈ rW1.sigma3.getD j [])) := by
  have h1 : EndsOk (mkGraph 2 [(0, 1)]) := by
    unfold EndsOk
    decide
  have h2 : TRICONNECTED_COMPONENTS 10 (mkGraph 2 [(0, 1)]) = Out.ok rW1 := by
    decide
  exact ⟨⟨h1, h2⟩, claim_C1 10 (mkGraph 2 [(0, 1)]) h1 rW1 h2 0⟩

end Triconn
